import Mathlib

/-!
Pixel-traversal segmentation algorithms of `imageSegmentation.cpp`.

A shallow embedding of the hand-written breadth-first loops of the program:

* `backtrackingSegmentation` / `backtrackingSegmentationImproved` (4-directional flood fill),
* `backtrackingSegmentation8Dir` (8-directional flood fill with the diagonal check),
* `regionGrowingSegmentation` (seeded region grower),
* `backtrackingEdgeEnhancementSegmentation` (seed grid, multi-criteria grower, confidence),
* `activeContoursSegmentation` (contour selection and snake relaxation),
* the guard of `apply_algorithm` in front of the flood fills.

The OpenCV calls around the loops (colour conversion, filters, thresholding, colour maps) are
library code; the loops are modelled on the grids those calls hand to them.

A `cv::Mat` of `uchar` is a size together with a total function from (row, column) to the
stored value.  Coordinates are `Int`, as in the source (`int nx = p.x + dx[i]`), so that the
source's bounds test `nx >= 0 && ny >= 0 && nx < cols && ny < rows` is meaningful.

Every `while (!q.empty())` loop is modelled by `bfsRun`, which takes a fuel argument; the
callers pass `rows * cols + 1`, and `bfsRun_terminates` shows that this fuel is never exhausted
when the seed lies in the grid.

Three library operations are modelled by their documented behaviour: `threshold` with
`THRESH_BINARY`, `morphologyEx` with `MORPH_CLOSE`, and the integer arithmetic of `cv::Point`
(whose rounding of a product with a `float` is a parameter).

Where the machine decides a statement it is modelled as well: the 32-bit products of the seed
grid (`wrapInt32`, `seedGridInt32`), the `double` operations of the confidence computations
(`Dbl`, rounding to the nearest value of 53 bits, ties to even), and the buffer offset of an
access that is not bounds-checked (`Mat.offset`, `regionGrowingUnchecked`).
-/

namespace ImageSegmentation

/-! ## Data model -/

/-- A pixel coordinate, `cv::Point` (`x` is the column, `y` the row). -/
@[ext]
structure Point where
  x : Int
  y : Int
deriving DecidableEq

/-- A single-channel 8-bit matrix, `cv::Mat` of type `CV_8UC1`. -/
structure Mat where
  rows : Nat
  cols : Nat
  data : Int → Int → Nat

/-- Read access `m.at<uchar>(y, x)`. -/
def Mat.px (m : Mat) (y x : Int) : Nat := m.data y x

/-- Write access `m.at<uchar>(y, x) = v`. -/
def Mat.set (m : Mat) (y x : Int) (v : Nat) : Mat :=
  { m with data := fun r c => if r = y ∧ c = x then v else m.data r c }

/-- The matrix `Mat::zeros(size, CV_8UC1)`. -/
def Mat.zeros (rows cols : Nat) : Mat := ⟨rows, cols, fun _ _ => 0⟩

/-- A matrix given by the list of its rows (used for concrete inputs). -/
def Mat.ofRows (rows cols : Nat) (l : List (List Nat)) : Mat :=
  ⟨rows, cols, fun y x => if 0 ≤ y ∧ 0 ≤ x then (l.getD y.toNat []).getD x.toNat 0 else 0⟩

/-! ## The breadth-first loop shared by all segmenters -/

/-- The mutable state of one breadth-first loop: the queue, the visited grid and the output
grid.  The field `trace` is a ghost: it records the dequeued pixels in order and is not read by
the loop. -/
structure BfsState where
  q : List Point
  visited : Mat
  segmented : Mat
  trace : List Point

/-- What distinguishes the loops of the program from one another: the grid size used in the
bounds test, the test applied to a dequeued pixel (`accept`), the value written to an accepted
pixel (`newColor`), the offset arrays `dx[]`, `dy[]` (as a list of pairs) and the extra condition
under which an in-bounds unvisited neighbour is pushed (`gate`, given the current visited grid,
the current pixel, the direction index and the neighbour). -/
structure BfsLoop where
  rows : Nat
  cols : Nat
  accept : Point → Bool
  newColor : Nat
  dirs : List (Int × Int)
  gate : Mat → Point → Nat → Point → Bool

/-- The bounds test `x >= 0 && y >= 0 && x < cols && y < rows`. -/
def BfsLoop.inside (L : BfsLoop) (p : Point) : Prop :=
  0 ≤ p.x ∧ 0 ≤ p.y ∧ p.x < L.cols ∧ p.y < L.rows

instance (L : BfsLoop) (p : Point) : Decidable (L.inside p) := by
  unfold BfsLoop.inside; infer_instance

/-- The pixel reached from `p` by the offset `d = (dx[i], dy[i])`. -/
def Point.shift (p : Point) (d : Int × Int) : Point := ⟨p.x + d.1, p.y + d.2⟩

/-- The body of the neighbour `for` loop for direction index `i` with offset `d`:
an in-bounds neighbour that is not visited and passes the gate is marked visited and pushed. -/
def examine (L : BfsLoop) (p : Point) (i : Nat) (d : Int × Int) (s : BfsState) : BfsState :=
  let nx := p.x + d.1
  let ny := p.y + d.2
  if nx ≥ 0 ∧ ny ≥ 0 ∧ nx < L.cols ∧ ny < L.rows ∧ s.visited.px ny nx = 0
      ∧ L.gate s.visited p i ⟨nx, ny⟩ = true then
    { s with visited := s.visited.set ny nx 1, q := s.q ++ [⟨nx, ny⟩] }
  else s

/-- The neighbour `for` loop, from direction index `i` on. -/
def visitNeighbours (L : BfsLoop) (p : Point) : Nat → List (Int × Int) → BfsState → BfsState
  | _, [], s => s
  | i, d :: ds, s => visitNeighbours L p (i + 1) ds (examine L p i d s)

/-- One iteration of the `while` loop with `p = q.front()` and `rest` the queue after `q.pop()`:
an accepted pixel is written to the output and its neighbours are examined. -/
def bfsStep (L : BfsLoop) (p : Point) (rest : List Point) (s : BfsState) : BfsState :=
  let s1 : BfsState := { s with q := rest, trace := s.trace ++ [p] }
  if L.accept p = true then
    visitNeighbours L p 0 L.dirs { s1 with segmented := s1.segmented.set p.y p.x L.newColor }
  else s1

/-- The loop `while (!q.empty())`, with fuel; `none` means the fuel ran out. -/
def bfsRun (L : BfsLoop) : Nat → BfsState → Option BfsState
  | 0, _ => none
  | fuel + 1, s =>
    match s.q with
    | [] => some s
    | p :: rest => bfsRun L fuel (bfsStep L p rest s)

/-- The state before the loop when a single seed is pushed on a fresh visited grid:
`q.push(seed); visited.at(seed.y, seed.x) = 1;`. -/
def seedState (L : BfsLoop) (seed : Point) (segmented : Mat) : BfsState :=
  { q := [seed], visited := (Mat.zeros L.rows L.cols).set seed.y seed.x 1,
    segmented := segmented, trace := [] }

/-! ## Flood fill, 4-directional (`backtrackingSegmentation`, `...Improved`) -/

/-- The seed of the flood fills: `(cols / 2, rows / 2)`. -/
def centreSeed (m : Mat) : Point := ⟨(m.cols : Int) / 2, (m.rows : Int) / 2⟩

/-- The value `oldColor = binary.at<uchar>(startY, startX)`. -/
def oldColor (binary : Mat) : Nat := binary.px (centreSeed binary).y (centreSeed binary).x

/-- The loop of `backtrackingSegmentation`: `dx = {0, 0, 1, -1}`, `dy = {1, -1, 0, 0}`,
the dequeued pixel is accepted when `binary.at(p.y, p.x) == oldColor`, `newColor = 128`. -/
def backtrackingLoop (binary : Mat) : BfsLoop :=
  { rows := binary.rows, cols := binary.cols,
    accept := fun p => decide (binary.px p.y p.x = oldColor binary),
    newColor := 128,
    dirs := [(0, 1), (0, -1), (1, 0), (-1, 0)],
    gate := fun _ _ _ _ => true }

/-- The flood fill of `backtrackingSegmentation` on the binarized grid, final loop state. -/
def backtrackingFill (binary : Mat) : Option BfsState :=
  bfsRun (backtrackingLoop binary) (binary.rows * binary.cols + 1)
    (seedState (backtrackingLoop binary) (centreSeed binary) binary)

/-- The grid `segmented` of `backtrackingSegmentation` before the colour map. -/
def backtrackingSegmentation (binary : Mat) : Option Mat :=
  (backtrackingFill binary).map (fun s => s.segmented)

/-- The loop of `backtrackingSegmentationImproved`: as the basic one with
`dx = {1, -1, 0, 0}`, `dy = {0, 0, 1, -1}`. -/
def improvedLoop (binary : Mat) : BfsLoop :=
  { rows := binary.rows, cols := binary.cols,
    accept := fun p => decide (binary.px p.y p.x = oldColor binary),
    newColor := 128,
    dirs := [(1, 0), (-1, 0), (0, 1), (0, -1)],
    gate := fun _ _ _ _ => true }

/-- The flood fill of `backtrackingSegmentationImproved`, final loop state. -/
def improvedFill (binary : Mat) : Option BfsState :=
  bfsRun (improvedLoop binary) (binary.rows * binary.cols + 1)
    (seedState (improvedLoop binary) (centreSeed binary) binary)

/-- The grid `segmented` of `backtrackingSegmentationImproved` before the closing step. -/
def backtrackingSegmentationImproved (binary : Mat) : Option Mat :=
  (improvedFill binary).map (fun s => s.segmented)

/-! ## Flood fill, 8-directional (`backtrackingSegmentation8Dir`) -/

/-- The flag `isValid` of `backtrackingSegmentation8Dir` for the neighbour `n` of `p` in
direction `i`: for `i >= 4` the horizontal bridge `(p.y, nx)` is tested against `oldColor` when
it is not visited, and then, if still valid, the vertical bridge `(ny, p.x)` likewise. -/
def isValid8 (binary : Mat) (visited : Mat) (p : Point) (i : Nat) (n : Point) : Bool :=
  if i ≥ 4 then
    let v1 : Bool :=
      if visited.px p.y n.x = 0 then decide (binary.px p.y n.x = oldColor binary) else true
    if v1 = true ∧ visited.px n.y p.x = 0 then decide (binary.px n.y p.x = oldColor binary)
    else v1
  else true

/-- The loop of `backtrackingSegmentation8Dir`: `dx = {1, -1, 0, 0, 1, -1, 1, -1}`,
`dy = {0, 0, 1, -1, 1, -1, -1, 1}`. -/
def eightDirLoop (binary : Mat) : BfsLoop :=
  { rows := binary.rows, cols := binary.cols,
    accept := fun p => decide (binary.px p.y p.x = oldColor binary),
    newColor := 128,
    dirs := [(1, 0), (-1, 0), (0, 1), (0, -1), (1, 1), (-1, -1), (1, -1), (-1, 1)],
    gate := isValid8 binary }

/-- The flood fill of `backtrackingSegmentation8Dir`, final loop state. -/
def eightDirFill (binary : Mat) : Option BfsState :=
  bfsRun (eightDirLoop binary) (binary.rows * binary.cols + 1)
    (seedState (eightDirLoop binary) (centreSeed binary) binary)

/-- The grid `segmented` of `backtrackingSegmentation8Dir` before the closing step. -/
def backtrackingSegmentation8Dir (binary : Mat) : Option Mat :=
  (eightDirFill binary).map (fun s => s.segmented)

/-! ## Seeded region grower (`regionGrowingSegmentation`) -/

/-- The loop of `regionGrowingSegmentation`: every dequeued pixel is written 255; a neighbour is
pushed when `abs(neighborIntensity - seedIntensity) < threshold`;
`dx = {0, 0, -1, 1}`, `dy = {-1, 1, 0, 0}`. -/
def regionGrowingLoop (gray : Mat) (seed : Point) (threshold : Int) : BfsLoop :=
  { rows := gray.rows, cols := gray.cols,
    accept := fun _ => true,
    newColor := 255,
    dirs := [(0, -1), (0, 1), (-1, 0), (1, 0)],
    gate := fun _ _ _ n =>
      decide (|(gray.px n.y n.x : Int) - (gray.px seed.y seed.x : Int)| < threshold) }

/-- The loop of `regionGrowingSegmentation` run to its end, final loop state. -/
def regionGrowingFill (gray : Mat) (seed : Point) (threshold : Int) : Option BfsState :=
  bfsRun (regionGrowingLoop gray seed threshold) (gray.rows * gray.cols + 1)
    (seedState (regionGrowingLoop gray seed threshold) seed (Mat.zeros gray.rows gray.cols))

/-- The grid `segmented` of `regionGrowingSegmentation` before the colour map, for a seed in
the grid.  (The accesses at a seed outside the grid go to another place of the pixel buffer;
`regionGrowingUnchecked` models them.) -/
def regionGrowingSegmentation (gray : Mat) (seed : Point) (threshold : Int) : Option Mat :=
  (regionGrowingFill gray seed threshold).map (fun s => s.segmented)

/-! ## Multi-criteria grower (`backtrackingEdgeEnhancementSegmentation`) -/

/-- The seed list: `for i in 1..gridSize, for j in 1..gridSize` push
`Point((cols * i) / (gridSize + 1), (rows * j) / (gridSize + 1))`.  The operands are
non-negative, so the truncating division of the source is `/`.  The products are taken in
unbounded integers here; `seedGridInt32` has the 32-bit products of the source, and the two
lists agree while `cols * gridSize` and `rows * gridSize` stay below `2 ^ 31`. -/
def seedGrid (cols rows gridSize : Nat) : List Point :=
  (List.range' 1 gridSize).flatMap (fun (i : Nat) =>
    (List.range' 1 gridSize).map (fun (j : Nat) =>
      (⟨((cols : Int) * (i : Int)) / ((gridSize : Int) + 1),
        ((rows : Int) * (j : Int)) / ((gridSize : Int) + 1)⟩ : Point)))

/-- The flag `isValidPixel` for a neighbour `n` during the expansion of `seed`, with
`T = BACKTRACKING_THRESHOLD`.  The source compares in `double`:
`gradientDiff < T * 0.5` and `gradMag < T * 1.5`; all quantities are integers, for which these
comparisons are exactly `2 * gradientDiff < T` and `2 * gradMag < 3 * T`. -/
def isValidPixel (enhanced gradMag : Mat) (T : Int) (seed n : Point) : Bool :=
  let refIntensity : Int := enhanced.px seed.y seed.x
  let refGradient : Int := gradMag.px seed.y seed.x
  let intensityDiff : Int := |(enhanced.px n.y n.x : Int) - refIntensity|
  let gradientDiff : Int := |(gradMag.px n.y n.x : Int) - refGradient|
  decide (intensityDiff < T) && decide (2 * gradientDiff < T)
    && decide (2 * (gradMag.px n.y n.x : Int) < 3 * T)

/-- The loop run for one seed of the multi-criteria grower: a dequeued pixel is accepted when
`binary.at(p.y, p.x) > 0` and written 255; 8 offsets; a neighbour is pushed when `isValidPixel`. -/
def edgeLoop (enhanced gradMag binary : Mat) (T : Int) (seed : Point) : BfsLoop :=
  { rows := enhanced.rows, cols := enhanced.cols,
    accept := fun p => decide (binary.px p.y p.x > 0),
    newColor := 255,
    dirs := [(1, 0), (-1, 0), (0, 1), (0, -1), (1, 1), (-1, -1), (1, -1), (-1, 1)],
    gate := fun _ _ _ n => isValidPixel enhanced gradMag T seed n }

/-- The body of `for (const Point& seed : seeds)`: a seed that is already visited is skipped
(`continue`); otherwise it is pushed on a new queue, marked visited, and the loop runs. -/
def processSeed (L : BfsLoop) (fuel : Nat) (seed : Point) (s : BfsState) : Option BfsState :=
  if s.visited.px seed.y seed.x ≠ 0 then some s
  else bfsRun L fuel { s with q := [seed], visited := s.visited.set seed.y seed.x 1 }

/-- The loop over the seed list; `mk seed` is the breadth-first loop for that seed. -/
def growSeeds (mk : Point → BfsLoop) (fuel : Nat) : List Point → BfsState → Option BfsState
  | [], s => some s
  | seed :: rest, s => (processSeed (mk seed) fuel seed s).bind (growSeeds mk fuel rest)

/-- Step 4 of `backtrackingEdgeEnhancementSegmentation` for a given seed list, on the enhanced
image, the gradient magnitude and the candidate mask: final state of the seed loop. -/
def edgeGrow (enhanced gradMag binary : Mat) (T : Int) (seeds : List Point) : Option BfsState :=
  growSeeds (edgeLoop enhanced gradMag binary T) (enhanced.rows * enhanced.cols + 1) seeds
    { q := [], visited := Mat.zeros enhanced.rows enhanced.cols,
      segmented := Mat.zeros enhanced.rows enhanced.cols, trace := [] }

/-- The grid `segmented` of `backtrackingEdgeEnhancementSegmentation` after step 4
(`gridSize = 3`). -/
def backtrackingEdgeEnhancementSegmentation (enhanced gradMag binary : Mat) (T : Int) :
    Option Mat :=
  (edgeGrow enhanced gradMag binary T (seedGrid enhanced.cols enhanced.rows 3)).map
    (fun s => s.segmented)

/-! ## Reachability notions used in the statements -/

/-- The pixel `b` is 4-adjacent to `a`: it shares an edge with it. -/
def Adj4 (a b : Point) : Prop :=
  (b.x = a.x ∧ (b.y = a.y + 1 ∨ b.y = a.y - 1)) ∨ (b.y = a.y ∧ (b.x = a.x + 1 ∨ b.x = a.x - 1))

/-- The pixel `p` lies inside a grid with the given numbers of rows and columns. -/
def InGrid (rows cols : Nat) (p : Point) : Prop :=
  0 ≤ p.x ∧ 0 ≤ p.y ∧ p.x < cols ∧ p.y < rows

/-- `Joined4 rows cols ok seed p`: there is a path of 4-adjacent in-grid pixels from `seed` to
`p` all of whose pixels, `seed` included, satisfy `ok`. -/
inductive Joined4 (rows cols : Nat) (ok : Point → Prop) (seed : Point) : Point → Prop
  | start : InGrid rows cols seed → ok seed → Joined4 rows cols ok seed seed
  | step {a b : Point} : Joined4 rows cols ok seed a → Adj4 a b → InGrid rows cols b → ok b →
      Joined4 rows cols ok seed b

/-- `Grown4 rows cols ok seed p`: `p` is `seed`, or there is a path of 4-adjacent in-grid pixels
from `seed` to `p` all of whose pixels after `seed` satisfy `ok`. -/
inductive Grown4 (rows cols : Nat) (ok : Point → Prop) (seed : Point) : Point → Prop
  | start : Grown4 rows cols ok seed seed
  | step {a b : Point} : Grown4 rows cols ok seed a → Adj4 a b → InGrid rows cols b → ok b →
      Grown4 rows cols ok seed b

instance (rows cols : Nat) (p : Point) : Decidable (InGrid rows cols p) := by
  unfold InGrid; infer_instance

instance (a b : Point) : Decidable (Adj4 a b) := by
  unfold Adj4; infer_instance

/-- A binarized grid: every pixel of the grid is 0 or 255 (the output of the thresholding). -/
def IsBinarized (m : Mat) : Prop :=
  ∀ p : Point, InGrid m.rows m.cols p → m.px p.y p.x = 0 ∨ m.px p.y p.x = 255

/-- The pixel `p` carries the seed's binarized value (`binary.at(p.y, p.x) == oldColor`). -/
def Matches (binary : Mat) (p : Point) : Prop := binary.px p.y p.x = oldColor binary

instance (binary : Mat) (p : Point) : Decidable (Matches binary p) := by
  unfold Matches; infer_instance

/-- The 4-connected component of the centre seed among the pixels that carry its value. -/
def SeedComponent4 (binary : Mat) (p : Point) : Prop :=
  Joined4 binary.rows binary.cols (Matches binary) (centreSeed binary) p

/-- The offsets of a loop are exactly the four edge-sharing ones. -/
def FourDirs (L : BfsLoop) : Prop :=
  ∀ a b : Point, Adj4 a b ↔ ∃ (k : Nat) (d : Int × Int), L.dirs.get? k = some d ∧ b = a.shift d

/-- A 3 x 3 binarized grid used as a concrete input: the centre, its right neighbour and the
bottom-right corner are foreground, as is the isolated top-left corner. -/
def grid3 : Mat := Mat.ofRows 3 3 [[255, 0, 0], [0, 255, 255], [0, 0, 255]]

/-- A flat grid: all pixels of the grid have the same value. -/
def IsFlat (m : Mat) : Prop :=
  ∀ p q : Point, InGrid m.rows m.cols p → InGrid m.rows m.cols q → m.px p.y p.x = m.px q.y q.x

/-- A flat 2 x 3 binarized grid used as a concrete input. -/
def flatGrid : Mat := Mat.ofRows 2 3 [[255, 255, 255], [255, 255, 255]]

/-- The 3 x 3 grid whose centre seed and top-left corner are foreground and whose other seven
pixels are background. -/
def cornerGrid : Mat := Mat.ofRows 3 3 [[255, 0, 0], [0, 255, 0], [0, 0, 0]]

/-- The growth predicate of the seeded region grower:
`abs(intensity(n) - seedIntensity) < threshold`, with strict inequality. -/
def Within (gray : Mat) (seed : Point) (threshold : Int) (n : Point) : Prop :=
  |(gray.px n.y n.x : Int) - (gray.px seed.y seed.x : Int)| < threshold

instance (gray : Mat) (seed : Point) (threshold : Int) (n : Point) :
    Decidable (Within gray seed threshold n) := by
  unfold Within; infer_instance

/-- A 1 x 4 grayscale grid used as a concrete input for the region grower. -/
def grayRow : Mat := Mat.ofRows 1 4 [[100, 105, 110, 104]]

/-- Generic reachability for a loop `L`: `seed` is reached; from a reached and accepted
pixel `p` the in-bounds neighbour in direction `k` is reached when `G p k n` holds. -/
inductive Reach (L : BfsLoop) (G : Point → Nat → Point → Prop) (seed : Point) : Point → Prop
  | start : Reach L G seed seed
  | step {p : Point} {k : Nat} {d : Int × Int} : Reach L G seed p → L.accept p = true →
      L.dirs.get? k = some d → L.inside (p.shift d) → G p k (p.shift d) →
      Reach L G seed (p.shift d)

/-- The number of in-bounds pixels of the visited grid that are still 0. -/
def unvisited (L : BfsLoop) (v : Mat) : Nat :=
  ((Finset.Ico (0 : Int) L.cols ×ˢ Finset.Ico (0 : Int) L.rows).filter
    (fun c => v.px c.2 c.1 = 0)).card

/-- The termination measure: unvisited in-bounds pixels plus queue length. -/
def bfsMeasure (L : BfsLoop) (s : BfsState) : Nat := unvisited L s.visited + s.q.length

/-- The effect of a successful examination: `visited.at(n) = 1; q.push(n)`. -/
def BfsState.push (s : BfsState) (n : Point) : BfsState :=
  { s with visited := s.visited.set n.y n.x 1, q := s.q ++ [n] }

/-- The state before the loop when `seed` is pushed on a new queue over the visited grid `V0`
and the output grid `seg0`: `q.push(seed); visited.at(seed.y, seed.x) = 1;`. -/
def startState (V0 seg0 : Mat) (seed : Point) : BfsState :=
  { q := [seed], visited := V0.set seed.y seed.x 1, segmented := seg0, trace := [] }

/-- The completeness invariant of a loop started from `seed` over the visited grid `V0`,
relative to a neighbour condition `G`: the seed is visited, every visited pixel was visited in
`V0`, is queued or was dequeued, and every in-bounds `G`-neighbour of a dequeued accepted pixel
is visited. -/
structure Covered (L : BfsLoop) (G : Point → Nat → Point → Prop) (V0 : Mat) (seed : Point)
    (s : BfsState) : Prop where
  seed_vis : s.visited.px seed.y seed.x ≠ 0
  vis : ∀ r : Point, s.visited.px r.y r.x ≠ 0 → V0.px r.y r.x ≠ 0 ∨ r ∈ s.q ∨ r ∈ s.trace
  closed : ∀ r ∈ s.trace, L.accept r = true → ∀ (k : Nat) (d : Int × Int),
    L.dirs.get? k = some d → L.inside (r.shift d) → G r k (r.shift d) →
    s.visited.px (r.shift d).y (r.shift d).x ≠ 0

/-- The seed grid as the specification words it, in row-major order: all seeds of the top row
from left to right, then the next row (the row index `j` is the outer loop). -/
def rowMajorSeedGrid (cols rows gridSize : Nat) : List Point :=
  (List.range' 1 gridSize).flatMap (fun (j : Nat) =>
    (List.range' 1 gridSize).map (fun (i : Nat) =>
      (⟨((cols : Int) * (i : Int)) / ((gridSize : Int) + 1),
        ((rows : Int) * (j : Int)) / ((gridSize : Int) + 1)⟩ : Point)))

/-- The seed `(x, y)` lies strictly inside the image: `1 <= x <= cols - 2`, `1 <= y <= rows - 2`. -/
def StrictlyInside (cols rows : Nat) (p : Point) : Prop :=
  1 ≤ p.x ∧ p.x ≤ (cols : Int) - 2 ∧ 1 ≤ p.y ∧ p.y ≤ (rows : Int) - 2

instance (cols rows : Nat) (p : Point) : Decidable (StrictlyInside cols rows p) := by
  unfold StrictlyInside; infer_instance

/-- The pixel `b` is 8-adjacent to `a`: it shares an edge or a corner with it. -/
def Adj8 (a b : Point) : Prop := b ≠ a ∧ |b.x - a.x| ≤ 1 ∧ |b.y - a.y| ≤ 1

instance (a b : Point) : Decidable (Adj8 a b) := by
  unfold Adj8; infer_instance

/-- The three numeric gates of the multi-criteria grower in exact rational arithmetic, for a
neighbour `n` and the reference values taken at `seed`:
`|intensity(n) - r| < intensityTol`, `|gradient(n) - g| < gradientTol / 2` and
`gradient(n) < edgeCeiling * 1.5`. -/
def NumericGates (enhanced gradMag : Mat) (intensityTol gradientTol edgeCeiling : ℚ)
    (seed n : Point) : Prop :=
  |((enhanced.px n.y n.x : Int) : ℚ) - ((enhanced.px seed.y seed.x : Int) : ℚ)| < intensityTol ∧
  |((gradMag.px n.y n.x : Int) : ℚ) - ((gradMag.px seed.y seed.x : Int) : ℚ)| < gradientTol / 2 ∧
  ((gradMag.px n.y n.x : Int) : ℚ) < edgeCeiling * (3 / 2)

/-- The state before the seed loop of the multi-criteria grower: empty queue and zero grids. -/
def edgeStart (enhanced : Mat) : BfsState :=
  { q := [], visited := Mat.zeros enhanced.rows enhanced.cols,
    segmented := Mat.zeros enhanced.rows enhanced.cols, trace := [] }

/-- A 1 x 3 enhanced image used as a concrete input: intensities 0, 10, 20. -/
def rowEnhanced : Mat := Mat.ofRows 1 3 [[0, 10, 20]]

/-- A 1 x 3 gradient magnitude used as a concrete input: all zero. -/
def rowGradient : Mat := Mat.ofRows 1 3 [[0, 0, 0]]

/-- A 1 x 3 candidate mask used as a concrete input: all foreground. -/
def rowMask : Mat := Mat.ofRows 1 3 [[255, 255, 255]]

/-- A state of the seed loop on the 1 x 3 image in which pixel `(1,0)` has been visited,
dequeued and labelled by an earlier expansion. -/
def claimedState : BfsState :=
  { q := [], visited := (Mat.zeros 1 3).set 0 1 1, segmented := (Mat.zeros 1 3).set 0 1 255,
    trace := [⟨1, 0⟩] }

/-- The state `s` with the ghost trace prefixed by `pre`. -/
def BfsState.prepend (pre : List Point) (s : BfsState) : BfsState :=
  { s with trace := pre ++ s.trace }

/-! ## Confidence score of the multi-criteria grower -/

/-- The confidence of a filtered contour of area `area` on an image of `rows x cols` pixels:
`double maxArea = gray.rows * gray.cols; double confidence = min(area / maxArea * 4, 1.0);`,
in exact rational arithmetic. -/
def confidence (area : ℚ) (rows cols : Nat) : ℚ :=
  let maxArea : ℚ := ((rows * cols : Nat) : ℚ)
  min (area / maxArea * 4) 1

/-! ## Snake relaxation (`activeContoursSegmentation`) -/

/-- The loop that selects the largest contour, over the list of the areas still to visit, with
the loop index `i` and the variables `largest_contour_idx` and `largest_area`:
`if (area > largest_area) { largest_area = area; largest_contour_idx = i; }`. -/
def largestLoop : List ℚ → Nat → Nat → ℚ → Nat
  | [], _, idx, _ => idx
  | area :: rest, i, idx, largest =>
    if area > largest then largestLoop rest (i + 1) i area
    else largestLoop rest (i + 1) idx largest

/-- The index `largest_contour_idx` after the loop, started with index 0 and area 0. -/
def largestContourIdx (areas : List ℚ) : Nat := largestLoop areas 0 0 0

/-- The failure that the segmentation code itself reports: the exception thrown by
`activeContoursSegmentation` when `contours.empty()` ("No contours found in the image").  The
name is that of the specification's error kind. -/
inductive SegError where
  | NoInitialContour
deriving DecidableEq

/-- A `float` constant of the program, given by its decimal fraction `num / den`. -/
structure Coef where
  num : Int
  den : Int

/-- The constant `ACTIVE_CONTOURS_ALPHA = 0.1`. -/
def ACTIVE_CONTOURS_ALPHA : Coef := ⟨1, 10⟩

/-- The constant `ACTIVE_CONTOURS_GAMMA = 0.4`. -/
def ACTIVE_CONTOURS_GAMMA : Coef := ⟨4, 10⟩

/-- The constant `ACTIVE_CONTOURS_ITERATIONS = 100`. -/
def ACTIVE_CONTOURS_ITERATIONS : Nat := 100

/-- The expression `1 - a` for a constant `a`. -/
def Coef.oneMinus (a : Coef) : Coef := ⟨a.den - a.num, a.den⟩

/-- The rational value of a constant. -/
def Coef.toRat (a : Coef) : ℚ := (a.num : ℚ) / (a.den : ℚ)

/-- The sum of two points, `a + b` on `cv::Point`. -/
def Point.add (a b : Point) : Point := ⟨a.x + b.x, a.y + b.y⟩

/-- The difference of two points, `a - b` on `cv::Point`. -/
def Point.sub (a b : Point) : Point := ⟨a.x - b.x, a.y - b.y⟩

/-- The product `a * p` of a `float` constant and a `cv::Point`.  A `cv::Point` has `int`
coordinates, so the library rounds each coordinate product to an `int`; that rounding is the
parameter `scale`, with `scale a x` the coordinate computed for `a * x`. -/
def Point.scaleBy (scale : Coef → Int → Int) (a : Coef) (p : Point) : Point :=
  ⟨scale a p.x, scale a p.y⟩

/-- The quotient `p / b` of a `cv::Point` by an `int`: the `int` division of each coordinate,
which truncates. -/
def Point.divInt (p : Point) (b : Int) : Point := ⟨Int.tdiv p.x b, Int.tdiv p.y b⟩

/-- The quotient `n / d` for `d > 0` rounded to the nearest integer, ties to the even one. -/
def roundHalfEven (n d : Int) : Int :=
  let q := n / d
  let r := n % d
  if 2 * r < d then q else if 2 * r > d then q + 1 else if q % 2 = 0 then q else q + 1

/-- A concrete rounding for `Point.scaleBy`: the exact product rounded to the nearest
integer. -/
def nearestScale (a : Coef) (x : Int) : Int := roundHalfEven (a.num * x) a.den

/-- The candidate position of a snake point:
`(1 - ACTIVE_CONTOURS_ALPHA) * snake[i] + ACTIVE_CONTOURS_ALPHA * (snake[prev] + snake[next]) / 2`
evaluated left to right on `cv::Point`. -/
def relaxCandidate (scale : Coef → Int → Int) (cur prev next : Point) : Point :=
  (cur.scaleBy scale ACTIVE_CONTOURS_ALPHA.oneMinus).add
    (((prev.add next).scaleBy scale ACTIVE_CONTOURS_ALPHA).divInt 2)

/-- The new value of `snake[i]`: the candidate, pulled by
`snake[i] + ACTIVE_CONTOURS_GAMMA * (newPoint - snake[i])` when it lies inside the edge map on a
non-zero pixel. -/
def relaxPoint (scale : Coef → Int → Int) (edges : Mat) (cur prev next : Point) : Point :=
  let newPoint := relaxCandidate scale cur prev next
  if newPoint.x ≥ 0 ∧ newPoint.y ≥ 0 ∧ newPoint.x < edges.cols ∧ newPoint.y < edges.rows then
    if edges.px newPoint.y newPoint.x > 0 then
      cur.add ((newPoint.sub cur).scaleBy scale ACTIVE_CONTOURS_GAMMA)
    else newPoint
  else newPoint

/-- The index `prev = (i == 0) ? snake.size() - 1 : i - 1`. -/
def prevIdx (n i : Nat) : Nat := if i = 0 then n - 1 else i - 1

/-- The index `next = (i == snake.size() - 1) ? 0 : i + 1`. -/
def nextIdx (n i : Nat) : Nat := if i = n - 1 then 0 else i + 1

/-- The inner loop `for (i = 0; i < snake.size(); i++) snake[i] = ...` from index `i` on, with
`k` iterations left; `f cur prev next` is the new value of a point. -/
def relaxSweep (f : Point → Point → Point → Point) : Nat → Nat → List Point → List Point
  | 0, _, snake => snake
  | k + 1, i, snake =>
    relaxSweep f k (i + 1)
      (snake.set i (f (snake.getD i ⟨0, 0⟩) (snake.getD (prevIdx snake.length i) ⟨0, 0⟩)
        (snake.getD (nextIdx snake.length i) ⟨0, 0⟩)))

/-- One pass of the relaxation over the whole snake. -/
def relaxPass (f : Point → Point → Point → Point) (snake : List Point) : List Point :=
  relaxSweep f snake.length 0 snake

/-- The outer loop: `iters` passes. -/
def relaxIter (f : Point → Point → Point → Point) : Nat → List Point → List Point
  | 0, snake => snake
  | iters + 1, snake => relaxIter f iters (relaxPass f snake)

/-- The function `activeContoursSegmentation` from the contours found in the edge map on:
it throws when there is no contour, otherwise it relaxes the contour of largest area and
returns the snake (the source draws it on a copy of the image).  `contourArea` is the library's
area of a contour. -/
def activeContoursSegmentation (scale : Coef → Int → Int) (contourArea : List Point → ℚ)
    (edges : Mat) (contours : List (List Point)) : Except SegError (List Point) :=
  if contours.isEmpty then Except.error SegError.NoInitialContour
  else
    let snake := contours.getD (largestContourIdx (contours.map contourArea)) []
    Except.ok (relaxIter (relaxPoint scale edges) ACTIVE_CONTOURS_ITERATIONS snake)

/-! ## Binarization, entry guard and closing around the flood fills -/

/-- The OpenCV call `threshold(src, dst, thresh, maxval, THRESH_BINARY)` made by every
flood-fill variant (`threshold(gray, binary, threshValue, 255, THRESH_BINARY)`).  The function
is library code; OpenCV documents `THRESH_BINARY` as `dst(x, y) = maxval` if
`src(x, y) > thresh` and `0` otherwise. -/
def thresholdBinary (src : Mat) (thresh : Int) (maxval : Nat) : Mat :=
  { src with data := fun y x => if (src.data y x : Int) > thresh then maxval else 0 }

/-- The binarization as the specification words it: a pixel `>= threshold` becomes the
foreground value, every other pixel the background value 0. -/
def binarizeAtLeast (src : Mat) (thresh : Int) (maxval : Nat) : Mat :=
  { src with data := fun y x => if (src.data y x : Int) ≥ thresh then maxval else 0 }

/-- The test `Mat::empty()`: no rows or no columns. -/
def Mat.empty (m : Mat) : Bool := m.rows == 0 || m.cols == 0

/-- The position `(x, y)` lies in the grid of `m`. -/
def Mat.has (m : Mat) (y x : Int) : Bool :=
  decide (0 ≤ x) && decide (0 ≤ y) && decide (x < m.cols) && decide (y < m.rows)

/-- The values of `m` under the structuring element `kernel` (a list of offsets `(dx, dy)`
from the anchor) placed at `(x, y)`; positions outside the image are left out, which is how the
library's default border value acts for both dilation and erosion. -/
def windowValues (kernel : List (Int × Int)) (m : Mat) (y x : Int) : List Nat :=
  (kernel.filter (fun d => m.has (y + d.2) (x + d.1))).map (fun d => m.px (y + d.2) (x + d.1))

/-- Grey-level dilation: the maximum over the window.  Both kernels of the program contain
the anchor, so starting the maximum from the centre value changes nothing. -/
def dilate (kernel : List (Int × Int)) (m : Mat) : Mat :=
  { m with data := fun y x => (windowValues kernel m y x).foldl max (m.px y x) }

/-- Grey-level erosion: the minimum over the window. -/
def erode (kernel : List (Int × Int)) (m : Mat) : Mat :=
  { m with data := fun y x => (windowValues kernel m y x).foldl min (m.px y x) }

/-- The call `morphologyEx(src, dst, MORPH_CLOSE, kernel)`: dilation followed by erosion. -/
def morphClose (kernel : List (Int × Int)) (m : Mat) : Mat := erode kernel (dilate kernel m)

/-- The kernel `getStructuringElement(MORPH_RECT, Size(3, 3))`: the full 3 x 3 window. -/
def rectKernel3 : List (Int × Int) :=
  [(-1, -1), (0, -1), (1, -1), (-1, 0), (0, 0), (1, 0), (-1, 1), (0, 1), (1, 1)]

/-- The kernel `getStructuringElement(MORPH_ELLIPSE, Size(5, 5))`: the 5 x 5 window without
the two outer pixels on each side of its first and last row. -/
def ellipseKernel5 : List (Int × Int) :=
  [(0, -2),
   (-2, -1), (-1, -1), (0, -1), (1, -1), (2, -1),
   (-2, 0), (-1, 0), (0, 0), (1, 0), (2, 0),
   (-2, 1), (-1, 1), (0, 1), (1, 1), (2, 1),
   (0, 2)]

/-- The grid that `backtrackingSegmentation8Dir` hands to the colour map: the fill followed by
the closing with the 3 x 3 rectangle. -/
def backtrackingSegmentation8DirClosed (binary : Mat) : Option Mat :=
  (backtrackingSegmentation8Dir binary).map (morphClose rectKernel3)

/-- The grid that `backtrackingSegmentationImproved` hands to the colour map: the fill
followed by the closing with the 5 x 5 ellipse. -/
def backtrackingSegmentationImprovedClosed (binary : Mat) : Option Mat :=
  (backtrackingSegmentationImproved binary).map (morphClose ellipseKernel5)

/-- The flood-fill entries of the algorithm selection in `apply_algorithm`. -/
inductive FloodFillVariant where
  | Backtracking
  | Backtracking8Dir
  | BacktrackingImproved
deriving DecidableEq

/-- The Label Grid computed by a flood-fill variant on the binarized image. -/
def FloodFillVariant.run : FloodFillVariant → Mat → Option Mat
  | FloodFillVariant.Backtracking, binary => backtrackingSegmentation binary
  | FloodFillVariant.Backtracking8Dir, binary => backtrackingSegmentation8DirClosed binary
  | FloodFillVariant.BacktrackingImproved, binary => backtrackingSegmentationImprovedClosed binary

/-- What a callback in front of a flood fill did: it returned at its guard, having set the
status label to the given text or having left it untouched (`none`), or it went on and
called the variant, whose Label Grid (in the loop model) is `result`. -/
inductive CallbackOutcome where
  | returnedAtGuard (statusLabel : Option String)
  | calledVariant (result : Option Mat)

/-- The guard `filename == NULL || input_image.empty()` at the head of the callbacks;
`filename` is `none` for `NULL`. -/
def guardFails (filename : Option String) (input : Mat) : Bool :=
  filename.isNone || input.empty

/-- The callback `apply_algorithm` for a flood-fill selection.  It returns nothing: when
`filename == NULL || input_image.empty()` it sets the status label to
"Please select an image first" and returns, otherwise it calls the selected variant.  The
binarized image has the size of the input image.  The inner `Option` is the fuel of the loop
model. -/
def apply_algorithm (filename : Option String) (input : Mat) (v : FloodFillVariant) :
    CallbackOutcome :=
  if guardFails filename input = true then
    CallbackOutcome.returnedAtGuard (some "Please select an image first")
  else CallbackOutcome.calledVariant (v.run input)

/-- The callback `update_backtracking_segmentation`, run when the threshold slider moves:
`if (filename == NULL || input_image.empty()) { return; }`, then the variant is called.  At
the guard the status label is left as it is. -/
def update_backtracking_segmentation (filename : Option String) (input : Mat) :
    CallbackOutcome :=
  if guardFails filename input = true then CallbackOutcome.returnedAtGuard none
  else CallbackOutcome.calledVariant (FloodFillVariant.Backtracking.run input)

/-- The callback `update_backtracking_improved_segmentation`, with the same guard. -/
def update_backtracking_improved_segmentation (filename : Option String) (input : Mat) :
    CallbackOutcome :=
  if guardFails filename input = true then CallbackOutcome.returnedAtGuard none
  else CallbackOutcome.calledVariant (FloodFillVariant.BacktrackingImproved.run input)

/-- The flood-fill loop of `backtrackingSegmentation` with its four offsets listed in the
order `dirs`. -/
def permutedLoop (binary : Mat) (dirs : List (Int × Int)) : BfsLoop :=
  { rows := binary.rows, cols := binary.cols,
    accept := fun p => decide (binary.px p.y p.x = oldColor binary),
    newColor := 128,
    dirs := dirs,
    gate := fun _ _ _ _ => true }

/-- The Label Grid of the 4-directional flood fill run with the offsets in the order `dirs`. -/
def permutedSegmentation (binary : Mat) (dirs : List (Int × Int)) : Option Mat :=
  (bfsRun (permutedLoop binary dirs) (binary.rows * binary.cols + 1)
    (seedState (permutedLoop binary dirs) (centreSeed binary) binary)).map (fun s => s.segmented)

/-- `Joined8 rows cols ok seed p`: there is a path of 8-adjacent in-grid pixels from `seed` to
`p` all of whose pixels, `seed` included, satisfy `ok`. -/
inductive Joined8 (rows cols : Nat) (ok : Point → Prop) (seed : Point) : Point → Prop
  | start : InGrid rows cols seed → ok seed → Joined8 rows cols ok seed seed
  | step {a b : Point} : Joined8 rows cols ok seed a → Adj8 a b → InGrid rows cols b → ok b →
      Joined8 rows cols ok seed b

/-- The 8-connected component of the centre seed among the pixels that carry its value. -/
def SeedComponent8 (binary : Mat) (p : Point) : Prop :=
  Joined8 binary.rows binary.cols (Matches binary) (centreSeed binary) p

/-- A 3 x 4 binarized grid, all foreground except the pixel `(1, 1)`; the seed is `(2, 1)`. -/
def holeGrid : Mat := Mat.ofRows 3 4 [[255, 255, 255, 255], [255, 0, 255, 255], [255, 255, 255, 255]]

/-- A 1 x 1 grayscale image of intensity 128. -/
def pixel128 : Mat := Mat.ofRows 1 1 [[128]]

/-! ## Definitions for the loop invariants, the plain 8-directional fill and the percentage -/

/-- The conversion `static_cast<int>(v)` of a `double`: truncation towards zero. -/
def truncToInt (v : ℚ) : Int := if 0 ≤ v then ⌊v⌋ else ⌈v⌉

/-- The percentage drawn on the result of the multi-criteria grower:
`double maxArea = gray.rows * gray.cols;`
`int confidence = static_cast<int>(min(area / maxArea * 400, 100.0));`,
in exact rational arithmetic (`confidencePercentF64` is the same expression in `double`). -/
def confidencePercent (area : ℚ) (rows cols : Nat) : Int :=
  let maxArea : ℚ := ((rows * cols : Nat) : ℚ)
  truncToInt (min (area / maxArea * 400) 100)

/-- The marking-on-enqueue invariant of a loop state: every queued coordinate and every
dequeued coordinate is marked visited, and no coordinate occurs twice among the dequeued and
the queued ones. -/
structure MarkInv (s : BfsState) : Prop where
  queued_visited : ∀ p ∈ s.q, s.visited.px p.y p.x ≠ 0
  dequeued_visited : ∀ p ∈ s.trace, s.visited.px p.y p.x ≠ 0
  once : (s.trace ++ s.q).Nodup

/-- The loop of `backtrackingSegmentation8Dir` with the diagonal check left out: the plain
8-directional flood fill, used for comparison. -/
def plainEightLoop (binary : Mat) : BfsLoop :=
  { rows := binary.rows, cols := binary.cols,
    accept := fun p => decide (binary.px p.y p.x = oldColor binary),
    newColor := 128,
    dirs := [(1, 0), (-1, 0), (0, 1), (0, -1), (1, 1), (-1, -1), (1, -1), (-1, 1)],
    gate := fun _ _ _ _ => true }

/-! ## Machine arithmetic of the seed grid -/

/-- The value of an `int` expression whose mathematical value is `v`: the two's-complement
result in 32 bits.  (Signed overflow is undefined in C++; this is what the usual targets
compute.) -/
def wrapInt32 (v : Int) : Int := (v + 2147483648) % 4294967296 - 2147483648

/-- The seed list with the `int` arithmetic of the source:
`Point((gray.cols * i) / (gridSize + 1), (gray.rows * j) / (gridSize + 1))`, where the
products are 32-bit and the division truncates towards zero. -/
def seedGridInt32 (cols rows gridSize : Nat) : List Point :=
  (List.range' 1 gridSize).flatMap (fun (i : Nat) =>
    (List.range' 1 gridSize).map (fun (j : Nat) =>
      (⟨Int.tdiv (wrapInt32 ((cols : Int) * (i : Int))) (wrapInt32 ((gridSize : Int) + 1)),
        Int.tdiv (wrapInt32 ((rows : Int) * (j : Int))) (wrapInt32 ((gridSize : Int) + 1))⟩
        : Point)))
/-! ## Unchecked pixel access (`regionGrowingSegmentation` with any seed) -/

/-- The offset in the pixel buffer that the access `m.at<uchar>(y, x)` touches.  The access is
not bounds-checked (the check of `Mat::at` is a debug assertion), and the rows of a continuous
single-channel 8-bit matrix follow one another in the buffer, so that row `y` starts at
offset `y * cols`. -/
def Mat.offset (m : Mat) (y x : Int) : Int := y * (m.cols : Int) + x

/-- The offset lies inside the pixel buffer of `rows * cols` bytes. -/
def Mat.inBuffer (m : Mat) (off : Int) : Prop := 0 ≤ off ∧ off < (m.rows : Int) * (m.cols : Int)

instance (m : Mat) (off : Int) : Decidable (m.inBuffer off) := by
  unfold Mat.inBuffer; infer_instance

/-- The pixel stored at a buffer offset: column `off % cols` of row `off / cols`. -/
def Mat.pixelAt (m : Mat) (off : Int) : Point := ⟨off % (m.cols : Int), off / (m.cols : Int)⟩

/-- The grid `segmented` of `regionGrowingSegmentation` for a seed that need not lie in the
grid.  The three accesses at the seed, `gray.at(seed.y, seed.x)`,
`visited.at(seed.y, seed.x) = 1` and, in the first iteration, `segmented.at(p.y, p.x) = 255`,
touch the buffer offset `seed.y * cols + seed.x`, which for a seed outside the grid is the
place of another pixel; the neighbours of the seed are formed from its coordinates and are
bounds-checked, so that every later access is to a pixel of the grid.  The first iteration
(which dequeues the seed) is written out; the loop then continues as `bfsRun`.  `none` stands
for an access outside the buffer, whose behaviour is undefined. -/
def regionGrowingUnchecked (gray : Mat) (seed : Point) (threshold : Int) : Option Mat :=
  if gray.inBuffer (gray.offset seed.y seed.x) then
    let a : Point := gray.pixelAt (gray.offset seed.y seed.x)
    let L : BfsLoop := regionGrowingLoop gray a threshold
    let s0 : BfsState :=
      { q := [],
        visited := (Mat.zeros gray.rows gray.cols).set a.y a.x 1,
        segmented := (Mat.zeros gray.rows gray.cols).set a.y a.x 255,
        trace := [seed] }
    (bfsRun L (gray.rows * gray.cols) (visitNeighbours L seed 0 L.dirs s0)).map
      (fun s => s.segmented)
  else none

/-- A 2 x 4 grayscale image used as a concrete input. -/
def grayTwoRows : Mat := Mat.ofRows 2 4 [[100, 105, 110, 104], [90, 101, 200, 103]]

/-! ## Binary64 arithmetic of the two confidence computations -/

/-- A finite non-negative `double`: the value `m * 2 ^ e`.  A `double` has a mantissa
`m < 2 ^ 53`; every operation below returns such a mantissa (`Dbl.round_mantissa`).  The
exponent is not bounded: the values of the confidence computations stay far from overflow and
underflow. -/
structure Dbl where
  m : Nat
  e : Int
deriving DecidableEq

/-- The position of the leading bit of `n`, by halving; `fuel` bounds the number of steps. -/
def log2Fuel : Nat → Nat → Nat
  | 0, _ => 0
  | fuel + 1, n => if 2 ≤ n then log2Fuel fuel (n / 2) + 1 else 0

/-- The position of the leading bit of `n`: `2 ^ bitLog n <= n < 2 ^ (bitLog n + 1)`. -/
def bitLog (n : Nat) : Nat := log2Fuel n n

/-- The integer nearest to `n / d`, a tie going to the even one (the rounding mode of the
program's floating-point operations). -/
def roundNearestEven (n d : Nat) : Nat :=
  let q := n / d
  let r := n % d
  if 2 * r < d then q
  else if d < 2 * r then q + 1
  else if q % 2 = 0 then q else q + 1

/-- The numerator of `n / (d * 2 ^ e)` written as a fraction of naturals. -/
def scaledNum (n : Nat) (e : Int) : Nat := n * 2 ^ (-e).toNat

/-- The denominator of `n / (d * 2 ^ e)` written as a fraction of naturals. -/
def scaledDen (d : Nat) (e : Int) : Nat := d * 2 ^ e.toNat

/-- The exponent of the `double` nearest to `n / d` (for `n, d > 0`): the `e` with
`2 ^ 52 <= n / (d * 2 ^ e) < 2 ^ 53`.  With `k = bitLog n - bitLog d - 52` the quotient
`n / (d * 2 ^ k)` lies between `2 ^ 51` and `2 ^ 53`, so `e` is `k` or `k - 1`. -/
def roundExponent (n d : Nat) : Int :=
  let k : Int := (bitLog n : Int) - (bitLog d : Int) - 52
  if 2 ^ 52 ≤ scaledNum n k / scaledDen d k then k else k - 1

/-- The `double` nearest to `n / d` (for `d > 0`): the quotient `n / (d * 2 ^ e)`, with `e`
the exponent above, is rounded to the nearest integer, a tie going to the even one, which
gives a mantissa of 53 bits. -/
def Dbl.round (n d : Nat) : Dbl :=
  if n = 0 then ⟨0, 0⟩
  else ⟨roundNearestEven (scaledNum n (roundExponent n d)) (scaledDen d (roundExponent n d)),
    roundExponent n d⟩

/-- The quotient `a / b` of two `double`s, rounded. -/
def Dbl.div (a b : Dbl) : Dbl :=
  Dbl.round (scaledNum a.m (b.e - a.e)) (scaledDen b.m (b.e - a.e))

/-- The product `a * b` of two `double`s, rounded. -/
def Dbl.mul (a b : Dbl) : Dbl :=
  Dbl.round (scaledNum (a.m * b.m) (-(a.e + b.e))) (scaledDen 1 (-(a.e + b.e)))

/-- The comparison `a < b` of two `double`s. -/
def Dbl.lt (a b : Dbl) : Bool :=
  decide (scaledNum a.m (b.e - a.e) < scaledDen b.m (b.e - a.e))

/-- The call `min(a, b)` on `double`s: `(b < a) ? b : a`. -/
def Dbl.min (a b : Dbl) : Dbl := if Dbl.lt b a = true then b else a

/-- The conversion `static_cast<int>(a)` of a non-negative `double`: truncation. -/
def Dbl.trunc (a : Dbl) : Int := ((scaledNum a.m (-a.e) / scaledDen 1 (-a.e) : Nat) : Int)

/-- The exact product `k * a`, not rounded (used to state properties, not computed by the
program). -/
def Dbl.timesExact (k : Nat) (a : Dbl) : Dbl := ⟨k * a.m, a.e⟩

/-- The value of a `double` as a rational number. -/
def Dbl.toRat (a : Dbl) : ℚ := (a.m : ℚ) * (2 : ℚ) ^ a.e

/-- The denominator of both computations: `double maxArea = gray.rows * gray.cols;`, an
`int` product converted to `double`.  `none` when the 32-bit product is not positive, a case
that is not modelled (the quotient is then infinite, not a number, or negative). -/
def maxAreaF64 (rows cols : Nat) : Option Dbl :=
  if 0 < wrapInt32 ((rows : Int) * (cols : Int)) then
    some ⟨(wrapInt32 ((rows : Int) * (cols : Int))).toNat, 0⟩
  else none

/-- The percentage drawn on the result, as the program computes it in `double`:
`int confidence = static_cast<int>(min(area / maxArea * 400, 100.0));`. -/
def confidencePercentF64 (area : Dbl) (rows cols : Nat) : Option Int :=
  (maxAreaF64 rows cols).map (fun maxArea =>
    Dbl.trunc (Dbl.min (Dbl.mul (Dbl.div area maxArea) ⟨400, 0⟩) ⟨100, 0⟩))

/-- The confidence used for the contour colour, as the program computes it in `double`:
`double confidence = min(area / maxArea * 4, 1.0);`. -/
def confidenceF64 (area : Dbl) (rows cols : Nat) : Option Dbl :=
  (maxAreaF64 rows cols).map (fun maxArea =>
    Dbl.min (Dbl.mul (Dbl.div area maxArea) ⟨4, 0⟩) ⟨1, 0⟩)

/-! # Theorems -/

/-! ## Basic facts about matrices and the loop body -/

@[simp]
theorem Mat.px_set (m : Mat) (y x : Int) (v : Nat) (r c : Int) :
    (m.set y x v).px r c = if r = y ∧ c = x then v else m.px r c := rfl

@[simp]
theorem Mat.px_zeros (rows cols : Nat) (r c : Int) : (Mat.zeros rows cols).px r c = 0 := rfl

theorem unvisited_set (L : BfsLoop) (v : Mat) (x y : Int) (hx0 : 0 ≤ x) (hy0 : 0 ≤ y)
    (hx : x < L.cols) (hy : y < L.rows) (h : v.px y x = 0) :
    unvisited L (v.set y x 1) + 1 = unvisited L v := by
  unfold unvisited
  have hmem : (x, y) ∈ (Finset.Ico (0 : Int) L.cols ×ˢ Finset.Ico (0 : Int) L.rows).filter
      (fun c => v.px c.2 c.1 = 0) := by
    simp [Finset.mem_filter, hx0, hy0, hx, hy, h]
  have heq : (Finset.Ico (0 : Int) L.cols ×ˢ Finset.Ico (0 : Int) L.rows).filter
      (fun c => (v.set y x 1).px c.2 c.1 = 0) =
      ((Finset.Ico (0 : Int) L.cols ×ˢ Finset.Ico (0 : Int) L.rows).filter
      (fun c => v.px c.2 c.1 = 0)).erase (x, y) := by
    ext ⟨a, b⟩
    simp only [Finset.mem_filter, Finset.mem_erase, Mat.px_set, Finset.mem_product,
      Finset.mem_Ico, Prod.mk.injEq]
    by_cases hab : b = y ∧ a = x
    · simp [hab]
    · have : ¬ (a = x ∧ b = y) := fun h => hab ⟨h.2, h.1⟩
      simp [hab, this]
  rw [heq, Finset.card_erase_of_mem hmem]
  have : 0 < ((Finset.Ico (0 : Int) L.cols ×ˢ Finset.Ico (0 : Int) L.rows).filter
      (fun c => v.px c.2 c.1 = 0)).card := Finset.card_pos.mpr ⟨_, hmem⟩
  omega

theorem measure_examine (L : BfsLoop) (p : Point) (i : Nat) (d : Int × Int) (s : BfsState) :
    bfsMeasure L (examine L p i d s) = bfsMeasure L s := by
  unfold examine
  simp only
  split
  · rename_i h
    obtain ⟨h1, h2, h3, h4, h5, _⟩ := h
    have := unvisited_set L s.visited _ _ h1 h2 h3 h4 h5
    simp only [bfsMeasure, List.length_append, List.length_singleton]
    omega
  · rfl

theorem measure_visitNeighbours (L : BfsLoop) (p : Point) (ds : List (Int × Int)) :
    ∀ (i : Nat) (s : BfsState), bfsMeasure L (visitNeighbours L p i ds s) = bfsMeasure L s := by
  induction ds with
  | nil => intro i s; rfl
  | cons d ds ih =>
    intro i s
    simp only [visitNeighbours]
    rw [ih, measure_examine]

theorem measure_bfsStep (L : BfsLoop) (p : Point) (rest : List Point) (s : BfsState)
    (hq : s.q = p :: rest) : bfsMeasure L (bfsStep L p rest s) + 1 = bfsMeasure L s := by
  unfold bfsStep
  simp only
  split
  · rw [measure_visitNeighbours]
    simp [bfsMeasure, hq]
    omega
  · simp [bfsMeasure, hq]
    omega

/-- The loop stops: with more fuel than the measure it returns a final state. -/
theorem bfsRun_terminates (L : BfsLoop) :
    ∀ (fuel : Nat) (s : BfsState), bfsMeasure L s < fuel → ∃ s', bfsRun L fuel s = some s' := by
  intro fuel
  induction fuel with
  | zero => intro s h; omega
  | succ n ih =>
    intro s h
    unfold bfsRun
    split
    · exact ⟨s, rfl⟩
    · rename_i p rest hq
      apply ih
      have := measure_bfsStep L p rest s hq
      omega

/-! ## Induction principles for the loop -/

theorem examine_eq (L : BfsLoop) (p : Point) (i : Nat) (d : Int × Int) (s : BfsState) :
    examine L p i d s =
      if L.inside (p.shift d) ∧ s.visited.px (p.shift d).y (p.shift d).x = 0
          ∧ L.gate s.visited p i (p.shift d) = true then s.push (p.shift d) else s := by
  unfold examine BfsLoop.inside Point.shift BfsState.push
  simp only [ge_iff_le, and_assoc]

theorem visitNeighbours_induct (L : BfsLoop) (p : Point) (P : BfsState → Prop)
    (hpush : ∀ (s : BfsState) (k : Nat) (d : Int × Int), P s → L.dirs.get? k = some d →
      L.inside (p.shift d) → s.visited.px (p.shift d).y (p.shift d).x = 0 →
      L.gate s.visited p k (p.shift d) = true → P (s.push (p.shift d))) :
    ∀ (ds : List (Int × Int)) (i : Nat) (s : BfsState),
      (∀ k d, ds.get? k = some d → L.dirs.get? (i + k) = some d) → P s →
      P (visitNeighbours L p i ds s) := by
  intro ds
  induction ds with
  | nil => intro i s _ h; exact h
  | cons d ds ih =>
    intro i s hds h
    simp only [visitNeighbours]
    apply ih
    · intro k e hk
      have := hds (k + 1) e (by simpa using hk)
      rw [← this]; congr 1; omega
    · rw [examine_eq]
      split
      · rename_i hc
        exact hpush s i d h (by simpa using hds 0 d rfl) hc.1 hc.2.1 hc.2.2
      · exact h

theorem bfsStep_induct (L : BfsLoop) (p : Point) (rest : List Point) (s : BfsState)
    (P : BfsState → Prop)
    (hrej : L.accept p = false → P { s with q := rest, trace := s.trace ++ [p] })
    (hacc : L.accept p = true →
      P { s with q := rest, trace := s.trace ++ [p],
                 segmented := s.segmented.set p.y p.x L.newColor })
    (hpush : ∀ (t : BfsState) (k : Nat) (d : Int × Int), L.accept p = true → P t →
      L.dirs.get? k = some d → L.inside (p.shift d) →
      t.visited.px (p.shift d).y (p.shift d).x = 0 →
      L.gate t.visited p k (p.shift d) = true → P (t.push (p.shift d))) :
    P (bfsStep L p rest s) := by
  unfold bfsStep
  simp only
  split
  · rename_i ha
    apply visitNeighbours_induct L p P (fun t k d ht => hpush t k d ha ht)
    · intro k d hk; simpa using hk
    · exact hacc ha
  · rename_i ha
    exact hrej (by simpa using ha)

theorem bfsRun_induct (L : BfsLoop) (P : BfsState → Prop)
    (hstep : ∀ (s : BfsState) (p : Point) (rest : List Point), P s → s.q = p :: rest →
      P (bfsStep L p rest s)) :
    ∀ (fuel : Nat) (s s' : BfsState), P s → bfsRun L fuel s = some s' → P s' ∧ s'.q = [] := by
  intro fuel
  induction fuel with
  | zero => intro s s' _ h; simp [bfsRun] at h
  | succ n ih =>
    intro s s' hP h
    unfold bfsRun at h
    split at h
    · rename_i hq
      cases h
      exact ⟨hP, hq⟩
    · rename_i p rest hq
      exact ih _ _ (hstep s p rest hP hq) h

/-! ## Invariants of the loop -/

@[simp]
theorem BfsState.push_q (s : BfsState) (n : Point) : (s.push n).q = s.q ++ [n] := rfl

@[simp]
theorem BfsState.push_trace (s : BfsState) (n : Point) : (s.push n).trace = s.trace := rfl

@[simp]
theorem BfsState.push_segmented (s : BfsState) (n : Point) :
    (s.push n).segmented = s.segmented := rfl

@[simp]
theorem BfsState.push_visited (s : BfsState) (n : Point) :
    (s.push n).visited = s.visited.set n.y n.x 1 := rfl

theorem set_one_ne_zero (v : Mat) (n r : Point) (h : v.px r.y r.x ≠ 0) :
    (v.set n.y n.x 1).px r.y r.x ≠ 0 := by
  rw [Mat.px_set]
  split
  · exact one_ne_zero
  · exact h

/-- Soundness step, for a loop started over the visited grid `V0`: the visited grid only
grows, and queued and dequeued pixels are visited and stay within `Reach`, where a step of
`Reach` goes to a pixel not visited in `V0` that satisfies a condition implied by the gate. -/
theorem bfsStep_sound (L : BfsLoop) (G : Point → Nat → Point → Prop) (V0 : Mat) (seed : Point)
    (hG : ∀ v p k n, L.gate v p k n = true → G p k n)
    (s : BfsState) (p : Point) (rest : List Point) (hq : s.q = p :: rest)
    (h : (∀ r : Point, V0.px r.y r.x ≠ 0 → s.visited.px r.y r.x ≠ 0) ∧
      ∀ r, (r ∈ s.q ∨ r ∈ s.trace) →
        Reach L (fun p k n => V0.px n.y n.x = 0 ∧ G p k n) seed r ∧ s.visited.px r.y r.x ≠ 0) :
    (∀ r : Point, V0.px r.y r.x ≠ 0 → (bfsStep L p rest s).visited.px r.y r.x ≠ 0) ∧
      ∀ r, (r ∈ (bfsStep L p rest s).q ∨ r ∈ (bfsStep L p rest s).trace) →
        Reach L (fun p k n => V0.px n.y n.x = 0 ∧ G p k n) seed r ∧
        (bfsStep L p rest s).visited.px r.y r.x ≠ 0 := by
  have hp := (h.2 p (Or.inl (by simp [hq]))).1
  have hbase : ∀ r, (r ∈ rest ∨ r ∈ s.trace ++ [p]) →
      Reach L (fun p k n => V0.px n.y n.x = 0 ∧ G p k n) seed r ∧ s.visited.px r.y r.x ≠ 0 := by
    intro r hr
    rcases hr with hr | hr
    · exact h.2 r (Or.inl (by simp [hq, hr]))
    · rcases List.mem_append.mp hr with hr | hr
      · exact h.2 r (Or.inr hr)
      · simp only [List.mem_singleton] at hr
        rw [hr]; exact h.2 p (Or.inl (by simp [hq]))
  apply bfsStep_induct L p rest s
    (fun t => (∀ r : Point, V0.px r.y r.x ≠ 0 → t.visited.px r.y r.x ≠ 0) ∧
      ∀ r, (r ∈ t.q ∨ r ∈ t.trace) →
        Reach L (fun p k n => V0.px n.y n.x = 0 ∧ G p k n) seed r ∧ t.visited.px r.y r.x ≠ 0)
  · intro _; exact ⟨h.1, hbase⟩
  · intro _; exact ⟨h.1, hbase⟩
  · intro t k d ha ht hk hin hv hgate
    refine ⟨fun r hr => set_one_ne_zero _ _ _ (ht.1 r hr), ?_⟩
    intro r hr
    simp only [BfsState.push_q, BfsState.push_trace, List.mem_append, List.mem_singleton] at hr
    have hV0 : V0.px (p.shift d).y (p.shift d).x = 0 := by
      by_contra hne
      exact ht.1 _ hne hv
    rcases hr with (hr | hr) | hr
    · exact ⟨(ht.2 r (Or.inl hr)).1, set_one_ne_zero _ _ _ (ht.2 r (Or.inl hr)).2⟩
    · rw [hr]
      exact ⟨Reach.step hp ha hk hin ⟨hV0, hG _ _ _ _ hgate⟩, by simp⟩
    · exact ⟨(ht.2 r (Or.inr hr)).1, set_one_ne_zero _ _ _ (ht.2 r (Or.inr hr)).2⟩

/-- Label step: the output grid is the initial grid overwritten at the dequeued accepted
pixels. -/
theorem bfsStep_label (L : BfsLoop) (seg0 : Mat)
    (s : BfsState) (p : Point) (rest : List Point)
    (h : ∀ r : Point, s.segmented.px r.y r.x =
      if r ∈ s.trace ∧ L.accept r = true then L.newColor else seg0.px r.y r.x) :
    ∀ r : Point, (bfsStep L p rest s).segmented.px r.y r.x =
      if r ∈ (bfsStep L p rest s).trace ∧ L.accept r = true then L.newColor
      else seg0.px r.y r.x := by
  apply bfsStep_induct L p rest s
    (fun t => ∀ r : Point, t.segmented.px r.y r.x =
      if r ∈ t.trace ∧ L.accept r = true then L.newColor else seg0.px r.y r.x)
  · intro ha r
    simp only [List.mem_append, List.mem_singleton]
    rw [h r]
    by_cases hr : r = p
    · subst hr; simp [ha]
    · simp [hr]
  · intro ha r
    simp only [List.mem_append, List.mem_singleton, Mat.px_set]
    by_cases hr : r = p
    · subst hr; simp [ha]
    · have : ¬ (r.y = p.y ∧ r.x = p.x) := fun hh => hr (Point.ext hh.2 hh.1)
      rw [if_neg this, h r]
      simp [hr]
  · intro t k d _ ht _ _ _ _ r
    simpa using ht r

theorem examine_mono (L : BfsLoop) (p : Point) (i : Nat) (d : Int × Int) (s : BfsState)
    (r : Point) (h : s.visited.px r.y r.x ≠ 0) : (examine L p i d s).visited.px r.y r.x ≠ 0 := by
  rw [examine_eq]
  split
  · exact set_one_ne_zero _ _ _ h
  · exact h

theorem visitNeighbours_mono (L : BfsLoop) (p : Point) (ds : List (Int × Int)) :
    ∀ (i : Nat) (s : BfsState) (r : Point), s.visited.px r.y r.x ≠ 0 →
      (visitNeighbours L p i ds s).visited.px r.y r.x ≠ 0 := by
  induction ds with
  | nil => intro i s r h; exact h
  | cons d ds ih =>
    intro i s r h
    simp only [visitNeighbours]
    exact ih _ _ _ (examine_mono L p i d s r h)

theorem visitNeighbours_covers (L : BfsLoop) (p : Point) (G : Point → Nat → Point → Prop)
    (hG : ∀ v p k n, G p k n → L.gate v p k n = true) (ds : List (Int × Int)) :
    ∀ (i : Nat) (s : BfsState) (k : Nat) (d : Int × Int), ds.get? k = some d →
      L.inside (p.shift d) → G p (i + k) (p.shift d) →
      (visitNeighbours L p i ds s).visited.px (p.shift d).y (p.shift d).x ≠ 0 := by
  induction ds with
  | nil => intro i s k d hk; simp at hk
  | cons e ds ih =>
    intro i s k d hk hin hg
    simp only [visitNeighbours]
    cases k with
    | zero =>
      simp only [List.get?_cons_zero, Option.some.injEq] at hk
      subst hk
      apply visitNeighbours_mono
      rw [examine_eq]
      by_cases hv : s.visited.px (p.shift e).y (p.shift e).x = 0
      · rw [if_pos ⟨hin, hv, hG _ _ _ _ (by simpa using hg)⟩]
        simp
      · split
        · simp
        · exact hv
    | succ k =>
      simp only [List.get?_cons_succ] at hk
      apply ih (i + 1) _ k d hk hin
      have : i + 1 + k = i + (k + 1) := by omega
      rw [this]; exact hg

/-- Completeness step: `Covered` is kept by one iteration. -/
theorem bfsStep_covered (L : BfsLoop) (G : Point → Nat → Point → Prop) (V0 : Mat) (seed : Point)
    (hG : ∀ v p k n, G p k n → L.gate v p k n = true)
    (s : BfsState) (p : Point) (rest : List Point) (hq : s.q = p :: rest)
    (h : Covered L G V0 seed s) : Covered L G V0 seed (bfsStep L p rest s) := by
  have hmid : ∀ r : Point, s.visited.px r.y r.x ≠ 0 →
      V0.px r.y r.x ≠ 0 ∨ r ∈ rest ∨ r ∈ s.trace ++ [p] := by
    intro r hr
    rcases h.vis r hr with h1 | h1 | h1
    · left; exact h1
    · rw [hq] at h1
      rcases List.mem_cons.mp h1 with h2 | h2
      · right; right; simp [h2]
      · right; left; exact h2
    · right; right; simp [h1]
  have key : (∀ r : Point, s.visited.px r.y r.x ≠ 0 →
        (bfsStep L p rest s).visited.px r.y r.x ≠ 0) ∧
      (bfsStep L p rest s).trace = s.trace ++ [p] ∧
      (∀ r : Point, (bfsStep L p rest s).visited.px r.y r.x ≠ 0 →
        V0.px r.y r.x ≠ 0 ∨ r ∈ (bfsStep L p rest s).q ∨ r ∈ (bfsStep L p rest s).trace) := by
    apply bfsStep_induct L p rest s
      (fun t => (∀ r : Point, s.visited.px r.y r.x ≠ 0 → t.visited.px r.y r.x ≠ 0) ∧
        t.trace = s.trace ++ [p] ∧
        (∀ r : Point, t.visited.px r.y r.x ≠ 0 → V0.px r.y r.x ≠ 0 ∨ r ∈ t.q ∨ r ∈ t.trace))
    · intro _; exact ⟨fun r hr => hr, rfl, hmid⟩
    · intro _; exact ⟨fun r hr => hr, rfl, hmid⟩
    · intro t k d _ ht _ _ _ _
      refine ⟨fun r hr => set_one_ne_zero _ _ _ (ht.1 r hr), ht.2.1, ?_⟩
      intro r hr
      simp only [BfsState.push_visited, Mat.px_set] at hr
      simp only [BfsState.push_q, BfsState.push_trace, List.mem_append, List.mem_singleton]
      by_cases hrn : r.y = (p.shift d).y ∧ r.x = (p.shift d).x
      · right; left; right; exact Point.ext hrn.2 hrn.1
      · rw [if_neg hrn] at hr
        rcases ht.2.2 r hr with h1 | h1 | h1
        · left; exact h1
        · right; left; left; exact h1
        · right; right; exact h1
  refine ⟨key.1 _ h.seed_vis, key.2.2, ?_⟩
  intro r hr ha k d hk hin hg
  rw [key.2.1] at hr
  rcases List.mem_append.mp hr with hr | hr
  · exact key.1 _ (h.closed r hr ha k d hk hin hg)
  · simp only [List.mem_singleton] at hr
    subst hr
    unfold bfsStep
    simp only [ha, if_true]
    have := visitNeighbours_covers L r G hG L.dirs 0
      { s with q := rest, trace := s.trace ++ [r],
               segmented := s.segmented.set r.y r.x L.newColor } k d hk hin
      (by simpa using hg)
    exact this

/-! ## A loop started from one seed -/

theorem unvisited_zeros (L : BfsLoop) :
    unvisited L (Mat.zeros L.rows L.cols) = L.rows * L.cols := by
  unfold unvisited
  rw [Finset.filter_true_of_mem (by intro c _; rfl)]
  simp [Finset.card_product, Nat.mul_comm]

theorem unvisited_le (L : BfsLoop) (v : Mat) : unvisited L v ≤ L.rows * L.cols := by
  unfold unvisited
  refine le_trans (Finset.card_filter_le _ _) ?_
  simp [Finset.card_product, Nat.mul_comm]

theorem bfsMeasure_startState (L : BfsLoop) (V0 seg0 : Mat) (seed : Point)
    (hseed : L.inside seed) (hV0 : V0.px seed.y seed.x = 0) :
    bfsMeasure L (startState V0 seg0 seed) = unvisited L V0 := by
  have := unvisited_set L V0 seed.x seed.y hseed.1 hseed.2.1 hseed.2.2.1 hseed.2.2.2 hV0
  simp only [bfsMeasure, startState, List.length_singleton]
  exact this

theorem reach_mono (L : BfsLoop) (G G' : Point → Nat → Point → Prop) (seed : Point)
    (h : ∀ p k n, G p k n → G' p k n) (r : Point) (hr : Reach L G seed r) :
    Reach L G' seed r := by
  induction hr with
  | start => exact Reach.start
  | step _ ha hk hin hg ih => exact Reach.step ih ha hk hin (h _ _ _ hg)

/-- The specification of a loop started from an in-bounds seed that is not yet visited in the
visited grid `V0`: it stops within any fuel above the number of unvisited pixels, with an empty
queue; the output grid is the initial one overwritten with `newColor` at exactly the dequeued
accepted pixels; the dequeued pixels lie between the reachability (through pixels not visited
in `V0`) for a condition implied by the gate and that for a condition implying it; and the
final visited grid is `V0` together with the dequeued pixels. -/
theorem run_from (L : BfsLoop) (V0 seg0 : Mat) (seed : Point) (hseed : L.inside seed)
    (hV0 : V0.px seed.y seed.x = 0) (fuel : Nat) (hfuel : unvisited L V0 < fuel)
    (Gup Glow : Point → Nat → Point → Prop)
    (hup : ∀ v p k n, L.gate v p k n = true → Gup p k n)
    (hlow : ∀ v p k n, Glow p k n → L.gate v p k n = true) :
    ∃ s', bfsRun L fuel (startState V0 seg0 seed) = some s' ∧ s'.q = [] ∧
      (∀ r : Point, s'.segmented.px r.y r.x =
        if r ∈ s'.trace ∧ L.accept r = true then L.newColor else seg0.px r.y r.x) ∧
      (∀ r, r ∈ s'.trace → Reach L (fun p k n => V0.px n.y n.x = 0 ∧ Gup p k n) seed r) ∧
      (∀ r, Reach L (fun p k n => V0.px n.y n.x = 0 ∧ Glow p k n) seed r → r ∈ s'.trace) ∧
      (∀ r : Point, s'.visited.px r.y r.x ≠ 0 ↔ (V0.px r.y r.x ≠ 0 ∨ r ∈ s'.trace)) := by
  obtain ⟨s', hs'⟩ := bfsRun_terminates L fuel (startState V0 seg0 seed)
    (by rw [bfsMeasure_startState L V0 seg0 seed hseed hV0]; exact hfuel)
  refine ⟨s', hs', ?_⟩
  have h1 := bfsRun_induct L
    (fun t => (∀ r : Point, V0.px r.y r.x ≠ 0 → t.visited.px r.y r.x ≠ 0) ∧
      ∀ r, (r ∈ t.q ∨ r ∈ t.trace) →
        Reach L (fun p k n => V0.px n.y n.x = 0 ∧ Gup p k n) seed r ∧ t.visited.px r.y r.x ≠ 0)
    (fun s p rest h hq => bfsStep_sound L Gup V0 seed hup s p rest hq h) _ _ s'
    (by
      refine ⟨fun r hr => set_one_ne_zero _ _ _ hr, ?_⟩
      intro r hr
      simp only [startState, List.mem_singleton, List.not_mem_nil, or_false] at hr
      rw [hr]
      exact ⟨Reach.start, by simp [startState]⟩) hs'
  have h2 := bfsRun_induct L (fun t => ∀ r : Point, t.segmented.px r.y r.x =
      if r ∈ t.trace ∧ L.accept r = true then L.newColor else seg0.px r.y r.x)
    (fun s p rest h _ => bfsStep_label L seg0 s p rest h) _ _ s'
    (by intro r; simp [startState]) hs'
  have h3 := bfsRun_induct L
    (Covered L (fun p k n => V0.px n.y n.x = 0 ∧ Glow p k n) V0 seed)
    (fun s p rest h hq => bfsStep_covered L _ V0 seed
      (fun v p k n hg => hlow v p k n hg.2) s p rest hq h) _ _ s'
    (by
      refine ⟨by simp [startState], ?_, ?_⟩
      · intro r hr
        simp only [startState, Mat.px_set] at hr
        simp only [startState, List.mem_singleton]
        by_cases hc : r.y = seed.y ∧ r.x = seed.x
        · right; left; exact Point.ext hc.2 hc.1
        · rw [if_neg hc] at hr; left; exact hr
      · intro r hr; simp [startState] at hr) hs'
  have hvis : ∀ r : Point, s'.visited.px r.y r.x ≠ 0 → V0.px r.y r.x ≠ 0 ∨ r ∈ s'.trace := by
    intro r hr
    rcases h3.1.vis r hr with h | h | h
    · left; exact h
    · rw [h1.2] at h; simp at h
    · right; exact h
  refine ⟨h1.2, h2.1, fun r hr => (h1.1.2 r (Or.inr hr)).1, ?_, ?_⟩
  · intro r hr
    induction hr with
    | start =>
      rcases hvis _ h3.1.seed_vis with h | h
      · exact absurd hV0 h
      · exact h
    | step _ ha hk hin hg ih =>
      rcases hvis _ (h3.1.closed _ ih ha _ _ hk hin hg) with h | h
      · exact absurd hg.1 h
      · exact h
  · intro r
    constructor
    · exact hvis r
    · rintro (h | h)
      · exact h1.1.1 r h
      · exact (h1.1.2 r (Or.inr h)).2

/-- The specification of a loop started from a single in-bounds seed on a fresh visited grid,
with the fuel `rows * cols + 1` that the segmenters pass. -/
theorem seeded_run (L : BfsLoop) (seed : Point) (seg0 : Mat) (hseed : L.inside seed)
    (Gup Glow : Point → Nat → Point → Prop)
    (hup : ∀ v p k n, L.gate v p k n = true → Gup p k n)
    (hlow : ∀ v p k n, Glow p k n → L.gate v p k n = true) :
    ∃ s', bfsRun L (L.rows * L.cols + 1) (seedState L seed seg0) = some s' ∧ s'.q = [] ∧
      (∀ r : Point, s'.segmented.px r.y r.x =
        if r ∈ s'.trace ∧ L.accept r = true then L.newColor else seg0.px r.y r.x) ∧
      (∀ r, r ∈ s'.trace → Reach L Gup seed r) ∧
      (∀ r, Reach L Glow seed r → r ∈ s'.trace) := by
  obtain ⟨s', hs', hq, hseg, hsound, hcompl, _⟩ := run_from L (Mat.zeros L.rows L.cols) seg0
    seed hseed rfl (L.rows * L.cols + 1) (by rw [unvisited_zeros]; omega) Gup Glow hup hlow
  refine ⟨s', hs', hq, hseg, ?_, ?_⟩
  · intro r hr
    exact reach_mono L _ _ seed (fun _ _ _ h => h.2) r (hsound r hr)
  · intro r hr
    exact hcompl r (reach_mono L _ _ seed (fun _ _ _ h => ⟨rfl, h⟩) r hr)

/-! ## The 4-directional flood fills -/

theorem centreSeed_inGrid (m : Mat) (hr : 0 < m.rows) (hc : 0 < m.cols) :
    InGrid m.rows m.cols (centreSeed m) := by
  unfold InGrid centreSeed
  simp only
  omega

theorem fourDirs_of_perm (L : BfsLoop)
    (h : L.dirs.Perm [(0, 1), (0, -1), (1, 0), (-1, 0)]) : FourDirs L := by
  have hmem : ∀ d : Int × Int, d ∈ L.dirs ↔ d = (0, 1) ∨ d = (0, -1) ∨ d = (1, 0) ∨ d = (-1, 0) := by
    intro d; rw [h.mem_iff]; simp
  intro a b
  constructor
  · intro hab
    have : ∃ d : Int × Int, d ∈ L.dirs ∧ b = a.shift d := by
      rcases hab with ⟨hx, hy | hy⟩ | ⟨hy, hx | hx⟩
      · exact ⟨(0, 1), (hmem _).2 (by simp), Point.ext (by simp [Point.shift, hx]) (by simp [Point.shift, hy])⟩
      · exact ⟨(0, -1), (hmem _).2 (by simp), Point.ext (by simp [Point.shift, hx])
          (by simp only [Point.shift, hy]; omega)⟩
      · exact ⟨(1, 0), (hmem _).2 (by simp), Point.ext (by simp [Point.shift, hx]) (by simp [Point.shift, hy])⟩
      · exact ⟨(-1, 0), (hmem _).2 (by simp), Point.ext (by simp only [Point.shift, hx]; omega)
          (by simp [Point.shift, hy])⟩
    obtain ⟨d, hd, hb⟩ := this
    obtain ⟨k, hk⟩ := List.get?_of_mem hd
    exact ⟨k, d, hk, hb⟩
  · rintro ⟨k, d, hk, hb⟩
    have hd := (hmem d).1 (List.get?_mem hk)
    subst hb
    unfold Adj4 Point.shift
    rcases hd with hd | hd | hd | hd <;> subst hd <;> simp <;> omega

/-- For a loop without gate whose offsets are the four edge-sharing ones, the reached and
accepted pixels are those joined to the seed by a path of accepted pixels. -/
theorem reach_iff_joined4 (L : BfsLoop) (ok : Point → Prop)
    (hacc : ∀ p, L.accept p = true ↔ ok p) (hdirs : FourDirs L) (seed : Point)
    (hseed : L.inside seed) (p : Point) :
    (Reach L (fun _ _ _ => True) seed p ∧ ok p) ↔ Joined4 L.rows L.cols ok seed p := by
  constructor
  · rintro ⟨hr, hok⟩
    induction hr with
    | start => exact Joined4.start hseed hok
    | step _ ha hk hin _ ih =>
      exact Joined4.step (ih ((hacc _).1 ha)) ((hdirs _ _).2 ⟨_, _, hk, rfl⟩) hin hok
  · intro hj
    induction hj with
    | start _ hok => exact ⟨Reach.start, hok⟩
    | step _ hadj hin hok ih =>
      obtain ⟨k, d, hk, hb⟩ := (hdirs _ _).1 hadj
      subst hb
      exact ⟨Reach.step ih.1 ((hacc _).2 ih.2) hk hin trivial, hok⟩

/-- The common specification of the two 4-directional flood fills: on a non-empty grid the loop
stops, the dequeued matching pixels are the seed's component, and the output is the binarized
grid overwritten with 128 on that component. -/
theorem flood4_spec (binary : Mat) (L : BfsLoop)
    (hrows : L.rows = binary.rows) (hcols : L.cols = binary.cols)
    (hacc : ∀ p, L.accept p = true ↔ Matches binary p) (hnew : L.newColor = 128)
    (hgate : ∀ v p k n, L.gate v p k n = true) (hdirs : FourDirs L)
    (hr : 0 < binary.rows) (hc : 0 < binary.cols) :
    ∃ s', bfsRun L (binary.rows * binary.cols + 1) (seedState L (centreSeed binary) binary)
        = some s' ∧
      (∀ p : Point, (p ∈ s'.trace ∧ Matches binary p) ↔ SeedComponent4 binary p) ∧
      (∀ p : Point, SeedComponent4 binary p → s'.segmented.px p.y p.x = 128) ∧
      (∀ p : Point, ¬ SeedComponent4 binary p → s'.segmented.px p.y p.x = binary.px p.y p.x) := by
  have hseed : L.inside (centreSeed binary) := by
    have := centreSeed_inGrid binary hr hc
    unfold BfsLoop.inside; rw [hrows, hcols]; exact this
  obtain ⟨s', hs', _, hseg, hsound, hcompl⟩ := seeded_run L (centreSeed binary) binary hseed
    (fun _ _ _ => True) (fun _ _ _ => True) (fun _ _ _ _ _ => trivial)
    (fun v p k n _ => hgate v p k n)
  rw [hrows, hcols] at hs'
  have hchar : ∀ p : Point, (p ∈ s'.trace ∧ Matches binary p) ↔ SeedComponent4 binary p := by
    intro p
    have := reach_iff_joined4 L (Matches binary) hacc hdirs (centreSeed binary) hseed p
    rw [hrows, hcols] at this
    unfold SeedComponent4
    rw [← this]
    constructor
    · rintro ⟨h1, h2⟩; exact ⟨hsound p h1, h2⟩
    · rintro ⟨h1, h2⟩; exact ⟨hcompl p h1, h2⟩
  refine ⟨s', hs', hchar, ?_, ?_⟩
  · intro p hp
    have h := (hchar p).2 hp
    rw [hseg p, hnew, if_pos ⟨h.1, (hacc p).2 h.2⟩]
  · intro p hp
    rw [hseg p, if_neg (fun hh => hp ((hchar p).1 ⟨hh.1, (hacc p).1 hh.2⟩))]

theorem backtrackingLoop_accept (binary : Mat) (p : Point) :
    (backtrackingLoop binary).accept p = true ↔ Matches binary p := by
  simp [backtrackingLoop, Matches]

theorem improvedLoop_accept (binary : Mat) (p : Point) :
    (improvedLoop binary).accept p = true ↔ Matches binary p := by
  simp [improvedLoop, Matches]

theorem backtrackingFill_spec (binary : Mat) (hr : 0 < binary.rows) (hc : 0 < binary.cols) :
    ∃ s', backtrackingFill binary = some s' ∧
      (∀ p : Point, (p ∈ s'.trace ∧ Matches binary p) ↔ SeedComponent4 binary p) ∧
      (∀ p : Point, SeedComponent4 binary p → s'.segmented.px p.y p.x = 128) ∧
      (∀ p : Point, ¬ SeedComponent4 binary p → s'.segmented.px p.y p.x = binary.px p.y p.x) :=
  flood4_spec binary (backtrackingLoop binary) rfl rfl (backtrackingLoop_accept binary) rfl
    (fun _ _ _ _ => rfl) (fourDirs_of_perm _ (List.Perm.refl _)) hr hc

theorem improvedFill_spec (binary : Mat) (hr : 0 < binary.rows) (hc : 0 < binary.cols) :
    ∃ s', improvedFill binary = some s' ∧
      (∀ p : Point, (p ∈ s'.trace ∧ Matches binary p) ↔ SeedComponent4 binary p) ∧
      (∀ p : Point, SeedComponent4 binary p → s'.segmented.px p.y p.x = 128) ∧
      (∀ p : Point, ¬ SeedComponent4 binary p → s'.segmented.px p.y p.x = binary.px p.y p.x) :=
  flood4_spec binary (improvedLoop binary) rfl rfl (improvedLoop_accept binary) rfl
    (fun _ _ _ _ => rfl) (fourDirs_of_perm _ (by simp only [improvedLoop]; decide)) hr hc

theorem binarized_ne_128 (binary : Mat) (hbin : IsBinarized binary) (p : Point)
    (hp : InGrid binary.rows binary.cols p) : binary.px p.y p.x ≠ 128 := by
  rcases hbin p hp with h | h <;> rw [h] <;> decide

theorem seedComponent4_seed (binary : Mat) (hr : 0 < binary.rows) (hc : 0 < binary.cols) :
    SeedComponent4 binary (centreSeed binary) :=
  Joined4.start (centreSeed_inGrid binary hr hc) rfl

theorem seedComponent4_inGrid (binary : Mat) (p : Point) (h : SeedComponent4 binary p) :
    InGrid binary.rows binary.cols p := by
  unfold SeedComponent4 at h
  cases h with
  | start h _ => exact h
  | step _ _ h _ => exact h

theorem grid3_binarized : IsBinarized grid3 := by
  intro p hp
  obtain ⟨h1, h2, h3, h4⟩ := hp
  have h3 : p.x < 3 := h3
  have h4 : p.y < 3 := h4
  obtain ⟨x, y⟩ := p
  simp only at h1 h2 h3 h4 ⊢
  interval_cases x <;> interval_cases y <;> decide

/-- Claim C1.  On every non-empty binarized grid the 4-directional flood fill, in the basic
variant and in the improved variant before its closing step, stops and writes the marker 128 to
a pixel of the grid if and only if that pixel is joined to the centre seed `(cols/2, rows/2)` by
a path of 4-adjacent pixels that all carry the seed's binarized value; the seed itself is
marked. -/
theorem flood4_marks_exactly_seed_component (binary : Mat)
    (hr : 0 < binary.rows) (hc : 0 < binary.cols) (hbin : IsBinarized binary) :
    (∃ out, backtrackingSegmentation binary = some out ∧
      (∀ p : Point, InGrid binary.rows binary.cols p →
        (out.px p.y p.x = 128 ↔ SeedComponent4 binary p)) ∧
      out.px (centreSeed binary).y (centreSeed binary).x = 128) ∧
    (∃ out, backtrackingSegmentationImproved binary = some out ∧
      (∀ p : Point, InGrid binary.rows binary.cols p →
        (out.px p.y p.x = 128 ↔ SeedComponent4 binary p)) ∧
      out.px (centreSeed binary).y (centreSeed binary).x = 128) := by
  have main : ∀ s' : BfsState,
      (∀ p : Point, SeedComponent4 binary p → s'.segmented.px p.y p.x = 128) →
      (∀ p : Point, ¬ SeedComponent4 binary p → s'.segmented.px p.y p.x = binary.px p.y p.x) →
      (∀ p : Point, InGrid binary.rows binary.cols p →
        (s'.segmented.px p.y p.x = 128 ↔ SeedComponent4 binary p)) ∧
      s'.segmented.px (centreSeed binary).y (centreSeed binary).x = 128 := by
    intro s' h1 h2
    refine ⟨fun p hp => ⟨fun h => ?_, h1 p⟩, h1 _ (seedComponent4_seed binary hr hc)⟩
    by_contra hn
    rw [h2 p hn] at h
    exact binarized_ne_128 binary hbin p hp h
  constructor
  · obtain ⟨s', hs', _, h1, h2⟩ := backtrackingFill_spec binary hr hc
    exact ⟨s'.segmented, by simp [backtrackingSegmentation, hs'], main s' h1 h2⟩
  · obtain ⟨s', hs', _, h1, h2⟩ := improvedFill_spec binary hr hc
    exact ⟨s'.segmented, by simp [backtrackingSegmentationImproved, hs'], main s' h1 h2⟩

/-- Witness for C1 on the 3 x 3 grid `grid3`. -/
theorem flood4_marks_exactly_seed_component_witness :
    0 < grid3.rows ∧ 0 < grid3.cols ∧ IsBinarized grid3 ∧
    ((∃ out, backtrackingSegmentation grid3 = some out ∧
      (∀ p : Point, InGrid grid3.rows grid3.cols p →
        (out.px p.y p.x = 128 ↔ SeedComponent4 grid3 p)) ∧
      out.px (centreSeed grid3).y (centreSeed grid3).x = 128) ∧
    (∃ out, backtrackingSegmentationImproved grid3 = some out ∧
      (∀ p : Point, InGrid grid3.rows grid3.cols p →
        (out.px p.y p.x = 128 ↔ SeedComponent4 grid3 p)) ∧
      out.px (centreSeed grid3).y (centreSeed grid3).x = 128)) :=
  ⟨by decide, by decide, grid3_binarized,
    flood4_marks_exactly_seed_component grid3 (by decide) (by decide) grid3_binarized⟩

/-! ## Flat grids and the 8-directional flood fill -/

/-- In a grid all of whose pixels satisfy `ok`, every pixel is joined to the seed. -/
theorem joined4_all (rows cols : Nat) (ok : Point → Prop) (seed : Point)
    (hseed : InGrid rows cols seed) (hok : ∀ p, InGrid rows cols p → ok p) :
    ∀ (n : Nat) (p : Point), InGrid rows cols p →
      (p.x - seed.x).natAbs + (p.y - seed.y).natAbs = n → Joined4 rows cols ok seed p := by
  intro n
  induction n with
  | zero =>
    intro p hp h
    have : p = seed := Point.ext (by omega) (by omega)
    rw [this]
    exact Joined4.start hseed (hok _ hseed)
  | succ n ih =>
    intro p hp h
    obtain ⟨h1, h2, h3, h4⟩ := hp
    obtain ⟨g1, g2, g3, g4⟩ := hseed
    by_cases hx : p.x = seed.x
    · by_cases hy : p.y < seed.y
      · have ha : InGrid rows cols ⟨p.x, p.y + 1⟩ := ⟨h1, by simp only; omega, h3, by simp only; omega⟩
        refine Joined4.step (ih ⟨p.x, p.y + 1⟩ ha (by simp only; omega)) ?_ ⟨h1, h2, h3, h4⟩
          (hok _ ⟨h1, h2, h3, h4⟩)
        left; simp
      · have ha : InGrid rows cols ⟨p.x, p.y - 1⟩ := ⟨h1, by simp only; omega, h3, by simp only; omega⟩
        refine Joined4.step (ih ⟨p.x, p.y - 1⟩ ha (by simp only; omega)) ?_ ⟨h1, h2, h3, h4⟩
          (hok _ ⟨h1, h2, h3, h4⟩)
        left; simp
    · by_cases hlt : p.x < seed.x
      · have ha : InGrid rows cols ⟨p.x + 1, p.y⟩ := ⟨by simp only; omega, h2, by simp only; omega, h4⟩
        refine Joined4.step (ih ⟨p.x + 1, p.y⟩ ha (by simp only; omega)) ?_ ⟨h1, h2, h3, h4⟩
          (hok _ ⟨h1, h2, h3, h4⟩)
        right; simp
      · have ha : InGrid rows cols ⟨p.x - 1, p.y⟩ := ⟨by simp only; omega, h2, by simp only; omega, h4⟩
        refine Joined4.step (ih ⟨p.x - 1, p.y⟩ ha (by simp only; omega)) ?_ ⟨h1, h2, h3, h4⟩
          (hok _ ⟨h1, h2, h3, h4⟩)
        right; simp

/-- In a flat non-empty grid every pixel belongs to the seed's component. -/
theorem flat_component (binary : Mat) (hr : 0 < binary.rows) (hc : 0 < binary.cols)
    (hflat : IsFlat binary) (p : Point) (hp : InGrid binary.rows binary.cols p) :
    SeedComponent4 binary p :=
  joined4_all binary.rows binary.cols (Matches binary) (centreSeed binary)
    (centreSeed_inGrid binary hr hc)
    (fun q hq => hflat q (centreSeed binary) hq (centreSeed_inGrid binary hr hc)) _ p hp rfl

theorem eightDirLoop_accept (binary : Mat) (p : Point) :
    (eightDirLoop binary).accept p = true ↔ Matches binary p := by
  simp [eightDirLoop, Matches]

theorem eightDir_adj4 (binary : Mat) (a b : Point) (h : Adj4 a b) :
    ∃ (k : Nat) (d : Int × Int), k < 4 ∧ (eightDirLoop binary).dirs.get? k = some d ∧
      b = a.shift d := by
  rcases h with ⟨hx, hy | hy⟩ | ⟨hy, hx | hx⟩
  · exact ⟨2, (0, 1), by decide, rfl, Point.ext (by simp [Point.shift, hx]) (by simp [Point.shift, hy])⟩
  · exact ⟨3, (0, -1), by decide, rfl, Point.ext (by simp [Point.shift, hx])
      (by simp only [Point.shift, hy]; omega)⟩
  · exact ⟨0, (1, 0), by decide, rfl, Point.ext (by simp [Point.shift, hx]) (by simp [Point.shift, hy])⟩
  · exact ⟨1, (-1, 0), by decide, rfl, Point.ext (by simp only [Point.shift, hx]; omega)
      (by simp [Point.shift, hy])⟩

/-- The 8-directional flood fill stops on every non-empty grid and marks at least the
4-connected component of the seed; a pixel it does not mark keeps its binarized value. -/
theorem eightDirFill_spec (binary : Mat) (hr : 0 < binary.rows) (hc : 0 < binary.cols) :
    ∃ s', eightDirFill binary = some s' ∧
      (∀ p : Point, SeedComponent4 binary p → s'.segmented.px p.y p.x = 128) ∧
      (∀ p : Point, s'.segmented.px p.y p.x = 128 ∨
        s'.segmented.px p.y p.x = binary.px p.y p.x) := by
  have hseed : (eightDirLoop binary).inside (centreSeed binary) := centreSeed_inGrid binary hr hc
  obtain ⟨s', hs', _, hseg, _, hcompl⟩ := seeded_run (eightDirLoop binary) (centreSeed binary)
    binary hseed (fun _ _ _ => True) (fun _ k _ => k < 4) (fun _ _ _ _ _ => trivial)
    (by
      intro v p k n hk
      have : ¬ k ≥ 4 := by omega
      simp [eightDirLoop, isValid8, this])
  refine ⟨s', hs', ?_, ?_⟩
  · intro p hp
    have hreach : Reach (eightDirLoop binary) (fun _ k _ => k < 4) (centreSeed binary) p ∧
        Matches binary p := by
      unfold SeedComponent4 at hp
      induction hp with
      | start _ hok => exact ⟨Reach.start, hok⟩
      | step _ hadj hin hok ih =>
        obtain ⟨k, d, hk4, hk, hb⟩ := eightDir_adj4 binary _ _ hadj
        subst hb
        exact ⟨Reach.step ih.1 ((eightDirLoop_accept binary _).2 ih.2) hk hin hk4, hok⟩
    rw [hseg p, if_pos ⟨hcompl p hreach.1, (eightDirLoop_accept binary p).2 hreach.2⟩]
    rfl
  · intro p
    rw [hseg p]
    split
    · left; rfl
    · right; rfl

theorem flatGrid_flat : IsFlat flatGrid := by
  intro p q hp hq
  have key : ∀ r : Point, InGrid flatGrid.rows flatGrid.cols r → flatGrid.px r.y r.x = 255 := by
    intro r hr
    obtain ⟨h1, h2, h3, h4⟩ := hr
    have h3 : r.x < 3 := h3
    have h4 : r.y < 2 := h4
    obtain ⟨x, y⟩ := r
    simp only at h1 h2 h3 h4 ⊢
    interval_cases x <;> interval_cases y <;> decide
  rw [key p hp, key q hq]

/-- Claim C5.  On every non-empty grid whose binarized values are all equal, each flood-fill
loop (the basic 4-directional one, the improved 4-directional one and the 8-directional one)
stops and marks every pixel of the grid with the marker value 128. -/
theorem flat_grid_fully_marked (binary : Mat)
    (hr : 0 < binary.rows) (hc : 0 < binary.cols) (hflat : IsFlat binary) :
    (∃ out, backtrackingSegmentation binary = some out ∧
      ∀ p : Point, InGrid binary.rows binary.cols p → out.px p.y p.x = 128) ∧
    (∃ out, backtrackingSegmentationImproved binary = some out ∧
      ∀ p : Point, InGrid binary.rows binary.cols p → out.px p.y p.x = 128) ∧
    (∃ out, backtrackingSegmentation8Dir binary = some out ∧
      ∀ p : Point, InGrid binary.rows binary.cols p → out.px p.y p.x = 128) := by
  refine ⟨?_, ?_, ?_⟩
  · obtain ⟨s', hs', _, h1, _⟩ := backtrackingFill_spec binary hr hc
    exact ⟨s'.segmented, by simp [backtrackingSegmentation, hs'],
      fun p hp => h1 p (flat_component binary hr hc hflat p hp)⟩
  · obtain ⟨s', hs', _, h1, _⟩ := improvedFill_spec binary hr hc
    exact ⟨s'.segmented, by simp [backtrackingSegmentationImproved, hs'],
      fun p hp => h1 p (flat_component binary hr hc hflat p hp)⟩
  · obtain ⟨s', hs', h1, _⟩ := eightDirFill_spec binary hr hc
    exact ⟨s'.segmented, by simp [backtrackingSegmentation8Dir, hs'],
      fun p hp => h1 p (flat_component binary hr hc hflat p hp)⟩

/-- Witness for C5 on the flat 2 x 3 grid `flatGrid`. -/
theorem flat_grid_fully_marked_witness :
    0 < flatGrid.rows ∧ 0 < flatGrid.cols ∧ IsFlat flatGrid ∧
    ((∃ out, backtrackingSegmentation flatGrid = some out ∧
      ∀ p : Point, InGrid flatGrid.rows flatGrid.cols p → out.px p.y p.x = 128) ∧
    (∃ out, backtrackingSegmentationImproved flatGrid = some out ∧
      ∀ p : Point, InGrid flatGrid.rows flatGrid.cols p → out.px p.y p.x = 128) ∧
    (∃ out, backtrackingSegmentation8Dir flatGrid = some out ∧
      ∀ p : Point, InGrid flatGrid.rows flatGrid.cols p → out.px p.y p.x = 128)) :=
  ⟨by decide, by decide, flatGrid_flat,
    flat_grid_fully_marked flatGrid (by decide) (by decide) flatGrid_flat⟩

/-- Claim C6.  In the Label Grid of the basic flood fill on a non-empty binarized grid, a pixel
is absorbed when it was dequeued and carries the seed's value.  Every absorbed pixel of the grid
carries 128, every other pixel of the grid keeps its binarized value, which is 0 or 255, and so
a pixel of the grid has value 128 if and only if it was absorbed. -/
theorem basic_fill_label_frame (binary : Mat)
    (hr : 0 < binary.rows) (hc : 0 < binary.cols) (hbin : IsBinarized binary) :
    ∃ s, backtrackingFill binary = some s ∧
      backtrackingSegmentation binary = some s.segmented ∧
      ∀ p : Point, InGrid binary.rows binary.cols p →
        ((p ∈ s.trace ∧ Matches binary p) → s.segmented.px p.y p.x = 128) ∧
        (¬ (p ∈ s.trace ∧ Matches binary p) →
          s.segmented.px p.y p.x = binary.px p.y p.x ∧
          (s.segmented.px p.y p.x = 0 ∨ s.segmented.px p.y p.x = 255)) ∧
        (s.segmented.px p.y p.x = 128 ↔ (p ∈ s.trace ∧ Matches binary p)) := by
  obtain ⟨s, hs, hchar, h1, h2⟩ := backtrackingFill_spec binary hr hc
  refine ⟨s, hs, by simp [backtrackingSegmentation, hs], ?_⟩
  intro p hp
  refine ⟨fun h => h1 p ((hchar p).1 h), fun h => ?_, fun h => ?_, fun h => h1 p ((hchar p).1 h)⟩
  · have := h2 p (fun hh => h ((hchar p).2 hh))
    exact ⟨this, by rw [this]; exact hbin p hp⟩
  · by_contra hn
    rw [h2 p (fun hh => hn ((hchar p).2 hh))] at h
    exact binarized_ne_128 binary hbin p hp h

/-- Witness for C6 on the 3 x 3 grid `grid3`. -/
theorem basic_fill_label_frame_witness :
    0 < grid3.rows ∧ 0 < grid3.cols ∧ IsBinarized grid3 ∧
    ∃ s, backtrackingFill grid3 = some s ∧
      backtrackingSegmentation grid3 = some s.segmented ∧
      ∀ p : Point, InGrid grid3.rows grid3.cols p →
        ((p ∈ s.trace ∧ Matches grid3 p) → s.segmented.px p.y p.x = 128) ∧
        (¬ (p ∈ s.trace ∧ Matches grid3 p) →
          s.segmented.px p.y p.x = grid3.px p.y p.x ∧
          (s.segmented.px p.y p.x = 0 ∨ s.segmented.px p.y p.x = 255)) ∧
        (s.segmented.px p.y p.x = 128 ↔ (p ∈ s.trace ∧ Matches grid3 p)) :=
  ⟨by decide, by decide, grid3_binarized,
    basic_fill_label_frame grid3 (by decide) (by decide) grid3_binarized⟩

/-- Evaluation for claim C2 (the claim fails on the code).  On the 3 x 3 grid `cornerGrid` the
centre seed and the top-left corner carry the match value 255 and the other seven pixels do not,
so both bridge pixels of the diagonal step from the centre to the corner lack the match value
and the corner is outside the seed's 4-connected component; nevertheless the 8-directional
flood fill writes the marker 128 to the corner. -/
theorem eightDir_corner_is_absorbed :
    IsBinarized cornerGrid ∧ centreSeed cornerGrid = ⟨1, 1⟩ ∧
    Matches cornerGrid ⟨0, 0⟩ ∧ ¬ Matches cornerGrid ⟨1, 0⟩ ∧ ¬ Matches cornerGrid ⟨0, 1⟩ ∧
    ¬ SeedComponent4 cornerGrid ⟨0, 0⟩ ∧
    (backtrackingSegmentation8Dir cornerGrid).map (fun out => out.px 0 0) = some 128 := by
  refine ⟨?_, by decide, by decide, by decide, by decide, ?_, by decide⟩
  · intro p hp
    obtain ⟨h1, h2, h3, h4⟩ := hp
    have h3 : p.x < 3 := h3
    have h4 : p.y < 3 := h4
    obtain ⟨x, y⟩ := p
    simp only at h1 h2 h3 h4 ⊢
    interval_cases x <;> interval_cases y <;> decide
  · have key : ∀ p : Point, SeedComponent4 cornerGrid p → p = ⟨1, 1⟩ := by
      intro p hp
      unfold SeedComponent4 at hp
      induction hp with
      | start _ _ => decide
      | @step a b _ hadj _ hok ih =>
        subst ih
        obtain ⟨x, y⟩ := b
        exfalso
        rcases hadj with ⟨hx, hy | hy⟩ | ⟨hy, hx | hx⟩ <;> simp only at hx hy <;>
          subst hx <;> subst hy <;> revert hok <;> decide
    intro h
    have := key _ h
    revert this
    decide

/-! ## The seeded region grower -/

theorem regionGrowing_fourDirs (gray : Mat) (seed : Point) (threshold : Int) :
    FourDirs (regionGrowingLoop gray seed threshold) :=
  fourDirs_of_perm _ (by simp only [regionGrowingLoop]; decide)

theorem grown4_iff_seed_or_joined4 (rows cols : Nat) (gray : Mat) (seed : Point)
    (threshold : Int) (hseed : InGrid rows cols seed) (p : Point) :
    Grown4 rows cols (Within gray seed threshold) seed p ↔
      (p = seed ∨ Joined4 rows cols (Within gray seed threshold) seed p) := by
  constructor
  · intro h
    induction h with
    | start => left; rfl
    | @step a b _ hadj hin hok ih =>
      right
      have hpos : Within gray seed threshold seed := by
        unfold Within at hok ⊢
        have := abs_nonneg ((gray.px b.y b.x : Int) - (gray.px seed.y seed.x : Int))
        simp only [sub_self, abs_zero]
        exact lt_of_le_of_lt this hok
      rcases ih with ih | ih
      · subst ih
        exact Joined4.step (Joined4.start hseed hpos) hadj hin hok
      · exact Joined4.step ih hadj hin hok
  · rintro (h | h)
    · rw [h]; exact Grown4.start
    · induction h with
      | start _ _ => exact Grown4.start
      | step _ hadj hin hok ih => exact Grown4.step ih hadj hin hok

/-- The specification of the seeded region grower for an in-bounds seed: the loop stops, the
dequeued pixels are the seed and the pixels grown from it, and the output is 255 on them and 0
elsewhere. -/
theorem regionGrowingFill_spec (gray : Mat) (seed : Point) (threshold : Int)
    (hseed : InGrid gray.rows gray.cols seed) :
    ∃ s', regionGrowingFill gray seed threshold = some s' ∧
      (∀ p : Point, p ∈ s'.trace ↔
        Grown4 gray.rows gray.cols (Within gray seed threshold) seed p) ∧
      (∀ p : Point, Grown4 gray.rows gray.cols (Within gray seed threshold) seed p →
        s'.segmented.px p.y p.x = 255) ∧
      (∀ p : Point, ¬ Grown4 gray.rows gray.cols (Within gray seed threshold) seed p →
        s'.segmented.px p.y p.x = 0) := by
  obtain ⟨s', hs', _, hseg, hsound, hcompl⟩ := seeded_run (regionGrowingLoop gray seed threshold)
    seed (Mat.zeros gray.rows gray.cols) hseed
    (fun _ _ n => Within gray seed threshold n) (fun _ _ n => Within gray seed threshold n)
    (by intro v p k n h; simpa [regionGrowingLoop, Within] using h)
    (by intro v p k n h; simpa [regionGrowingLoop, Within] using h)
  have hdirs := regionGrowing_fourDirs gray seed threshold
  have hchar : ∀ p : Point, Reach (regionGrowingLoop gray seed threshold)
      (fun _ _ n => Within gray seed threshold n) seed p ↔
      Grown4 gray.rows gray.cols (Within gray seed threshold) seed p := by
    intro p
    constructor
    · intro h
      induction h with
      | start => exact Grown4.start
      | step _ _ hk hin hg ih =>
        exact Grown4.step ih ((hdirs _ _).2 ⟨_, _, hk, rfl⟩) hin hg
    · intro h
      induction h with
      | start => exact Reach.start
      | step _ hadj hin hok ih =>
        obtain ⟨k, d, hk, hb⟩ := (hdirs _ _).1 hadj
        subst hb
        exact Reach.step ih rfl hk hin hok
  have htrace : ∀ p : Point, p ∈ s'.trace ↔
      Grown4 gray.rows gray.cols (Within gray seed threshold) seed p :=
    fun p => ⟨fun h => (hchar p).1 (hsound p h), fun h => hcompl p ((hchar p).2 h)⟩
  refine ⟨s', hs', htrace, ?_, ?_⟩
  · intro p hp
    rw [hseg p, if_pos ⟨(htrace p).2 hp, rfl⟩]
    rfl
  · intro p hp
    rw [hseg p, if_neg (fun hh => hp ((htrace p).1 hh.1))]
    rfl

/-- Claim C3.  For every grayscale grid, every in-bounds seed and every integer tolerance, the
seeded region grower stops, and a pixel is foreground (255) in its result exactly when it is the
seed or is joined to the seed by a path of 4-adjacent pixels each of which satisfies
`|intensity - seedIntensity| < tolerance`; every other pixel is 0.  In particular a pixel other
than the seed whose difference equals the tolerance is 0. -/
theorem regionGrowing_foreground_exact (gray : Mat) (seed : Point) (threshold : Int)
    (hseed : InGrid gray.rows gray.cols seed) :
    ∃ out, regionGrowingSegmentation gray seed threshold = some out ∧
      (∀ p : Point, out.px p.y p.x = 255 ↔
        (p = seed ∨ Joined4 gray.rows gray.cols (Within gray seed threshold) seed p)) ∧
      (∀ p : Point,
        ¬ (p = seed ∨ Joined4 gray.rows gray.cols (Within gray seed threshold) seed p) →
        out.px p.y p.x = 0) ∧
      (∀ p : Point, p ≠ seed →
        |(gray.px p.y p.x : Int) - (gray.px seed.y seed.x : Int)| = threshold →
        out.px p.y p.x = 0) := by
  obtain ⟨s', hs', _, h1, h2⟩ := regionGrowingFill_spec gray seed threshold hseed
  have hiff := grown4_iff_seed_or_joined4 gray.rows gray.cols gray seed threshold hseed
  have hzero : ∀ p : Point,
      ¬ (p = seed ∨ Joined4 gray.rows gray.cols (Within gray seed threshold) seed p) →
      s'.segmented.px p.y p.x = 0 := fun p hp => h2 p (fun hh => hp ((hiff p).1 hh))
  refine ⟨s'.segmented, by simp [regionGrowingSegmentation, hs'], ?_, hzero, ?_⟩
  · intro p
    constructor
    · intro h
      by_contra hn
      rw [hzero p hn] at h
      exact absurd h (by decide)
    · intro h
      exact h1 p ((hiff p).2 h)
  · intro p hne heq
    apply hzero
    rintro (h | h)
    · exact hne h
    · have hw : Within gray seed threshold p := by
        cases h with
        | start _ hok => exact hok
        | step _ _ _ hok => exact hok
      unfold Within at hw
      omega

/-- Witness for C3: the 1 x 4 row `100 105 110 104`, seed at column 0, tolerance 10. -/
theorem regionGrowing_foreground_exact_witness :
    InGrid grayRow.rows grayRow.cols ⟨0, 0⟩ ∧
    ∃ out, regionGrowingSegmentation grayRow ⟨0, 0⟩ 10 = some out ∧
      (∀ p : Point, out.px p.y p.x = 255 ↔
        (p = ⟨0, 0⟩ ∨ Joined4 grayRow.rows grayRow.cols (Within grayRow ⟨0, 0⟩ 10) ⟨0, 0⟩ p)) ∧
      (∀ p : Point,
        ¬ (p = ⟨0, 0⟩ ∨ Joined4 grayRow.rows grayRow.cols (Within grayRow ⟨0, 0⟩ 10) ⟨0, 0⟩ p) →
        out.px p.y p.x = 0) ∧
      (∀ p : Point, p ≠ ⟨0, 0⟩ →
        |(grayRow.px p.y p.x : Int) - (grayRow.px (0 : Int) (0 : Int) : Int)| = 10 →
        out.px p.y p.x = 0) :=
  ⟨by decide, regionGrowing_foreground_exact grayRow ⟨0, 0⟩ 10 (by decide)⟩

/-- Claim C4.  For every grid and every in-bounds seed, the seeded region grower called with
tolerance 0 stops and returns a mask whose only foreground pixel is the seed: the seed is 255
and every other pixel is 0. -/
theorem regionGrowing_zero_tolerance (gray : Mat) (seed : Point)
    (hseed : InGrid gray.rows gray.cols seed) :
    ∃ out, regionGrowingSegmentation gray seed 0 = some out ∧
      out.px seed.y seed.x = 255 ∧
      (∀ p : Point, p ≠ seed → out.px p.y p.x = 0) ∧
      (∀ p : Point, out.px p.y p.x = 255 ↔ p = seed) := by
  obtain ⟨s', hs', _, h1, h2⟩ := regionGrowingFill_spec gray seed 0 hseed
  have hg : ∀ p : Point, Grown4 gray.rows gray.cols (Within gray seed 0) seed p → p = seed := by
    intro p hp
    cases hp with
    | start => rfl
    | step _ _ _ hok =>
      unfold Within at hok
      have := abs_nonneg ((gray.px p.y p.x : Int) - (gray.px seed.y seed.x : Int))
      omega
  have hs : s'.segmented.px seed.y seed.x = 255 := h1 seed Grown4.start
  have hz : ∀ p : Point, p ≠ seed → s'.segmented.px p.y p.x = 0 :=
    fun p hp => h2 p (fun hh => hp (hg p hh))
  refine ⟨s'.segmented, by simp [regionGrowingSegmentation, hs'], hs, hz, ?_⟩
  intro p
  constructor
  · intro h
    by_contra hn
    rw [hz p hn] at h
    exact absurd h (by decide)
  · intro h
    rw [h]; exact hs

/-- Witness for C4: the row `grayRow` with the seed at column 1. -/
theorem regionGrowing_zero_tolerance_witness :
    InGrid grayRow.rows grayRow.cols ⟨1, 0⟩ ∧
    ∃ out, regionGrowingSegmentation grayRow ⟨1, 0⟩ 0 = some out ∧
      out.px (0 : Int) (1 : Int) = 255 ∧
      (∀ p : Point, p ≠ ⟨1, 0⟩ → out.px p.y p.x = 0) ∧
      (∀ p : Point, out.px p.y p.x = 255 ↔ p = ⟨1, 0⟩) :=
  ⟨by decide, regionGrowing_zero_tolerance grayRow ⟨1, 0⟩ (by decide)⟩

/-! ## The ghost trace does not influence the loop -/

theorem examine_prepend (L : BfsLoop) (p : Point) (i : Nat) (d : Int × Int) (pre : List Point)
    (s : BfsState) :
    examine L p i d (s.prepend pre) = (examine L p i d s).prepend pre := by
  unfold examine BfsState.prepend
  simp only
  split <;> rfl

theorem visitNeighbours_prepend (L : BfsLoop) (p : Point) (pre : List Point)
    (ds : List (Int × Int)) : ∀ (i : Nat) (s : BfsState),
    visitNeighbours L p i ds (s.prepend pre) = (visitNeighbours L p i ds s).prepend pre := by
  induction ds with
  | nil => intro i s; rfl
  | cons d ds ih =>
    intro i s
    simp only [visitNeighbours]
    rw [examine_prepend, ih]

theorem bfsStep_prepend (L : BfsLoop) (p : Point) (rest : List Point) (pre : List Point)
    (s : BfsState) :
    bfsStep L p rest (s.prepend pre) = (bfsStep L p rest s).prepend pre := by
  unfold bfsStep
  simp only
  split
  · rw [← visitNeighbours_prepend]
    simp [BfsState.prepend, List.append_assoc]
  · simp [BfsState.prepend, List.append_assoc]

theorem bfsRun_prepend (L : BfsLoop) (pre : List Point) : ∀ (fuel : Nat) (s : BfsState),
    bfsRun L fuel (s.prepend pre) = (bfsRun L fuel s).map (BfsState.prepend pre) := by
  intro fuel
  induction fuel with
  | zero => intro s; rfl
  | succ n ih =>
    intro s
    cases hq : s.q with
    | nil =>
      have hq2 : (s.prepend pre).q = [] := hq
      simp [bfsRun, hq, hq2]
    | cons p rest =>
      have hq2 : (s.prepend pre).q = p :: rest := hq
      simp only [bfsRun, hq, hq2]
      rw [bfsStep_prepend, ih]

/-! ## One seed of the multi-seed grower -/

theorem reach_unvisited (L : BfsLoop) (V0 : Mat) (G : Point → Nat → Point → Prop)
    (seed : Point) (hV0 : V0.px seed.y seed.x = 0) (r : Point)
    (hr : Reach L (fun p k n => V0.px n.y n.x = 0 ∧ G p k n) seed r) : V0.px r.y r.x = 0 := by
  cases hr with
  | start => exact hV0
  | step _ _ _ _ hg => exact hg.1

/-- A seed that is already visited is skipped: the state is returned unchanged. -/
theorem processSeed_skip (L : BfsLoop) (fuel : Nat) (seed : Point) (s : BfsState)
    (h : s.visited.px seed.y seed.x ≠ 0) : processSeed L fuel seed s = some s := by
  unfold processSeed
  rw [if_pos h]

/-- The expansion of an in-bounds seed that is not yet visited: the loop stops; the pixels
dequeued by it (`extra`) are exactly those reached from the seed through pixels that were not
visited before and pass the gate; the output changes only at the dequeued accepted pixels; the
visited grid grows by exactly the dequeued pixels. -/
theorem processSeed_spec (L : BfsLoop) (fuel : Nat) (seed : Point) (s : BfsState)
    (hseed : L.inside seed) (hfuel : L.rows * L.cols < fuel)
    (hV : s.visited.px seed.y seed.x = 0) (G : Point → Nat → Point → Prop)
    (hup : ∀ v p k n, L.gate v p k n = true → G p k n)
    (hlow : ∀ v p k n, G p k n → L.gate v p k n = true) :
    ∃ s' extra, processSeed L fuel seed s = some s' ∧ s'.q = [] ∧
      s'.trace = s.trace ++ extra ∧
      (∀ r : Point, s'.segmented.px r.y r.x =
        if r ∈ extra ∧ L.accept r = true then L.newColor else s.segmented.px r.y r.x) ∧
      (∀ r, r ∈ extra ↔ Reach L (fun p k n => s.visited.px n.y n.x = 0 ∧ G p k n) seed r) ∧
      (∀ r : Point, s'.visited.px r.y r.x ≠ 0 ↔ (s.visited.px r.y r.x ≠ 0 ∨ r ∈ extra)) := by
  obtain ⟨t, ht, hq, hseg, hsound, hcompl, hvis⟩ := run_from L s.visited s.segmented seed hseed
    hV fuel (lt_of_le_of_lt (unvisited_le L s.visited) hfuel) G G hup hlow
  refine ⟨t.prepend s.trace, t.trace, ?_, hq, rfl, hseg, fun r => ⟨hsound r, hcompl r⟩, hvis⟩
  unfold processSeed
  rw [if_neg (by simpa using hV)]
  have : ({ s with q := [seed], visited := s.visited.set seed.y seed.x 1 } : BfsState) =
      (startState s.visited s.segmented seed).prepend s.trace := by
    simp [startState, BfsState.prepend]
  rw [this, bfsRun_prepend, ht]
  rfl

/-! ## The seed grid of the multi-criteria grower -/

theorem flatMap_uniform_length {α β : Type} (f : α → List β) (n : Nat) :
    ∀ l : List α, (∀ a ∈ l, (f a).length = n) → (l.flatMap f).length = l.length * n := by
  intro l
  induction l with
  | nil => intro _; simp
  | cons a l ih =>
    intro h
    rw [List.flatMap_cons, List.length_append, ih (fun b hb => h b (List.mem_cons_of_mem _ hb)),
      h a (List.mem_cons_self _ _), List.length_cons]
    ring

theorem flatMap_uniform_get {α β : Type} (f : α → List β) (n : Nat) :
    ∀ (l : List α), (∀ a ∈ l, (f a).length = n) → ∀ (i j : Nat), j < n →
      (l.flatMap f)[i * n + j]? = (l[i]?).bind (fun a => (f a)[j]?) := by
  intro l
  induction l with
  | nil => intro _ i j _; simp
  | cons a l ih =>
    intro h i j hj
    have ha : (f a).length = n := h a (List.mem_cons_self _ _)
    rw [List.flatMap_cons]
    cases i with
    | zero =>
      rw [List.getElem?_append_left (by omega)]
      simp
    | succ i =>
      rw [List.getElem?_append_right (by rw [ha, Nat.succ_mul]; omega)]
      have : (i + 1) * n + j - (f a).length = i * n + j := by rw [ha, Nat.succ_mul]; omega
      rw [this, ih (fun b hb => h b (List.mem_cons_of_mem _ hb)) i j hj]
      simp

theorem mem_seedGrid (cols rows g : Nat) (p : Point) :
    p ∈ seedGrid cols rows g ↔ ∃ i j : Nat, 1 ≤ i ∧ i ≤ g ∧ 1 ≤ j ∧ j ≤ g ∧
      p = ⟨((cols : Int) * (i : Int)) / ((g : Int) + 1),
           ((rows : Int) * (j : Int)) / ((g : Int) + 1)⟩ := by
  unfold seedGrid
  simp only [List.mem_flatMap, List.mem_map, List.mem_range'_1]
  constructor
  · rintro ⟨i, ⟨hi1, hi2⟩, j, ⟨hj1, hj2⟩, rfl⟩
    exact ⟨i, j, hi1, by omega, hj1, by omega, rfl⟩
  · rintro ⟨i, j, hi1, hi2, hj1, hj2, rfl⟩
    exact ⟨i, ⟨hi1, by omega⟩, j, ⟨hj1, by omega⟩, rfl⟩

/-- Counterexample for claim C8.  For an 8 x 8 image and `gridSize = 3` the seed list is
`(2,2), (2,4), (2,6), (4,2), ...`: it is not the row-major list, `y` varies fastest, and `y`
is not non-decreasing along the list. -/
theorem seedGrid_not_row_major :
    (seedGrid 8 8 3).map (fun p => (p.x, p.y)) =
      [(2, 2), (2, 4), (2, 6), (4, 2), (4, 4), (4, 6), (6, 2), (6, 4), (6, 6)] ∧
    seedGrid 8 8 3 ≠ rowMajorSeedGrid 8 8 3 ∧
    ¬ List.Pairwise (fun p q : Point => p.y ≤ q.y) (seedGrid 8 8 3) := by
  refine ⟨by decide, by decide, by decide⟩

/-- Claim C8, amended.  The seed list consists of `gridSize * gridSize` points emitted in fixed
column-major order: the entry at position `a * gridSize + b` (with `a, b < gridSize`) is the
seed of column index `a + 1` and row index `b + 1`, so the `y` coordinate varies fastest, and
the `x` coordinate is non-decreasing along the list. -/
theorem seedGrid_column_major (cols rows g : Nat) :
    (seedGrid cols rows g).length = g * g ∧
    (∀ a b : Nat, a < g → b < g →
      (seedGrid cols rows g)[a * g + b]? =
        some ⟨((cols : Int) * ((a + 1 : Nat) : Int)) / ((g : Int) + 1),
              ((rows : Int) * ((b + 1 : Nat) : Int)) / ((g : Int) + 1)⟩) ∧
    List.Pairwise (fun p q : Point => p.x ≤ q.x) (seedGrid cols rows g) := by
  have hlen : ∀ i ∈ List.range' 1 g,
      ((List.range' 1 g).map (fun j : Nat =>
        (⟨((cols : Int) * (i : Int)) / ((g : Int) + 1),
          ((rows : Int) * (j : Int)) / ((g : Int) + 1)⟩ : Point))).length = g := by
    intro i _; simp
  refine ⟨?_, ?_, ?_⟩
  · unfold seedGrid
    rw [flatMap_uniform_length _ g _ hlen]
    simp
  · intro a b ha hb
    unfold seedGrid
    rw [flatMap_uniform_get _ g _ hlen a b hb]
    simp [List.getElem?_range', ha, hb, Nat.add_comm]
  · unfold seedGrid
    rw [List.pairwise_flatMap]
    constructor
    · intro i _
      rw [List.pairwise_map]
      exact List.pairwise_of_forall (fun _ _ => le_refl _)
    · have hlt := List.pairwise_lt_range' 1 g
      refine List.Pairwise.imp (fun {i i'} hii => ?_) hlt
      intro p hp q hq
      simp only [List.mem_map] at hp hq
      obtain ⟨_, _, rfl⟩ := hp
      obtain ⟨_, _, rfl⟩ := hq
      simp only
      apply Int.ediv_le_ediv (by omega)
      apply Int.mul_le_mul_of_nonneg_left
      · exact_mod_cast le_of_lt hii
      · exact Int.ofNat_nonneg _

/-- Counterexample for claim C9.  For a 4 x 4 image the seed grid (`gridSize = 3`) contains
the seed `(3, 1)`, which lies on the right border column `cols - 1`. -/
theorem seedGrid_touches_border :
    (⟨3, 1⟩ : Point) ∈ seedGrid 4 4 3 ∧ ¬ StrictlyInside 4 4 ⟨3, 1⟩ ∧
    ¬ (∀ p ∈ seedGrid 4 4 3, StrictlyInside 4 4 p) := by
  refine ⟨by decide, by decide, by decide⟩

/-- Claim C9, amended.  For every image with at least `gridSize + 2` columns and rows (at
least 5 for the grower's `gridSize = 3`), every seed `(x, y)` of the seed grid lies strictly
inside the image: `1 <= x <= cols - 2` and `1 <= y <= rows - 2`. -/
theorem seedGrid_strictly_inside (cols rows g : Nat) (hc : g + 2 ≤ cols) (hr : g + 2 ≤ rows) :
    ∀ p ∈ seedGrid cols rows g, StrictlyInside cols rows p := by
  intro p hp
  obtain ⟨i, j, hi1, hi2, hj1, hj2, rfl⟩ := (mem_seedGrid cols rows g p).1 hp
  have key : ∀ (n k : Nat), g + 2 ≤ n → 1 ≤ k → k ≤ g →
      1 ≤ ((n : Int) * (k : Int)) / ((g : Int) + 1) ∧
      ((n : Int) * (k : Int)) / ((g : Int) + 1) ≤ (n : Int) - 2 := by
    intro n k hn hk1 hk2
    have hg : (0 : Int) < (g : Int) + 1 := by omega
    have hk1' : (1 : Int) ≤ (k : Int) := by exact_mod_cast hk1
    have hk2' : (k : Int) ≤ (g : Int) := by exact_mod_cast hk2
    have hn' : (g : Int) + 2 ≤ (n : Int) := by exact_mod_cast hn
    constructor
    · rw [Int.le_ediv_iff_mul_le hg]
      nlinarith
    · have : ((n : Int) * (k : Int)) / ((g : Int) + 1) < (n : Int) - 1 := by
        rw [Int.ediv_lt_iff_lt_mul hg]
        nlinarith
      omega
  exact ⟨(key cols i hc hi1 hi2).1, (key cols i hc hi1 hi2).2,
    (key rows j hr hj1 hj2).1, (key rows j hr hj1 hj2).2⟩

/-- Witness for the amended C9: a 5 x 6 image with `gridSize = 3`. -/
theorem seedGrid_strictly_inside_witness :
    3 + 2 ≤ 5 ∧ 3 + 2 ≤ 6 ∧ ∀ p ∈ seedGrid 5 6 3, StrictlyInside 5 6 p :=
  ⟨by decide, by decide, seedGrid_strictly_inside 5 6 3 (by decide) (by decide)⟩

/-! ## The multi-criteria grower -/

/-- The integer comparisons of `isValidPixel` are the three numeric gates with all three
parameters equal to `BACKTRACKING_THRESHOLD`. -/
theorem isValidPixel_iff (enhanced gradMag : Mat) (T : Int) (seed n : Point) :
    isValidPixel enhanced gradMag T seed n = true ↔
      NumericGates enhanced gradMag (T : ℚ) (T : ℚ) (T : ℚ) seed n := by
  unfold isValidPixel NumericGates
  simp only [Bool.and_eq_true, decide_eq_true_eq, and_assoc]
  refine and_congr ?_ (and_congr ?_ ?_)
  · rw [← Int.cast_sub, ← Int.cast_abs, Int.cast_lt]
  · rw [← Int.cast_sub, ← Int.cast_abs]
    constructor
    · intro h
      have h2 : ((2 * |(gradMag.px n.y n.x : Int) - (gradMag.px seed.y seed.x : Int)| : Int) : ℚ)
          < (T : ℚ) := by exact_mod_cast h
      push_cast at h2 ⊢
      linarith
    · intro h
      have h2 : ((2 * |(gradMag.px n.y n.x : Int) - (gradMag.px seed.y seed.x : Int)| : Int) : ℚ)
          < (T : ℚ) := by
        push_cast at h ⊢
        linarith
      exact_mod_cast h2
  · constructor
    · intro h
      have h2 : ((2 * (gradMag.px n.y n.x : Int) : Int) : ℚ) < ((3 * T : Int) : ℚ) := by
        exact_mod_cast h
      push_cast at h2 ⊢
      linarith
    · intro h
      have h2 : ((2 * (gradMag.px n.y n.x : Int) : Int) : ℚ) < ((3 * T : Int) : ℚ) := by
        push_cast at h ⊢
        linarith
      exact_mod_cast h2

theorem edge_adj8 (enhanced gradMag binary : Mat) (T : Int) (seed : Point) (a b : Point) :
    Adj8 a b ↔ ∃ (k : Nat) (d : Int × Int),
      (edgeLoop enhanced gradMag binary T seed).dirs.get? k = some d ∧ b = a.shift d := by
  have hmem : ∀ d : Int × Int, d ∈ (edgeLoop enhanced gradMag binary T seed).dirs ↔
      d = (1, 0) ∨ d = (-1, 0) ∨ d = (0, 1) ∨ d = (0, -1) ∨ d = (1, 1) ∨ d = (-1, -1) ∨
      d = (1, -1) ∨ d = (-1, 1) := by
    intro d; simp [edgeLoop]
  constructor
  · rintro ⟨hne, hx, hy⟩
    rw [abs_le] at hx hy
    have hd : (b.x - a.x, b.y - a.y) ∈ (edgeLoop enhanced gradMag binary T seed).dirs := by
      rw [hmem]
      have hxy : ¬ (b.x - a.x = 0 ∧ b.y - a.y = 0) := by
        intro h
        exact hne (Point.ext (by omega) (by omega))
      have hx3 : b.x - a.x = -1 ∨ b.x - a.x = 0 ∨ b.x - a.x = 1 := by omega
      have hy3 : b.y - a.y = -1 ∨ b.y - a.y = 0 ∨ b.y - a.y = 1 := by omega
      rcases hx3 with h1 | h1 | h1 <;> rcases hy3 with h2 | h2 | h2 <;>
        simp only [h1, h2, Prod.mk.injEq] <;> simp_all
    obtain ⟨k, hk⟩ := List.get?_of_mem hd
    exact ⟨k, _, hk, Point.ext (by simp only [Point.shift]; omega)
      (by simp only [Point.shift]; omega)⟩
  · rintro ⟨k, d, hk, hb⟩
    have hd := (hmem d).1 (List.get?_mem hk)
    subst hb
    unfold Adj8 Point.shift
    rcases hd with hd | hd | hd | hd | hd | hd | hd | hd <;> subst hd <;>
      simp [Point.ext_iff]

theorem edgeLoop_accept (enhanced gradMag binary : Mat) (T : Int) (seed p : Point) :
    (edgeLoop enhanced gradMag binary T seed).accept p = true ↔ binary.px p.y p.x > 0 := by
  simp [edgeLoop]

/-- Induction over the seed loop: a property kept by the processing of every seed, which also
always returns, holds at the end, and the loop returns. -/
theorem growSeeds_induct (mk : Point → BfsLoop) (fuel : Nat) (P : BfsState → Prop)
    (Q : Point → Prop)
    (hstep : ∀ seed s, Q seed → P s → ∃ s', processSeed (mk seed) fuel seed s = some s' ∧ P s') :
    ∀ (seeds : List Point) (s : BfsState), (∀ x ∈ seeds, Q x) → P s →
      ∃ s', growSeeds mk fuel seeds s = some s' ∧ P s' := by
  intro seeds
  induction seeds with
  | nil => intro s _ h; exact ⟨s, rfl, h⟩
  | cons seed rest ih =>
    intro s hQ h
    obtain ⟨s1, hs1, hP1⟩ := hstep seed s (hQ seed (List.mem_cons_self _ _)) h
    obtain ⟨s2, hs2, hP2⟩ := ih s1 (fun x hx => hQ x (List.mem_cons_of_mem _ hx)) hP1
    exact ⟨s2, by simp [growSeeds, hs1, hs2], hP2⟩

/-- The expansion of one seed of the multi-criteria grower, from a state in which every
labelled pixel is visited and the seed is in bounds and not visited. -/
theorem edge_expansion (enhanced gradMag binary : Mat) (T : Int) (s : BfsState) (seed : Point)
    (hseed : InGrid enhanced.rows enhanced.cols seed)
    (hV : s.visited.px seed.y seed.x = 0)
    (hlab : ∀ r : Point, s.segmented.px r.y r.x = 255 → s.visited.px r.y r.x ≠ 0) :
    ∃ s' extra, processSeed (edgeLoop enhanced gradMag binary T seed)
        (enhanced.rows * enhanced.cols + 1) seed s = some s' ∧ s'.q = [] ∧
      s'.trace = s.trace ++ extra ∧
      (∀ r : Point, s'.visited.px r.y r.x ≠ 0 ↔ (s.visited.px r.y r.x ≠ 0 ∨ r ∈ extra)) ∧
      (∀ r : Point, s'.segmented.px r.y r.x =
        if r ∈ extra ∧ binary.px r.y r.x > 0 then 255 else s.segmented.px r.y r.x) ∧
      (∀ r : Point, r ∈ extra → s.visited.px r.y r.x = 0) ∧
      (s'.segmented.px seed.y seed.x = 255 ↔ binary.px seed.y seed.x > 0) ∧
      (∀ n : Point, n ≠ seed → s.visited.px n.y n.x = 0 → s'.segmented.px n.y n.x = 255 →
        binary.px n.y n.x > 0 ∧ NumericGates enhanced gradMag (T : ℚ) (T : ℚ) (T : ℚ) seed n ∧
        InGrid enhanced.rows enhanced.cols n ∧
        ∃ p : Point, p ∈ extra ∧ binary.px p.y p.x > 0 ∧ Adj8 p n) ∧
      (∀ n p : Point, p ∈ extra → binary.px p.y p.x > 0 → Adj8 p n →
        InGrid enhanced.rows enhanced.cols n → s.visited.px n.y n.x = 0 →
        binary.px n.y n.x > 0 → NumericGates enhanced gradMag (T : ℚ) (T : ℚ) (T : ℚ) seed n →
        s'.segmented.px n.y n.x = 255) := by
  obtain ⟨s', extra, hs', hq, htr, hseg, hreach, hvis⟩ :=
    processSeed_spec (edgeLoop enhanced gradMag binary T seed)
      (enhanced.rows * enhanced.cols + 1) seed s hseed (Nat.lt_succ_self _) hV
      (fun _ _ n => isValidPixel enhanced gradMag T seed n = true)
      (fun _ _ _ _ h => h) (fun _ _ _ _ h => h)
  have hseg2 : ∀ r : Point, s'.segmented.px r.y r.x =
      if r ∈ extra ∧ binary.px r.y r.x > 0 then 255 else s.segmented.px r.y r.x := by
    intro r
    rw [hseg r]
    by_cases hc : r ∈ extra ∧ binary.px r.y r.x > 0
    · rw [if_pos hc, if_pos ⟨hc.1, (edgeLoop_accept _ _ _ _ _ _).2 hc.2⟩]; rfl
    · rw [if_neg hc, if_neg (fun hh => hc ⟨hh.1, (edgeLoop_accept _ _ _ _ _ _).1 hh.2⟩)]
  have hnew : ∀ r : Point, r ∈ extra → s.visited.px r.y r.x = 0 :=
    fun r hr => reach_unvisited _ _ _ seed hV r ((hreach r).1 hr)
  have hold : ∀ r : Point, s.visited.px r.y r.x = 0 → s'.segmented.px r.y r.x = 255 →
      r ∈ extra ∧ binary.px r.y r.x > 0 := by
    intro r hr h
    by_contra hc
    rw [hseg2 r, if_neg hc] at h
    exact hlab r h hr
  refine ⟨s', extra, hs', hq, htr, hvis, hseg2, hnew, ?_, ?_, ?_⟩
  · constructor
    · intro h; exact (hold seed hV h).2
    · intro h
      rw [hseg2 seed, if_pos ⟨(hreach seed).2 Reach.start, h⟩]
  · intro n hne hn h
    obtain ⟨hin, hb⟩ := hold n hn h
    have hr := (hreach n).1 hin
    cases hr with
    | start => exact absurd rfl hne
    | @step p k d hp ha hk hins hg =>
      exact ⟨hb, (isValidPixel_iff _ _ _ _ _).1 hg.2, hins,
        p, (hreach p).2 hp, (edgeLoop_accept _ _ _ _ _ _).1 ha,
        (edge_adj8 enhanced gradMag binary T seed _ _).2 ⟨k, d, hk, rfl⟩⟩
  · intro n p hp hbp hadj hin hn hbn hg
    obtain ⟨k, d, hk, hnd⟩ := (edge_adj8 enhanced gradMag binary T seed _ _).1 hadj
    subst hnd
    have hr : Reach (edgeLoop enhanced gradMag binary T seed)
        (fun _ _ n => s.visited.px n.y n.x = 0 ∧ isValidPixel enhanced gradMag T seed n = true)
        seed (p.shift d) :=
      Reach.step ((hreach p).1 hp) ((edgeLoop_accept _ _ _ _ _ _).2 hbp) hk hin
        ⟨hn, (isValidPixel_iff _ _ _ _ _).2 hg⟩
    rw [hseg2, if_pos ⟨(hreach _).2 hr, hbn⟩]

/-- The seed loop of the multi-criteria grower from the zero state, for in-bounds seeds: it
returns; every labelled pixel is candidate-mask foreground, is visited, and is a seed of the
list or passes the three numeric gates relative to a seed of the list; every pixel is 0 or
255. -/
theorem edgeGrow_spec (enhanced gradMag binary : Mat) (T : Int) (seeds : List Point)
    (hin : ∀ x ∈ seeds, InGrid enhanced.rows enhanced.cols x) :
    ∃ s', edgeGrow enhanced gradMag binary T seeds = some s' ∧
      (∀ r : Point, s'.segmented.px r.y r.x = 255 →
        binary.px r.y r.x > 0 ∧ s'.visited.px r.y r.x ≠ 0 ∧
        (r ∈ seeds ∨ ∃ sd ∈ seeds,
          NumericGates enhanced gradMag (T : ℚ) (T : ℚ) (T : ℚ) sd r)) ∧
      (∀ r : Point, s'.segmented.px r.y r.x = 0 ∨ s'.segmented.px r.y r.x = 255) := by
  unfold edgeGrow
  apply growSeeds_induct (edgeLoop enhanced gradMag binary T) _
    (fun t => (∀ r : Point, t.segmented.px r.y r.x = 255 →
        binary.px r.y r.x > 0 ∧ t.visited.px r.y r.x ≠ 0 ∧
        (r ∈ seeds ∨ ∃ sd ∈ seeds,
          NumericGates enhanced gradMag (T : ℚ) (T : ℚ) (T : ℚ) sd r)) ∧
      (∀ r : Point, t.segmented.px r.y r.x = 0 ∨ t.segmented.px r.y r.x = 255))
    (fun x => x ∈ seeds ∧ InGrid enhanced.rows enhanced.cols x)
  · intro seed t hQ hP
    by_cases hv : t.visited.px seed.y seed.x ≠ 0
    · exact ⟨t, processSeed_skip _ _ _ _ hv, hP⟩
    · have hV : t.visited.px seed.y seed.x = 0 := by simpa using hv
      obtain ⟨t', extra, ht', _, _, hvis, hseg, hnew, _, ha, _⟩ :=
        edge_expansion enhanced gradMag binary T t seed hQ.2 hV (fun r hr => (hP.1 r hr).2.1)
      refine ⟨t', ht', ?_, ?_⟩
      · intro r hr
        by_cases hc : r ∈ extra ∧ binary.px r.y r.x > 0
        · refine ⟨hc.2, (hvis r).2 (Or.inr hc.1), ?_⟩
          by_cases hrs : r = seed
          · left; rw [hrs]; exact hQ.1
          · right
            exact ⟨seed, hQ.1, (ha r hrs (hnew r hc.1) hr).2.1⟩
        · rw [hseg r, if_neg hc] at hr
          obtain ⟨h1, h2, h3⟩ := hP.1 r hr
          exact ⟨h1, (hvis r).2 (Or.inl h2), h3⟩
      · intro r
        rw [hseg r]
        split
        · right; rfl
        · exact hP.2 r
  · intro x hx; exact ⟨hx, hin x hx⟩
  · refine ⟨?_, fun r => Or.inl rfl⟩
    intro r hr
    simp [Mat.zeros, Mat.px] at hr

/-- The seed loop never touches a pixel that is already visited: its label is kept and it is
not dequeued again. -/
theorem growSeeds_frozen (enhanced gradMag binary : Mat) (T : Int) (seeds : List Point)
    (s : BfsState) (hin : ∀ x ∈ seeds, InGrid enhanced.rows enhanced.cols x) :
    ∃ s', growSeeds (edgeLoop enhanced gradMag binary T) (enhanced.rows * enhanced.cols + 1)
        seeds s = some s' ∧
      ∃ extra, s'.trace = s.trace ++ extra ∧
        ∀ p : Point, s.visited.px p.y p.x ≠ 0 →
          s'.visited.px p.y p.x ≠ 0 ∧ s'.segmented.px p.y p.x = s.segmented.px p.y p.x ∧
          p ∉ extra := by
  apply growSeeds_induct (edgeLoop enhanced gradMag binary T) _
    (fun t => ∃ extra, t.trace = s.trace ++ extra ∧
        ∀ p : Point, s.visited.px p.y p.x ≠ 0 →
          t.visited.px p.y p.x ≠ 0 ∧ t.segmented.px p.y p.x = s.segmented.px p.y p.x ∧
          p ∉ extra)
    (fun x => InGrid enhanced.rows enhanced.cols x)
  · intro seed t hQ hP
    by_cases hv : t.visited.px seed.y seed.x ≠ 0
    · exact ⟨t, processSeed_skip _ _ _ _ hv, hP⟩
    · have hV : t.visited.px seed.y seed.x = 0 := by simpa using hv
      obtain ⟨t', extra', ht', _, htr, hseg, hreach, hvis⟩ :=
        processSeed_spec (edgeLoop enhanced gradMag binary T seed)
          (enhanced.rows * enhanced.cols + 1) seed t hQ (Nat.lt_succ_self _) hV
          (fun _ _ n => isValidPixel enhanced gradMag T seed n = true)
          (fun _ _ _ _ h => h) (fun _ _ _ _ h => h)
      obtain ⟨extra, he, hfro⟩ := hP
      refine ⟨t', ht', extra ++ extra', by rw [htr, he, List.append_assoc], ?_⟩
      intro p hp
      obtain ⟨h1, h2, h3⟩ := hfro p hp
      have hnot : p ∉ extra' := fun hm =>
        h1 (reach_unvisited _ _ _ seed hV p ((hreach p).1 hm))
      refine ⟨(hvis p).2 (Or.inl h1), ?_, ?_⟩
      · rw [hseg p, if_neg (fun hh => hnot hh.1), h2]
      · intro hm
        rcases List.mem_append.mp hm with hm | hm
        · exact h3 hm
        · exact hnot hm
  · exact hin
  · exact ⟨[], by simp, fun p hp => ⟨hp, rfl, by simp⟩⟩

/-- Claim C7.  In the multi-criteria grower with `T = BACKTRACKING_THRESHOLD`:
(1) the flag `isValidPixel` is the conjunction of the three numeric gates
`|intensity(n) - r| < T`, `|gradient(n) - g| < T / 2`, `gradient(n) < T * 1.5`, and an
examination of an in-bounds unvisited neighbour pushes it exactly when they hold;
(2) in the expansion of an in-bounds unvisited seed, the seed is labelled 255 iff it is mask
foreground; a pixel other than the seed that was unvisited before and is labelled 255 is mask
foreground, passes the three gates relative to this seed, and is an in-bounds 8-neighbour of a
pixel absorbed in this expansion; conversely every in-bounds unvisited 8-neighbour of an
absorbed pixel that is mask foreground and passes the three gates is labelled 255;
(3) in the result of the whole seed loop every labelled pixel is mask foreground and is a seed
or passes the three gates relative to a seed, and every pixel is 0 or 255. -/
theorem multi_criteria_absorption (enhanced gradMag binary : Mat) (T : Int)
    (seeds : List Point) (s : BfsState) (seed : Point)
    (hin : ∀ x ∈ seeds, InGrid enhanced.rows enhanced.cols x)
    (hseed : InGrid enhanced.rows enhanced.cols seed)
    (hV : s.visited.px seed.y seed.x = 0)
    (hlab : ∀ r : Point, s.segmented.px r.y r.x = 255 → s.visited.px r.y r.x ≠ 0) :
    ((∀ sd n : Point, isValidPixel enhanced gradMag T sd n = true ↔
        NumericGates enhanced gradMag (T : ℚ) (T : ℚ) (T : ℚ) sd n) ∧
      (∀ (t : BfsState) (p : Point) (i : Nat) (d : Int × Int),
        InGrid enhanced.rows enhanced.cols (p.shift d) →
        t.visited.px (p.shift d).y (p.shift d).x = 0 →
        (NumericGates enhanced gradMag (T : ℚ) (T : ℚ) (T : ℚ) seed (p.shift d) →
          examine (edgeLoop enhanced gradMag binary T seed) p i d t = t.push (p.shift d)) ∧
        (¬ NumericGates enhanced gradMag (T : ℚ) (T : ℚ) (T : ℚ) seed (p.shift d) →
          examine (edgeLoop enhanced gradMag binary T seed) p i d t = t))) ∧
    (∃ s' extra, processSeed (edgeLoop enhanced gradMag binary T seed)
        (enhanced.rows * enhanced.cols + 1) seed s = some s' ∧
      s'.trace = s.trace ++ extra ∧
      (s'.segmented.px seed.y seed.x = 255 ↔ binary.px seed.y seed.x > 0) ∧
      (∀ n : Point, n ≠ seed → s.visited.px n.y n.x = 0 → s'.segmented.px n.y n.x = 255 →
        binary.px n.y n.x > 0 ∧ NumericGates enhanced gradMag (T : ℚ) (T : ℚ) (T : ℚ) seed n ∧
        InGrid enhanced.rows enhanced.cols n ∧
        ∃ p : Point, p ∈ extra ∧ binary.px p.y p.x > 0 ∧ Adj8 p n) ∧
      (∀ n p : Point, p ∈ extra → binary.px p.y p.x > 0 → Adj8 p n →
        InGrid enhanced.rows enhanced.cols n → s.visited.px n.y n.x = 0 →
        binary.px n.y n.x > 0 → NumericGates enhanced gradMag (T : ℚ) (T : ℚ) (T : ℚ) seed n →
        s'.segmented.px n.y n.x = 255)) ∧
    (∃ s', edgeGrow enhanced gradMag binary T seeds = some s' ∧
      (∀ r : Point, s'.segmented.px r.y r.x = 255 →
        binary.px r.y r.x > 0 ∧
        (r ∈ seeds ∨ ∃ sd ∈ seeds,
          NumericGates enhanced gradMag (T : ℚ) (T : ℚ) (T : ℚ) sd r)) ∧
      (∀ r : Point, s'.segmented.px r.y r.x = 0 ∨ s'.segmented.px r.y r.x = 255)) := by
  refine ⟨⟨fun sd n => isValidPixel_iff enhanced gradMag T sd n, ?_⟩, ?_, ?_⟩
  · intro t p i d hins hv
    rw [examine_eq]
    constructor
    · intro hg
      rw [if_pos ⟨hins, hv, (isValidPixel_iff enhanced gradMag T seed _).2 hg⟩]
    · intro hg
      rw [if_neg (fun hh => hg ((isValidPixel_iff enhanced gradMag T seed _).1 hh.2.2))]
  · obtain ⟨s', extra, hs', _, htr, _, _, _, h1, h2, h3⟩ :=
      edge_expansion enhanced gradMag binary T s seed hseed hV hlab
    exact ⟨s', extra, hs', htr, h1, h2, h3⟩
  · obtain ⟨s', hs', h1, h2⟩ := edgeGrow_spec enhanced gradMag binary T seeds hin
    exact ⟨s', hs', fun r hr => ⟨(h1 r hr).1, (h1 r hr).2.2⟩, h2⟩

/-- Witness for C7: the 1 x 3 image with intensities 0, 10, 20, zero gradient, full mask and
threshold 15, the seed list `(0,0), (1,0)`, expanded from the zero state at the seed `(0,0)`. -/
theorem multi_criteria_absorption_witness :
    (∀ x ∈ [(⟨0, 0⟩ : Point), ⟨1, 0⟩], InGrid rowEnhanced.rows rowEnhanced.cols x) ∧
    InGrid rowEnhanced.rows rowEnhanced.cols ⟨0, 0⟩ ∧
    (edgeStart rowEnhanced).visited.px (0 : Int) (0 : Int) = 0 ∧
    (∃ s' extra, processSeed (edgeLoop rowEnhanced rowGradient rowMask 15 ⟨0, 0⟩)
        (rowEnhanced.rows * rowEnhanced.cols + 1) ⟨0, 0⟩ (edgeStart rowEnhanced) = some s' ∧
      s'.trace = (edgeStart rowEnhanced).trace ++ extra ∧
      (s'.segmented.px (0 : Int) (0 : Int) = 255 ↔ rowMask.px (0 : Int) (0 : Int) > 0) ∧
      (∀ n : Point, n ≠ ⟨0, 0⟩ → (edgeStart rowEnhanced).visited.px n.y n.x = 0 →
        s'.segmented.px n.y n.x = 255 →
        rowMask.px n.y n.x > 0 ∧
        NumericGates rowEnhanced rowGradient ((15 : Int) : ℚ) ((15 : Int) : ℚ) ((15 : Int) : ℚ)
          ⟨0, 0⟩ n ∧
        InGrid rowEnhanced.rows rowEnhanced.cols n ∧
        ∃ p : Point, p ∈ extra ∧ rowMask.px p.y p.x > 0 ∧ Adj8 p n) ∧
      (∀ n p : Point, p ∈ extra → rowMask.px p.y p.x > 0 → Adj8 p n →
        InGrid rowEnhanced.rows rowEnhanced.cols n →
        (edgeStart rowEnhanced).visited.px n.y n.x = 0 →
        rowMask.px n.y n.x > 0 →
        NumericGates rowEnhanced rowGradient ((15 : Int) : ℚ) ((15 : Int) : ℚ) ((15 : Int) : ℚ)
          ⟨0, 0⟩ n →
        s'.segmented.px n.y n.x = 255)) :=
  ⟨by decide, by decide, rfl,
    (multi_criteria_absorption rowEnhanced rowGradient rowMask 15 [⟨0, 0⟩, ⟨1, 0⟩]
      (edgeStart rowEnhanced) ⟨0, 0⟩ (by decide) (by decide) rfl
      (by intro r hr; simp [edgeStart, Mat.zeros, Mat.px] at hr)).2.1⟩

/-- Claim C10.  First-seed-wins in the multi-criteria grower:
(1) a seed whose pixel is already visited is skipped, the state is left as it is;
(2) the seed loop, from any state, returns, and a pixel visited before keeps its label, stays
visited and is not dequeued again under a later seed;
(3) there is an input (the 1 x 3 image with intensities 0, 10, 20, zero gradient, full mask,
threshold 15) and two orderings of the same seed set `(0,0), (1,0)` for which the resulting
Label Grids differ at pixel `(2,0)`: 0 for the first ordering, 255 for the second. -/
theorem first_seed_wins (enhanced gradMag binary : Mat) (T : Int) (seeds : List Point)
    (s : BfsState) (hin : ∀ x ∈ seeds, InGrid enhanced.rows enhanced.cols x) :
    (∀ (seed : Point) (rest : List Point), s.visited.px seed.y seed.x ≠ 0 →
      processSeed (edgeLoop enhanced gradMag binary T seed)
        (enhanced.rows * enhanced.cols + 1) seed s = some s ∧
      growSeeds (edgeLoop enhanced gradMag binary T) (enhanced.rows * enhanced.cols + 1)
        (seed :: rest) s =
      growSeeds (edgeLoop enhanced gradMag binary T) (enhanced.rows * enhanced.cols + 1)
        rest s) ∧
    (∃ s', growSeeds (edgeLoop enhanced gradMag binary T) (enhanced.rows * enhanced.cols + 1)
        seeds s = some s' ∧
      ∃ extra, s'.trace = s.trace ++ extra ∧
        ∀ p : Point, s.visited.px p.y p.x ≠ 0 →
          s'.visited.px p.y p.x ≠ 0 ∧ s'.segmented.px p.y p.x = s.segmented.px p.y p.x ∧
          p ∉ extra) ∧
    (List.Perm [(⟨0, 0⟩ : Point), ⟨1, 0⟩] [⟨1, 0⟩, ⟨0, 0⟩] ∧
      (edgeGrow rowEnhanced rowGradient rowMask 15 [⟨0, 0⟩, ⟨1, 0⟩]).map
        (fun t => t.segmented.px 0 2) = some 0 ∧
      (edgeGrow rowEnhanced rowGradient rowMask 15 [⟨1, 0⟩, ⟨0, 0⟩]).map
        (fun t => t.segmented.px 0 2) = some 255) := by
  refine ⟨?_, growSeeds_frozen enhanced gradMag binary T seeds s hin, by decide, by decide,
    by decide⟩
  intro seed rest hv
  have h := processSeed_skip (edgeLoop enhanced gradMag binary T seed)
    (enhanced.rows * enhanced.cols + 1) seed s hv
  exact ⟨h, by simp [growSeeds, h]⟩

/-- Witness for C10: the seed list `(0,0), (1,0)` on the 1 x 3 image, run from the state
`claimedState` in which pixel `(1,0)` is already visited and labelled. -/
theorem first_seed_wins_witness :
    (∀ x ∈ [(⟨0, 0⟩ : Point), ⟨1, 0⟩], InGrid rowEnhanced.rows rowEnhanced.cols x) ∧
    claimedState.visited.px (0 : Int) (1 : Int) ≠ 0 ∧
    ∃ s', growSeeds (edgeLoop rowEnhanced rowGradient rowMask 15)
        (rowEnhanced.rows * rowEnhanced.cols + 1) [⟨0, 0⟩, ⟨1, 0⟩] claimedState = some s' ∧
      ∃ extra, s'.trace = claimedState.trace ++ extra ∧
        ∀ p : Point, claimedState.visited.px p.y p.x ≠ 0 →
          s'.visited.px p.y p.x ≠ 0 ∧
          s'.segmented.px p.y p.x = claimedState.segmented.px p.y p.x ∧
          p ∉ extra :=
  ⟨by decide, by decide,
    (first_seed_wins rowEnhanced rowGradient rowMask 15 [⟨0, 0⟩, ⟨1, 0⟩]
      claimedState (by decide)).2.1⟩

/-! ## The confidence score -/

theorem confidence_eq (area : ℚ) (rows cols : Nat) :
    confidence area rows cols = min (area / ((rows : ℚ) * (cols : ℚ)) * 4) 1 := by
  unfold confidence
  simp only [Nat.cast_mul]

/-- Claim C11.  For a contour of area `A >= 0` on an image of `W x H` pixels (`W, H >= 1`)
the confidence score equals `min(A / (W * H) * 4, 1)` in exact arithmetic; it lies in `[0, 1]`,
equals `4 * A / (W * H)` whenever `4 * A <= W * H`, and equals 1 exactly when
`4 * A >= W * H`. -/
theorem confidence_formula (A : ℚ) (W H : Nat) (hA : 0 ≤ A) (hW : 1 ≤ W) (hH : 1 ≤ H) :
    confidence A H W = min (A / ((W : ℚ) * (H : ℚ)) * 4) 1 ∧
    0 ≤ confidence A H W ∧ confidence A H W ≤ 1 ∧
    (4 * A ≤ (W : ℚ) * (H : ℚ) → confidence A H W = 4 * A / ((W : ℚ) * (H : ℚ))) ∧
    (confidence A H W = 1 ↔ (W : ℚ) * (H : ℚ) ≤ 4 * A) := by
  have hWq : (1 : ℚ) ≤ (W : ℚ) := by exact_mod_cast hW
  have hHq : (1 : ℚ) ≤ (H : ℚ) := by exact_mod_cast hH
  have hpos : (0 : ℚ) < (W : ℚ) * (H : ℚ) := by positivity
  have heq : confidence A H W = min (A / ((W : ℚ) * (H : ℚ)) * 4) 1 := by
    rw [confidence_eq, mul_comm (H : ℚ) (W : ℚ)]
  have hval : A / ((W : ℚ) * (H : ℚ)) * 4 = 4 * A / ((W : ℚ) * (H : ℚ)) := by ring
  have hnn : 0 ≤ 4 * A / ((W : ℚ) * (H : ℚ)) := by positivity
  rw [heq, hval]
  refine ⟨rfl, le_min hnn zero_le_one, min_le_right _ _, ?_, ?_⟩
  · intro h
    apply min_eq_left
    rw [div_le_one hpos]
    exact h
  · constructor
    · intro h
      have h1 : (1 : ℚ) ≤ 4 * A / ((W : ℚ) * (H : ℚ)) := by
        rw [← h]; exact min_le_left _ _
      rwa [le_div_iff₀ hpos, one_mul] at h1
    · intro h
      apply min_eq_right
      rw [le_div_iff₀ hpos, one_mul]
      exact h

/-- Witness for C11: a contour of area 1500 on a 100 x 80 image. -/
theorem confidence_formula_witness :
    (0 : ℚ) ≤ 1500 ∧ 1 ≤ 100 ∧ 1 ≤ 80 ∧
    confidence 1500 80 100 = min ((1500 : ℚ) / (((100 : Nat) : ℚ) * ((80 : Nat) : ℚ)) * 4) 1 ∧
    0 ≤ confidence 1500 80 100 ∧ confidence 1500 80 100 ≤ 1 ∧
    (4 * (1500 : ℚ) ≤ ((100 : Nat) : ℚ) * ((80 : Nat) : ℚ) →
      confidence 1500 80 100 = 4 * 1500 / (((100 : Nat) : ℚ) * ((80 : Nat) : ℚ))) ∧
    (confidence 1500 80 100 = 1 ↔ ((100 : Nat) : ℚ) * ((80 : Nat) : ℚ) ≤ 4 * 1500) :=
  ⟨by norm_num, by decide, by decide,
    confidence_formula 1500 100 80 (by norm_num) (by decide) (by decide)⟩

/-! ## Selection of the initial snake -/

/-- The invariant of the selection loop: after the areas `pre`, either nothing was visited and
the variables hold their initial values, or `idx` is the first position of the maximum of `pre`
and `largest` is that maximum. -/
theorem largestLoop_spec (rest : List ℚ) :
    ∀ (pre : List ℚ) (idx : Nat) (largest : ℚ),
      (pre = [] → idx = 0 ∧ largest = 0) →
      (pre ≠ [] → pre[idx]? = some largest ∧ (∀ (j : Nat) (a : ℚ), pre[j]? = some a → a ≤ largest) ∧
        (∀ (j : Nat) (a : ℚ), j < idx → pre[j]? = some a → a < largest)) →
      (∀ a ∈ rest, 0 ≤ a) → pre ++ rest ≠ [] →
      ∃ m, (pre ++ rest)[largestLoop rest pre.length idx largest]? = some m ∧
        (∀ (j : Nat) (a : ℚ), (pre ++ rest)[j]? = some a → a ≤ m) ∧
        (∀ (j : Nat) (a : ℚ), j < largestLoop rest pre.length idx largest →
          (pre ++ rest)[j]? = some a → a < m) := by
  induction rest with
  | nil =>
    intro pre idx largest _ h1 _ hne
    have hpre : pre ≠ [] := by simpa using hne
    obtain ⟨h2, h3, h4⟩ := h1 hpre
    simp only [List.append_nil, largestLoop]
    exact ⟨largest, h2, h3, h4⟩
  | cons area rest ih =>
    intro pre idx largest h0 h1 hnn hne
    have hnn' : ∀ a ∈ rest, 0 ≤ a := fun a ha => hnn a (List.mem_cons_of_mem _ ha)
    have harea : 0 ≤ area := hnn area (List.mem_cons_self _ _)
    have hsplit : pre ++ area :: rest = (pre ++ [area]) ++ rest := by simp
    have hlen : (pre ++ [area]).length = pre.length + 1 := by simp
    have hget : ∀ (j : Nat) (a : ℚ), (pre ++ [area])[j]? = some a →
        (pre[j]? = some a ∧ j < pre.length) ∨ (j = pre.length ∧ a = area) := by
      intro j a hj
      by_cases hlt : j < pre.length
      · left
        rw [List.getElem?_append_left hlt] at hj
        exact ⟨hj, hlt⟩
      · right
        rw [List.getElem?_append_right (by omega)] at hj
        have hj0 : j - pre.length = 0 := by
          by_contra hne0
          have : 1 ≤ j - pre.length := by omega
          rw [List.getElem?_eq_none (by simpa using this)] at hj
          exact absurd hj (by simp)
        rw [hj0] at hj
        simp only [List.getElem?_cons_zero, Option.some.injEq] at hj
        exact ⟨by omega, hj.symm⟩
    have hlast : (pre ++ [area])[pre.length]? = some area := by
      rw [List.getElem?_append_right (le_refl _)]
      simp
    have hnil : pre ++ [area] ≠ [] := by simp
    simp only [largestLoop]
    rw [hsplit, ← hlen]
    by_cases hpre : pre = []
    · obtain ⟨hi, hl⟩ := h0 hpre
      subst hpre
      subst hi
      subst hl
      split
      · rename_i hgt
        apply ih ([] ++ [area]) 0 area (fun h => absurd h hnil) _ hnn' (by simp)
        intro _
        refine ⟨by simp, ?_, ?_⟩
        · intro j a hj
          rcases hget j a hj with ⟨h, _⟩ | ⟨_, h⟩
          · simp at h
          · rw [h]
        · intro j a hj _
          omega
      · rename_i hgt
        have hz : area = 0 := le_antisymm (not_lt.mp hgt) harea
        subst hz
        apply ih ([] ++ [0]) 0 0 (fun h => absurd h hnil) _ hnn' (by simp)
        intro _
        refine ⟨by simp, ?_, ?_⟩
        · intro j a hj
          rcases hget j a hj with ⟨h, _⟩ | ⟨_, h⟩
          · simp at h
          · rw [h]
        · intro j a hj _
          omega
    · obtain ⟨h2, h3, h4⟩ := h1 hpre
      have hidx : idx < pre.length := by
        by_contra hge
        rw [List.getElem?_eq_none (by omega)] at h2
        exact absurd h2 (by simp)
      split
      · rename_i hgt
        apply ih (pre ++ [area]) pre.length area (fun h => absurd h hnil) _ hnn' (by simp)
        intro _
        refine ⟨hlast, ?_, ?_⟩
        · intro j a hj
          rcases hget j a hj with ⟨h, _⟩ | ⟨_, h⟩
          · exact le_of_lt (lt_of_le_of_lt (h3 j a h) hgt)
          · rw [h]
        · intro j a hj hja
          rcases hget j a hja with ⟨h, _⟩ | ⟨h, _⟩
          · exact lt_of_le_of_lt (h3 j a h) hgt
          · omega
      · rename_i hgt
        apply ih (pre ++ [area]) idx largest (fun h => absurd h hnil) _ hnn' (by simp)
        intro _
        refine ⟨by rw [List.getElem?_append_left hidx]; exact h2, ?_, ?_⟩
        · intro j a hj
          rcases hget j a hj with ⟨h, _⟩ | ⟨_, h⟩
          · exact h3 j a h
          · rw [h]; exact not_lt.mp hgt
        · intro j a hj hja
          rcases hget j a hja with ⟨h, _⟩ | ⟨h, _⟩
          · exact h4 j a hj h
          · omega

/-- Claim C14.  For every non-empty list of contour areas, all non-negative, the index chosen
for the initial snake is a position of the list whose area is at least the area of every
contour, and every contour before it has a strictly smaller area: among contours of equal
maximal area the earliest is chosen. -/
theorem largest_contour_selected (areas : List ℚ) (hne : areas ≠ [])
    (hnn : ∀ a ∈ areas, 0 ≤ a) :
    ∃ m, areas[largestContourIdx areas]? = some m ∧
      (∀ (j : Nat) (a : ℚ), areas[j]? = some a → a ≤ m) ∧
      (∀ (j : Nat) (a : ℚ), j < largestContourIdx areas → areas[j]? = some a → a < m) := by
  have h := largestLoop_spec areas [] 0 0 (fun _ => ⟨rfl, rfl⟩) (fun h => absurd rfl h) hnn
    (by simpa using hne)
  simpa [largestContourIdx] using h

/-- Witness for C14: the areas 3, 7, 7, 2; the first contour of area 7 is chosen. -/
theorem largest_contour_selected_witness :
    ([3, 7, 7, 2] : List ℚ) ≠ [] ∧ (∀ a ∈ ([3, 7, 7, 2] : List ℚ), 0 ≤ a) ∧
    ∃ m, ([3, 7, 7, 2] : List ℚ)[largestContourIdx [3, 7, 7, 2]]? = some m ∧
      (∀ (j : Nat) (a : ℚ), ([3, 7, 7, 2] : List ℚ)[j]? = some a → a ≤ m) ∧
      (∀ (j : Nat) (a : ℚ), j < largestContourIdx [3, 7, 7, 2] →
        ([3, 7, 7, 2] : List ℚ)[j]? = some a → a < m) :=
  ⟨by simp, by intro a ha; simp at ha; rcases ha with rfl | rfl | rfl | rfl <;> norm_num,
    largest_contour_selected [3, 7, 7, 2] (by simp)
      (by intro a ha; simp at ha; rcases ha with rfl | rfl | rfl | rfl <;> norm_num)⟩

/-! ## Failure of the snake relaxation -/

/-- Claim C15.  The snake relaxation fails, with the error `NoInitialContour`, if and only if
there is no contour; then it returns no point sequence; and whenever at least one contour
exists it returns a point sequence without error. -/
theorem snake_fails_iff_no_contour (scale : Coef → Int → Int) (contourArea : List Point → ℚ)
    (edges : Mat) (contours : List (List Point)) :
    (activeContoursSegmentation scale contourArea edges contours
        = Except.error SegError.NoInitialContour ↔ contours = []) ∧
    ((∃ e, activeContoursSegmentation scale contourArea edges contours = Except.error e)
        ↔ contours = []) ∧
    (contours = [] →
      ∀ snake, activeContoursSegmentation scale contourArea edges contours ≠ Except.ok snake) ∧
    (contours ≠ [] →
      ∃ snake, activeContoursSegmentation scale contourArea edges contours = Except.ok snake) := by
  cases contours with
  | nil =>
    refine ⟨⟨fun _ => rfl, fun _ => rfl⟩, ⟨fun _ => rfl, fun _ => ⟨_, rfl⟩⟩, ?_, ?_⟩
    · intro _ snake h
      simp [activeContoursSegmentation] at h
    · intro h; exact absurd rfl h
  | cons c cs =>
    refine ⟨⟨?_, ?_⟩, ⟨?_, ?_⟩, ?_, ?_⟩
    · intro h; simp [activeContoursSegmentation] at h
    · intro h; simp at h
    · rintro ⟨e, h⟩; simp [activeContoursSegmentation] at h
    · intro h; simp at h
    · intro h; simp at h
    · intro _
      exact ⟨_, by simp [activeContoursSegmentation]; rfl⟩

/-! ## One relaxation step of the snake -/

theorem tdiv_two_bound (s : Int) : |((Int.tdiv s 2 : Int) : ℚ) - (s : ℚ) / 2| ≤ 1 / 2 := by
  have key : -1 ≤ 2 * Int.tdiv s 2 - s ∧ 2 * Int.tdiv s 2 - s ≤ 1 := by
    rcases le_total 0 s with h | h
    · rw [Int.tdiv_eq_ediv h (by decide)]
      omega
    · have hneg : Int.tdiv s 2 = -(Int.tdiv (-s) 2) := by
        rw [Int.neg_tdiv, neg_neg]
      rw [hneg, Int.tdiv_eq_ediv (by omega) (by decide)]
      omega
  have h1 : (-1 : ℚ) ≤ 2 * ((Int.tdiv s 2 : Int) : ℚ) - (s : ℚ) := by exact_mod_cast key.1
  have h2 : 2 * ((Int.tdiv s 2 : Int) : ℚ) - (s : ℚ) ≤ 1 := by exact_mod_cast key.2
  rw [abs_le]
  constructor <;> linarith

theorem roundHalfEven_bound (n : Int) :
    |((roundHalfEven n 10 : Int) : ℚ) - (n : ℚ) / 10| < 1 := by
  have key : -10 < 10 * roundHalfEven n 10 - n ∧ 10 * roundHalfEven n 10 - n < 10 := by
    unfold roundHalfEven
    simp only
    split
    · omega
    · split
      · omega
      · split <;> omega
  have h1 : (-10 : ℚ) < 10 * ((roundHalfEven n 10 : Int) : ℚ) - (n : ℚ) := by
    exact_mod_cast key.1
  have h2 : 10 * ((roundHalfEven n 10 : Int) : ℚ) - (n : ℚ) < 10 := by exact_mod_cast key.2
  rw [abs_lt]
  constructor <;> linarith

/-- The rounding `nearestScale` stays within 1 of the exact product for the two constants used
in the candidate. -/
theorem nearestScale_bound (x : Int) :
    |((nearestScale ACTIVE_CONTOURS_ALPHA x : Int) : ℚ) - ACTIVE_CONTOURS_ALPHA.toRat * x| < 1 ∧
    |((nearestScale ACTIVE_CONTOURS_ALPHA.oneMinus x : Int) : ℚ)
      - ACTIVE_CONTOURS_ALPHA.oneMinus.toRat * x| < 1 := by
  constructor
  · have h := roundHalfEven_bound (1 * x)
    have e : ACTIVE_CONTOURS_ALPHA.toRat * (x : ℚ) = ((1 * x : Int) : ℚ) / 10 := by
      simp [ACTIVE_CONTOURS_ALPHA, Coef.toRat]; ring
    rw [e]
    exact h
  · have h := roundHalfEven_bound (9 * x)
    have e : ACTIVE_CONTOURS_ALPHA.oneMinus.toRat * (x : ℚ) = ((9 * x : Int) : ℚ) / 10 := by
      simp [ACTIVE_CONTOURS_ALPHA, Coef.oneMinus, Coef.toRat]; ring
    rw [e]
    exact h

/-- The coordinate of the candidate lies within 2 of the exact value of the formula when the
rounding of the two products lies within 1 of the exact products. -/
theorem candidate_coord_bound (scale : Coef → Int → Int) (c p n : Int)
    (h1 : |((scale ACTIVE_CONTOURS_ALPHA.oneMinus c : Int) : ℚ)
      - ACTIVE_CONTOURS_ALPHA.oneMinus.toRat * c| < 1)
    (h2 : |((scale ACTIVE_CONTOURS_ALPHA (p + n) : Int) : ℚ)
      - ACTIVE_CONTOURS_ALPHA.toRat * ((p + n : Int) : ℚ)| < 1) :
    |((scale ACTIVE_CONTOURS_ALPHA.oneMinus c
        + Int.tdiv (scale ACTIVE_CONTOURS_ALPHA (p + n)) 2 : Int) : ℚ)
      - ((1 - ACTIVE_CONTOURS_ALPHA.toRat) * c
        + ACTIVE_CONTOURS_ALPHA.toRat * ((p : ℚ) + (n : ℚ)) / 2)| < 2 := by
  have h3 := tdiv_two_bound (scale ACTIVE_CONTOURS_ALPHA (p + n))
  have e1 : ACTIVE_CONTOURS_ALPHA.oneMinus.toRat = 1 - ACTIVE_CONTOURS_ALPHA.toRat := by
    simp [ACTIVE_CONTOURS_ALPHA, Coef.oneMinus, Coef.toRat]; norm_num
  rw [e1] at h1
  rw [abs_lt] at h1 h2 ⊢
  rw [abs_le] at h3
  push_cast at h1 h2 h3 ⊢
  constructor <;> linarith [h1.1, h1.2, h2.1, h2.2, h3.1, h3.2]

/-- Counterexample for claim C12.  With the products rounded to the nearest integer the
candidate for `current = prev = next = (7, 7)` is `(6, 6)`, not `current`; and for every
rounding the candidate for `current = (1, 0)`, `prev = next = (0, 0)` has an integer
`x` coordinate, which cannot be the exact value `(1 - 0.1) * 1 + 0.1 * (0 + 0) / 2 = 0.9`. -/
theorem snake_candidate_is_rounded :
    relaxCandidate nearestScale ⟨7, 7⟩ ⟨7, 7⟩ ⟨7, 7⟩ = ⟨6, 6⟩ ∧
    (∀ scale : Coef → Int → Int,
      ((relaxCandidate scale ⟨1, 0⟩ ⟨0, 0⟩ ⟨0, 0⟩).x : ℚ) ≠
        (1 - ACTIVE_CONTOURS_ALPHA.toRat) * 1 + ACTIVE_CONTOURS_ALPHA.toRat * (0 + 0) / 2) := by
  refine ⟨by decide, ?_⟩
  intro scale h
  have e : (1 - ACTIVE_CONTOURS_ALPHA.toRat) * 1 + ACTIVE_CONTOURS_ALPHA.toRat * (0 + 0) / 2
      = 9 / 10 := by
    simp [ACTIVE_CONTOURS_ALPHA, Coef.toRat]; norm_num
  rw [e] at h
  have h2 : (10 : ℚ) * ((relaxCandidate scale ⟨1, 0⟩ ⟨0, 0⟩ ⟨0, 0⟩).x : ℚ) = 9 := by
    rw [h]; norm_num
  have h3 : (10 : Int) * (relaxCandidate scale ⟨1, 0⟩ ⟨0, 0⟩ ⟨0, 0⟩).x = 9 := by
    exact_mod_cast h2
  omega

/-- Claim C12, amended.  In one relaxation step the candidate is the formula
`(1 - alpha) * current + alpha * (prev + next) / 2` evaluated on integer points: each product
with a constant is rounded to an integer (`scale`) and the halving is a truncating integer
division.  If the candidate lies inside the image bounds on a non-zero edge-map pixel the point
is set to `current + gamma * (candidate - current)` (product rounded likewise), otherwise to the
candidate itself.  When the rounding stays within 1 of the exact products, each coordinate of
the candidate lies within 2 of the exact value of the formula, and when
`current = prev = next` the candidate differs from `current` by at most 1 per coordinate. -/
theorem snake_step_rounded (scale : Coef → Int → Int) (edges : Mat) (cur prev next : Point)
    (hround : ∀ x : Int,
      |((scale ACTIVE_CONTOURS_ALPHA x : Int) : ℚ) - ACTIVE_CONTOURS_ALPHA.toRat * x| < 1 ∧
      |((scale ACTIVE_CONTOURS_ALPHA.oneMinus x : Int) : ℚ)
        - ACTIVE_CONTOURS_ALPHA.oneMinus.toRat * x| < 1) :
    ACTIVE_CONTOURS_ALPHA.toRat = 1 / 10 ∧ ACTIVE_CONTOURS_GAMMA.toRat = 4 / 10 ∧
    relaxCandidate scale cur prev next =
      ⟨scale ACTIVE_CONTOURS_ALPHA.oneMinus cur.x
          + Int.tdiv (scale ACTIVE_CONTOURS_ALPHA (prev.x + next.x)) 2,
        scale ACTIVE_CONTOURS_ALPHA.oneMinus cur.y
          + Int.tdiv (scale ACTIVE_CONTOURS_ALPHA (prev.y + next.y)) 2⟩ ∧
    (InGrid edges.rows edges.cols (relaxCandidate scale cur prev next) →
      edges.px (relaxCandidate scale cur prev next).y (relaxCandidate scale cur prev next).x > 0 →
      relaxPoint scale edges cur prev next =
        ⟨cur.x + scale ACTIVE_CONTOURS_GAMMA ((relaxCandidate scale cur prev next).x - cur.x),
          cur.y + scale ACTIVE_CONTOURS_GAMMA ((relaxCandidate scale cur prev next).y - cur.y)⟩) ∧
    (¬ (InGrid edges.rows edges.cols (relaxCandidate scale cur prev next) ∧
        edges.px (relaxCandidate scale cur prev next).y (relaxCandidate scale cur prev next).x > 0) →
      relaxPoint scale edges cur prev next = relaxCandidate scale cur prev next) ∧
    |((relaxCandidate scale cur prev next).x : ℚ)
      - ((1 - ACTIVE_CONTOURS_ALPHA.toRat) * cur.x
        + ACTIVE_CONTOURS_ALPHA.toRat * ((prev.x : ℚ) + (next.x : ℚ)) / 2)| < 2 ∧
    |((relaxCandidate scale cur prev next).y : ℚ)
      - ((1 - ACTIVE_CONTOURS_ALPHA.toRat) * cur.y
        + ACTIVE_CONTOURS_ALPHA.toRat * ((prev.y : ℚ) + (next.y : ℚ)) / 2)| < 2 ∧
    (prev = cur → next = cur →
      |(relaxCandidate scale cur prev next).x - cur.x| ≤ 1 ∧
      |(relaxCandidate scale cur prev next).y - cur.y| ≤ 1) := by
  have hx := candidate_coord_bound scale cur.x prev.x next.x (hround cur.x).2
    (hround (prev.x + next.x)).1
  have hy := candidate_coord_bound scale cur.y prev.y next.y (hround cur.y).2
    (hround (prev.y + next.y)).1
  have hcand : relaxCandidate scale cur prev next =
      ⟨scale ACTIVE_CONTOURS_ALPHA.oneMinus cur.x
          + Int.tdiv (scale ACTIVE_CONTOURS_ALPHA (prev.x + next.x)) 2,
        scale ACTIVE_CONTOURS_ALPHA.oneMinus cur.y
          + Int.tdiv (scale ACTIVE_CONTOURS_ALPHA (prev.y + next.y)) 2⟩ := rfl
  refine ⟨by simp [ACTIVE_CONTOURS_ALPHA, Coef.toRat], by simp [ACTIVE_CONTOURS_GAMMA, Coef.toRat],
    hcand, ?_, ?_, ?_, ?_, ?_⟩
  · intro hin hedge
    unfold relaxPoint
    simp only
    rw [if_pos ⟨hin.1, hin.2.1, hin.2.2.1, hin.2.2.2⟩, if_pos hedge]
    rfl
  · intro hn
    unfold relaxPoint
    simp only
    split
    · rename_i hin
      rw [if_neg (fun hedge => hn ⟨⟨hin.1, hin.2.1, hin.2.2.1, hin.2.2.2⟩, hedge⟩)]
    · rfl
  · rw [hcand]; exact hx
  · rw [hcand]; exact hy
  · intro hp hn
    rw [hp, hn] at hx hy
    have ex : (1 - ACTIVE_CONTOURS_ALPHA.toRat) * (cur.x : ℚ)
        + ACTIVE_CONTOURS_ALPHA.toRat * ((cur.x : ℚ) + (cur.x : ℚ)) / 2 = (cur.x : ℚ) := by ring
    have ey : (1 - ACTIVE_CONTOURS_ALPHA.toRat) * (cur.y : ℚ)
        + ACTIVE_CONTOURS_ALPHA.toRat * ((cur.y : ℚ) + (cur.y : ℚ)) / 2 = (cur.y : ℚ) := by ring
    rw [ex] at hx
    rw [ey] at hy
    rw [hcand, hp, hn]
    simp only
    constructor
    · have : |((scale ACTIVE_CONTOURS_ALPHA.oneMinus cur.x
          + Int.tdiv (scale ACTIVE_CONTOURS_ALPHA (cur.x + cur.x)) 2 - cur.x : Int) : ℚ)| < 2 := by
        push_cast at hx ⊢; exact hx
      have h2 : |(scale ACTIVE_CONTOURS_ALPHA.oneMinus cur.x
          + Int.tdiv (scale ACTIVE_CONTOURS_ALPHA (cur.x + cur.x)) 2 - cur.x : Int)| < 2 := by
        exact_mod_cast this
      omega
    · have : |((scale ACTIVE_CONTOURS_ALPHA.oneMinus cur.y
          + Int.tdiv (scale ACTIVE_CONTOURS_ALPHA (cur.y + cur.y)) 2 - cur.y : Int) : ℚ)| < 2 := by
        push_cast at hy ⊢; exact hy
      have h2 : |(scale ACTIVE_CONTOURS_ALPHA.oneMinus cur.y
          + Int.tdiv (scale ACTIVE_CONTOURS_ALPHA (cur.y + cur.y)) 2 - cur.y : Int)| < 2 := by
        exact_mod_cast this
      omega

/-- Witness for the amended C12: nearest rounding, the 3 x 3 edge map `grid3`, and the points
`current = (1, 1)`, `prev = (0, 1)`, `next = (2, 2)`. -/
theorem snake_step_rounded_witness :
    (∀ x : Int,
      |((nearestScale ACTIVE_CONTOURS_ALPHA x : Int) : ℚ) - ACTIVE_CONTOURS_ALPHA.toRat * x| < 1 ∧
      |((nearestScale ACTIVE_CONTOURS_ALPHA.oneMinus x : Int) : ℚ)
        - ACTIVE_CONTOURS_ALPHA.oneMinus.toRat * x| < 1) ∧
    relaxPoint nearestScale grid3 ⟨1, 1⟩ ⟨0, 1⟩ ⟨2, 2⟩ = ⟨1, 1⟩ ∧
    |((relaxCandidate nearestScale ⟨1, 1⟩ ⟨0, 1⟩ ⟨2, 2⟩).x : ℚ)
      - ((1 - ACTIVE_CONTOURS_ALPHA.toRat) * ((1 : Int) : ℚ)
        + ACTIVE_CONTOURS_ALPHA.toRat * (((0 : Int) : ℚ) + ((2 : Int) : ℚ)) / 2)| < 2 :=
  ⟨nearestScale_bound, by decide,
    (snake_step_rounded nearestScale grid3 ⟨1, 1⟩ ⟨0, 1⟩ ⟨2, 2⟩ nearestScale_bound).2.2.2.2.2.1⟩

/-! ## One pass of the snake relaxation -/

theorem relaxSweep_length (f : Point → Point → Point → Point) :
    ∀ (k i : Nat) (s : List Point), (relaxSweep f k i s).length = s.length := by
  intro k
  induction k with
  | zero => intro i s; rfl
  | succ k ih =>
    intro i s
    simp only [relaxSweep]
    rw [ih, List.length_set]

theorem getD_set_ne (s : List Point) (i j : Nat) (v d : Point) (h : i ≠ j) :
    (s.set i v).getD j d = s.getD j d := by
  simp [List.getD_eq_getElem?_getD, List.getElem?_set, h]

theorem getD_set_eq (s : List Point) (i : Nat) (v d : Point) (h : i < s.length) :
    (s.set i v).getD i d = v := by
  simp [List.getD_eq_getElem?_getD, List.getElem?_set, h]

/-- A sweep from index `i` on does not change the points before `i`. -/
theorem relaxSweep_before (f : Point → Point → Point → Point) :
    ∀ (k i : Nat) (s : List Point) (j : Nat) (d : Point), j < i →
      (relaxSweep f k i s).getD j d = s.getD j d := by
  intro k
  induction k with
  | zero => intro i s j d _; rfl
  | succ k ih =>
    intro i s j d hj
    simp only [relaxSweep]
    rw [ih (i + 1) _ j d (by omega), getD_set_ne _ _ _ _ _ (by omega)]

/-- A sweep of `k` steps from index `i` on does not change the points from `i + k` on. -/
theorem relaxSweep_after (f : Point → Point → Point → Point) :
    ∀ (k i : Nat) (s : List Point) (j : Nat) (d : Point), i + k ≤ j →
      (relaxSweep f k i s).getD j d = s.getD j d := by
  intro k
  induction k with
  | zero => intro i s j d _; rfl
  | succ k ih =>
    intro i s j d hj
    simp only [relaxSweep]
    rw [ih (i + 1) _ j d (by omega), getD_set_ne _ _ _ _ _ (by omega)]

theorem relaxSweep_add (f : Point → Point → Point → Point) :
    ∀ (a b i : Nat) (s : List Point),
      relaxSweep f (a + b) i s = relaxSweep f b (i + a) (relaxSweep f a i s) := by
  intro a
  induction a with
  | zero => intro b i s; simp [relaxSweep]
  | succ a ih =>
    intro b i s
    have e : a + 1 + b = (a + b) + 1 := by omega
    rw [e]
    simp only [relaxSweep]
    rw [ih]
    congr 1
    omega

/-- The value written at index `j` by a pass: the update applied to the state reached after
the points before `j` were updated. -/
theorem relaxPass_at (f : Point → Point → Point → Point) (snake : List Point) (j : Nat)
    (hj : j < snake.length) (d : Point) :
    (relaxPass f snake).getD j d =
      f ((relaxSweep f j 0 snake).getD j ⟨0, 0⟩)
        ((relaxSweep f j 0 snake).getD (prevIdx snake.length j) ⟨0, 0⟩)
        ((relaxSweep f j 0 snake).getD (nextIdx snake.length j) ⟨0, 0⟩) := by
  unfold relaxPass
  have e : snake.length = j + ((snake.length - j - 1) + 1) := by omega
  have hlen := relaxSweep_length f j 0 snake
  conv_lhs => rw [e, relaxSweep_add]
  simp only [relaxSweep, Nat.zero_add]
  rw [relaxSweep_before f _ _ _ j d (by omega), hlen, getD_set_eq _ _ _ _ (by omega)]

/-- Every point of a pass is the update of its previous-pass value with, as neighbours, the
value of this pass when the neighbour's index is smaller and the previous-pass value
otherwise. -/
theorem relaxPass_in_place (f : Point → Point → Point → Point) (snake : List Point) (j : Nat)
    (hj : j < snake.length) :
    (relaxPass f snake).getD j ⟨0, 0⟩ =
      f (snake.getD j ⟨0, 0⟩)
        (if prevIdx snake.length j < j then (relaxPass f snake).getD (prevIdx snake.length j) ⟨0, 0⟩
          else snake.getD (prevIdx snake.length j) ⟨0, 0⟩)
        (if nextIdx snake.length j < j then (relaxPass f snake).getD (nextIdx snake.length j) ⟨0, 0⟩
          else snake.getD (nextIdx snake.length j) ⟨0, 0⟩) := by
  have hmid : ∀ m : Nat, (relaxSweep f j 0 snake).getD m ⟨0, 0⟩ =
      if m < j then (relaxPass f snake).getD m ⟨0, 0⟩ else snake.getD m ⟨0, 0⟩ := by
    intro m
    split
    · rename_i hm
      unfold relaxPass
      have e : snake.length = j + (snake.length - j) := by omega
      conv_rhs => rw [e, relaxSweep_add]
      rw [Nat.zero_add, relaxSweep_before f _ _ _ m _ hm]
    · rename_i hm
      exact relaxSweep_after f j 0 snake m _ (by omega)
  rw [relaxPass_at f snake j hj, hmid j, hmid (prevIdx snake.length j),
    hmid (nextIdx snake.length j), if_neg (lt_irrefl j)]

theorem relaxIter_length (f : Point → Point → Point → Point) :
    ∀ (iters : Nat) (snake : List Point), (relaxIter f iters snake).length = snake.length := by
  intro iters
  induction iters with
  | zero => intro snake; rfl
  | succ n ih =>
    intro snake
    simp only [relaxIter]
    rw [ih]
    exact relaxSweep_length f _ _ _

/-- Claim C13.  One pass of the relaxation over `n >= 2` points is an in-place sweep in index
order: point 0 is computed from the previous pass's values of points `n - 1` and 1; for
`1 <= i <= n - 1` the `prev` neighbour is the value of point `i - 1` already updated in this
pass; the `next` neighbour is the previous pass's value of point `i + 1`, except for the last
point, whose `next` neighbour is the already updated point 0.  The number of points is
unchanged by every pass and by any number of passes. -/
theorem snake_pass_single_buffer (f : Point → Point → Point → Point) (snake : List Point)
    (hn : 2 ≤ snake.length) :
    (relaxPass f snake).length = snake.length ∧
    (∀ iters : Nat, (relaxIter f iters snake).length = snake.length) ∧
    (relaxPass f snake).getD 0 ⟨0, 0⟩ =
      f (snake.getD 0 ⟨0, 0⟩) (snake.getD (snake.length - 1) ⟨0, 0⟩) (snake.getD 1 ⟨0, 0⟩) ∧
    (∀ i : Nat, 1 ≤ i → i + 1 < snake.length →
      (relaxPass f snake).getD i ⟨0, 0⟩ =
        f (snake.getD i ⟨0, 0⟩) ((relaxPass f snake).getD (i - 1) ⟨0, 0⟩)
          (snake.getD (i + 1) ⟨0, 0⟩)) ∧
    (relaxPass f snake).getD (snake.length - 1) ⟨0, 0⟩ =
      f (snake.getD (snake.length - 1) ⟨0, 0⟩)
        ((relaxPass f snake).getD (snake.length - 2) ⟨0, 0⟩)
        ((relaxPass f snake).getD 0 ⟨0, 0⟩) := by
  refine ⟨relaxSweep_length f _ _ _, fun iters => relaxIter_length f iters snake, ?_, ?_, ?_⟩
  · rw [relaxPass_in_place f snake 0 (by omega)]
    have h1 : prevIdx snake.length 0 = snake.length - 1 := by simp [prevIdx]
    have h2 : nextIdx snake.length 0 = 1 := by
      unfold nextIdx; rw [if_neg (by omega)]
    rw [h1, h2, if_neg (by omega), if_neg (by omega)]
  · intro i hi1 hi2
    rw [relaxPass_in_place f snake i (by omega)]
    have h1 : prevIdx snake.length i = i - 1 := by
      unfold prevIdx; rw [if_neg (by omega)]
    have h2 : nextIdx snake.length i = i + 1 := by
      unfold nextIdx; rw [if_neg (by omega)]
    rw [h1, h2, if_pos (by omega), if_neg (by omega)]
  · rw [relaxPass_in_place f snake (snake.length - 1) (by omega)]
    have h1 : prevIdx snake.length (snake.length - 1) = snake.length - 2 := by
      unfold prevIdx; rw [if_neg (by omega)]; omega
    have h2 : nextIdx snake.length (snake.length - 1) = 0 := by simp [nextIdx]
    rw [h1, h2, if_pos (by omega), if_pos (by omega)]

/-- Witness for C13: a snake of three points relaxed on the edge map `grid3`. -/
theorem snake_pass_single_buffer_witness :
    2 ≤ ([⟨0, 0⟩, ⟨4, 0⟩, ⟨4, 4⟩] : List Point).length ∧
    (relaxPass (relaxPoint nearestScale grid3) [⟨0, 0⟩, ⟨4, 0⟩, ⟨4, 4⟩]).length =
      ([⟨0, 0⟩, ⟨4, 0⟩, ⟨4, 4⟩] : List Point).length ∧
    (relaxPass (relaxPoint nearestScale grid3) [⟨0, 0⟩, ⟨4, 0⟩, ⟨4, 4⟩]).getD 0 ⟨0, 0⟩ =
      relaxPoint nearestScale grid3
        (([⟨0, 0⟩, ⟨4, 0⟩, ⟨4, 4⟩] : List Point).getD 0 ⟨0, 0⟩)
        (([⟨0, 0⟩, ⟨4, 0⟩, ⟨4, 4⟩] : List Point).getD
          (([⟨0, 0⟩, ⟨4, 0⟩, ⟨4, 4⟩] : List Point).length - 1) ⟨0, 0⟩)
        (([⟨0, 0⟩, ⟨4, 0⟩, ⟨4, 4⟩] : List Point).getD 1 ⟨0, 0⟩) :=
  ⟨by decide,
    (snake_pass_single_buffer (relaxPoint nearestScale grid3) [⟨0, 0⟩, ⟨4, 0⟩, ⟨4, 4⟩]
      (by decide)).1,
    (snake_pass_single_buffer (relaxPoint nearestScale grid3) [⟨0, 0⟩, ⟨4, 0⟩, ⟨4, 4⟩]
      (by decide)).2.2.1⟩

/-! ## Binarization -/

/-- Counterexample for claim C16.  A pixel whose intensity equals the threshold (128) is
mapped to the background value 0 by the binarization of the flood fills, not to 255 as the
`>=` wording would give. -/
theorem threshold_equal_is_background :
    pixel128.px 0 0 = 128 ∧
    (thresholdBinary pixel128 128 255).px 0 0 = 0 ∧
    (binarizeAtLeast pixel128 128 255).px 0 0 = 255 := by
  refine ⟨by decide, by decide, by decide⟩

/-- Claim C16, amended.  The global binarization used by every flood-fill variant maps each
pixel whose intensity is strictly greater than the threshold to the foreground value 255 and
each pixel whose intensity is less than or equal to the threshold to the background value 0; in
particular a pixel whose intensity equals the threshold is background.  The result is a
binarized grid of the same size. -/
theorem threshold_strict (src : Mat) (thresh : Int) :
    (∀ y x : Int, (src.px y x : Int) > thresh → (thresholdBinary src thresh 255).px y x = 255) ∧
    (∀ y x : Int, (src.px y x : Int) ≤ thresh → (thresholdBinary src thresh 255).px y x = 0) ∧
    (∀ y x : Int, (src.px y x : Int) = thresh → (thresholdBinary src thresh 255).px y x = 0) ∧
    (thresholdBinary src thresh 255).rows = src.rows ∧
    (thresholdBinary src thresh 255).cols = src.cols ∧
    IsBinarized (thresholdBinary src thresh 255) := by
  have h1 : ∀ y x : Int, (src.px y x : Int) > thresh →
      (thresholdBinary src thresh 255).px y x = 255 := by
    intro y x h
    simp only [thresholdBinary, Mat.px] at h ⊢
    rw [if_pos h]
  have h2 : ∀ y x : Int, (src.px y x : Int) ≤ thresh →
      (thresholdBinary src thresh 255).px y x = 0 := by
    intro y x h
    simp only [thresholdBinary, Mat.px] at h ⊢
    rw [if_neg (not_lt.mpr h)]
  refine ⟨h1, h2, fun y x h => h2 y x (le_of_eq h), rfl, rfl, ?_⟩
  intro p _
  by_cases h : (src.px p.y p.x : Int) > thresh
  · right; exact h1 _ _ h
  · left; exact h2 _ _ (not_lt.mp h)

/-! ## Empty input and the entry guard -/

theorem not_empty_pos (m : Mat) (h : m.empty = false) : 0 < m.rows ∧ 0 < m.cols := by
  simp only [Mat.empty, Bool.or_eq_false_iff, beq_eq_false_iff_ne, ne_eq] at h
  omega

theorem floodFillVariant_run_some (v : FloodFillVariant) (binary : Mat)
    (hr : 0 < binary.rows) (hc : 0 < binary.cols) : ∃ out, v.run binary = some out := by
  cases v with
  | Backtracking =>
    obtain ⟨s, hs, _⟩ := backtrackingFill_spec binary hr hc
    exact ⟨s.segmented, by simp [FloodFillVariant.run, backtrackingSegmentation, hs]⟩
  | Backtracking8Dir =>
    obtain ⟨s, hs, _⟩ := eightDirFill_spec binary hr hc
    exact ⟨morphClose rectKernel3 s.segmented, by
      simp [FloodFillVariant.run, backtrackingSegmentation8DirClosed,
        backtrackingSegmentation8Dir, hs]⟩
  | BacktrackingImproved =>
    obtain ⟨s, hs, _⟩ := improvedFill_spec binary hr hc
    exact ⟨morphClose ellipseKernel5 s.segmented, by
      simp [FloodFillVariant.run, backtrackingSegmentationImprovedClosed,
        backtrackingSegmentationImproved, hs]⟩

theorem guardFails_of_empty (filename : Option String) (input : Mat)
    (h : input.rows = 0 ∨ input.cols = 0) : guardFails filename input = true := by
  have : input.empty = true := by
    simp only [Mat.empty, Bool.or_eq_true, beq_iff_eq]
    exact h
  simp [guardFails, this]

theorem guardFails_of_loaded (name : String) (input : Mat) (hr : 0 < input.rows)
    (hc : 0 < input.cols) : ¬ (guardFails (some name) input = true) := by
  have : input.empty = false := by
    simp only [Mat.empty, Bool.or_eq_false_iff, beq_eq_false_iff_ne, ne_eq]
    omega
  simp [guardFails, this]

/-- Counterexample for claim C17.  For the empty image with 0 rows and 3 columns no flood-fill
variant reports anything to its caller: it is the callers that test for the empty image,
before any variant is called.  The slider callbacks return without a word, and
`apply_algorithm` sets the status label to the text that it also sets when no file has been
selected and the image is not empty.  -/
theorem empty_image_stopped_by_callers :
    ((Mat.zeros 0 3).rows = 0 ∨ (Mat.zeros 0 3).cols = 0) ∧
    update_backtracking_segmentation (some "a.jpg") (Mat.zeros 0 3)
      = CallbackOutcome.returnedAtGuard none ∧
    update_backtracking_improved_segmentation (some "a.jpg") (Mat.zeros 0 3)
      = CallbackOutcome.returnedAtGuard none ∧
    apply_algorithm (some "a.jpg") (Mat.zeros 0 3) FloodFillVariant.Backtracking8Dir
      = CallbackOutcome.returnedAtGuard (some "Please select an image first") ∧
    (0 < grid3.rows ∧ 0 < grid3.cols) ∧
    apply_algorithm none grid3 FloodFillVariant.Backtracking8Dir
      = CallbackOutcome.returnedAtGuard (some "Please select an image first") :=
  ⟨Or.inl rfl, rfl, rfl, rfl, ⟨by decide, by decide⟩, rfl⟩

/-- Claim C17, amended.  No flood-fill variant tests for an empty image; the test is the guard
of the callers.  For an empty image (zero rows or zero columns) `apply_algorithm` sets the
status label to "Please select an image first" and returns, and the two slider callbacks
return silently, whatever the variant, the file name and the pixels: no variant is called, so
no seed is read and no fill is run.  On every non-empty image every variant returns a Label
Grid, and with a file selected each callback calls its variant and gets that grid. -/
theorem empty_input_guarded (filename : Option String) (input : Mat) (v : FloodFillVariant) :
    ((input.rows = 0 ∨ input.cols = 0) →
      ∀ (v' : FloodFillVariant) (data : Int → Int → Nat),
        apply_algorithm filename { input with data := data } v'
          = CallbackOutcome.returnedAtGuard (some "Please select an image first") ∧
        update_backtracking_segmentation filename { input with data := data }
          = CallbackOutcome.returnedAtGuard none ∧
        update_backtracking_improved_segmentation filename { input with data := data }
          = CallbackOutcome.returnedAtGuard none) ∧
    ((0 < input.rows ∧ 0 < input.cols) →
      (∃ out, v.run input = some out ∧
        ∀ name : String, apply_algorithm (some name) input v
          = CallbackOutcome.calledVariant (some out)) ∧
      (∃ out, ∀ name : String, update_backtracking_segmentation (some name) input
          = CallbackOutcome.calledVariant (some out)) ∧
      (∃ out, ∀ name : String, update_backtracking_improved_segmentation (some name) input
          = CallbackOutcome.calledVariant (some out))) := by
  constructor
  · intro h v' data
    have hg : guardFails filename { input with data := data } = true :=
      guardFails_of_empty filename _ h
    refine ⟨?_, ?_, ?_⟩
    · unfold apply_algorithm
      rw [if_pos hg]
    · unfold update_backtracking_segmentation
      rw [if_pos hg]
    · unfold update_backtracking_improved_segmentation
      rw [if_pos hg]
  · intro h
    refine ⟨?_, ?_, ?_⟩
    · obtain ⟨out, hout⟩ := floodFillVariant_run_some v input h.1 h.2
      refine ⟨out, hout, fun name => ?_⟩
      unfold apply_algorithm
      rw [if_neg (guardFails_of_loaded name input h.1 h.2), hout]
    · obtain ⟨out, hout⟩ :=
        floodFillVariant_run_some FloodFillVariant.Backtracking input h.1 h.2
      refine ⟨out, fun name => ?_⟩
      unfold update_backtracking_segmentation
      rw [if_neg (guardFails_of_loaded name input h.1 h.2), hout]
    · obtain ⟨out, hout⟩ :=
        floodFillVariant_run_some FloodFillVariant.BacktrackingImproved input h.1 h.2
      refine ⟨out, fun name => ?_⟩
      unfold update_backtracking_improved_segmentation
      rw [if_neg (guardFails_of_loaded name input h.1 h.2), hout]

/-- Witness for the amended C17: the empty image with 0 rows and 3 columns, and the non-empty
grid `grid3`. -/
theorem empty_input_guarded_witness :
    ((Mat.zeros 0 3).rows = 0 ∨ (Mat.zeros 0 3).cols = 0) ∧
    apply_algorithm (some "a.jpg") (Mat.zeros 0 3) FloodFillVariant.Backtracking
      = CallbackOutcome.returnedAtGuard (some "Please select an image first") ∧
    (0 < grid3.rows ∧ 0 < grid3.cols) ∧
    (∃ out, FloodFillVariant.Backtracking8Dir.run grid3 = some out ∧
      ∀ name : String, apply_algorithm (some name) grid3 FloodFillVariant.Backtracking8Dir
        = CallbackOutcome.calledVariant (some out)) :=
  ⟨Or.inl rfl,
    ((empty_input_guarded (some "a.jpg") (Mat.zeros 0 3) FloodFillVariant.Backtracking).1
      (Or.inl rfl) FloodFillVariant.Backtracking (Mat.zeros 0 3).data).1,
    ⟨by decide, by decide⟩,
    ((empty_input_guarded none grid3 FloodFillVariant.Backtracking8Dir).2
      ⟨by decide, by decide⟩).1⟩

/-! ## Seed of the region grower -/

theorem pixelAt_inGrid (m : Mat) (off : Int) (h : m.inBuffer off) :
    InGrid m.rows m.cols (m.pixelAt off) := by
  obtain ⟨h0, h1⟩ := h
  have hc : (0 : Int) < (m.cols : Int) := by
    by_contra hn
    have : (m.cols : Int) = 0 := by omega
    rw [this] at h1
    simp at h1
    omega
  refine ⟨Int.emod_nonneg _ (by omega), Int.ediv_nonneg h0 (by omega),
    Int.emod_lt_of_pos _ hc, ?_⟩
  show off / (m.cols : Int) < (m.rows : Int)
  exact Int.ediv_lt_of_lt_mul hc h1

theorem offset_inGrid (m : Mat) (p : Point) (h : InGrid m.rows m.cols p) :
    m.inBuffer (m.offset p.y p.x) ∧ m.pixelAt (m.offset p.y p.x) = p := by
  obtain ⟨h1, h2, h3, h4⟩ := h
  have hc : (0 : Int) < (m.cols : Int) := by omega
  refine ⟨⟨?_, ?_⟩, ?_⟩
  · unfold Mat.offset
    positivity
  · unfold Mat.offset
    have : (p.y + 1) * (m.cols : Int) ≤ (m.rows : Int) * (m.cols : Int) :=
      Int.mul_le_mul_of_nonneg_right (by omega) (by omega)
    nlinarith
  · unfold Mat.pixelAt Mat.offset
    apply Point.ext
    · show (p.y * (m.cols : Int) + p.x) % (m.cols : Int) = p.x
      rw [Int.add_comm, Int.add_mul_emod_self, Int.emod_eq_of_lt h1 h3]
    · show (p.y * (m.cols : Int) + p.x) / (m.cols : Int) = p.y
      rw [Int.add_comm, Int.add_mul_ediv_right _ _ (by omega), Int.ediv_eq_zero_of_lt h1 h3]
      omega

/-- For a seed in the grid the unchecked accesses are the accesses of the grid model. -/
theorem regionGrowingUnchecked_inGrid (gray : Mat) (seed : Point) (threshold : Int)
    (hseed : InGrid gray.rows gray.cols seed) :
    regionGrowingUnchecked gray seed threshold = regionGrowingSegmentation gray seed threshold := by
  obtain ⟨hb, ha⟩ := offset_inGrid gray seed hseed
  unfold regionGrowingUnchecked regionGrowingSegmentation regionGrowingFill
  rw [if_pos hb]
  simp only [ha]
  rfl

/-- Whenever the offset of the seed lies inside the buffer the loop returns, and the pixel
stored at that offset is foreground in the mask. -/
theorem regionGrowingUnchecked_returns (gray : Mat) (seed : Point) (threshold : Int)
    (hb : gray.inBuffer (gray.offset seed.y seed.x)) :
    ∃ out, regionGrowingUnchecked gray seed threshold = some out ∧
      out.px (gray.pixelAt (gray.offset seed.y seed.x)).y
        (gray.pixelAt (gray.offset seed.y seed.x)).x = 255 := by
  have hin := pixelAt_inGrid gray _ hb
  obtain ⟨h1, h2, h3, h4⟩ := hin
  have hpos : 0 < gray.rows * gray.cols := by
    have hr : 0 < gray.rows := by omega
    have hc : 0 < gray.cols := by omega
    positivity
  generalize ha : gray.pixelAt (gray.offset seed.y seed.x) = a at h1 h2 h3 h4
  have hun := unvisited_set (regionGrowingLoop gray a threshold)
    (Mat.zeros gray.rows gray.cols) a.x a.y h1 h2 h3 h4 rfl
  have hz := unvisited_zeros (regionGrowingLoop gray a threshold)
  have hz' : unvisited (regionGrowingLoop gray a threshold) (Mat.zeros gray.rows gray.cols)
      = gray.rows * gray.cols := hz
  have hmeas : bfsMeasure (regionGrowingLoop gray a threshold)
      (visitNeighbours (regionGrowingLoop gray a threshold) seed 0
        (regionGrowingLoop gray a threshold).dirs
        { q := [], visited := (Mat.zeros gray.rows gray.cols).set a.y a.x 1,
          segmented := (Mat.zeros gray.rows gray.cols).set a.y a.x 255,
          trace := [seed] }) < gray.rows * gray.cols := by
    rw [measure_visitNeighbours]
    simp only [bfsMeasure, List.length_nil]
    omega
  obtain ⟨s', hs'⟩ := bfsRun_terminates _ _ _ hmeas
  have hkeep := bfsRun_induct (regionGrowingLoop gray a threshold)
    (fun t => t.segmented.px a.y a.x = 255)
    (by
      intro t p rest ht _
      apply bfsStep_induct _ p rest t (fun u => u.segmented.px a.y a.x = 255)
      · intro _; exact ht
      · intro _
        show (t.segmented.set p.y p.x 255).px a.y a.x = 255
        rw [Mat.px_set]
        split
        · rfl
        · exact ht
      · intro u k d _ hu _ _ _ _; exact hu) _ _ s'
    (by
      apply visitNeighbours_induct _ seed (fun u => u.segmented.px a.y a.x = 255)
        (fun u k d hu _ _ _ _ => hu) _ 0 _ (fun k d hk => by simpa using hk)
      show ((Mat.zeros gray.rows gray.cols).set a.y a.x 255).px a.y a.x = 255
      rw [Mat.px_set, if_pos ⟨rfl, rfl⟩]) hs'
  refine ⟨s'.segmented, ?_, hkeep.1⟩
  unfold regionGrowingUnchecked
  rw [if_pos hb]
  simp only [ha, hs', Option.map_some']

/-- Counterexample for claim C18.  On the 2 x 4 image `grayTwoRows` the seed `(5, 0)` lies
outside the grid.  The seeded region grower raises no error: its accesses at the seed touch
buffer offset 5, the place of the pixel `(1, 1)`, and it returns a mask in which `(1, 1)` is
foreground. -/
theorem regionGrowing_unchecked_seed :
    ¬ InGrid grayTwoRows.rows grayTwoRows.cols ⟨5, 0⟩ ∧
    grayTwoRows.pixelAt (grayTwoRows.offset 0 5) = ⟨1, 1⟩ ∧
    (regionGrowingUnchecked grayTwoRows ⟨5, 0⟩ 10).isSome = true ∧
    (regionGrowingUnchecked grayTwoRows ⟨5, 0⟩ 10).map (fun out => out.px 1 1) = some 255 := by
  refine ⟨by decide, by decide, by decide, by decide⟩

/-- Claim C18, amended.  The seeded region grower checks no bounds and has no error result.
For every seed in the grid it returns a mask, in which the seed is foreground, and the seed
that the only caller passes, `(cols / 2, rows / 2)`, is in the grid of every non-empty image.
A seed outside the grid is not rejected: whenever its buffer offset `y * cols + x` lies inside
the pixel buffer, the function returns a mask, in which the pixel stored at that offset is
foreground. -/
theorem regionGrowing_succeeds_in_bounds (gray : Mat) (seed : Point) (threshold : Int) :
    (InGrid gray.rows gray.cols seed →
      ∃ out, regionGrowingUnchecked gray seed threshold = some out ∧
        regionGrowingSegmentation gray seed threshold = some out ∧
        out.px seed.y seed.x = 255) ∧
    (0 < gray.rows → 0 < gray.cols → InGrid gray.rows gray.cols (centreSeed gray)) ∧
    (gray.inBuffer (gray.offset seed.y seed.x) →
      ∃ out, regionGrowingUnchecked gray seed threshold = some out ∧
        out.px (gray.pixelAt (gray.offset seed.y seed.x)).y
          (gray.pixelAt (gray.offset seed.y seed.x)).x = 255) := by
  refine ⟨?_, ?_, ?_⟩
  · intro hseed
    obtain ⟨s, hs, _, h1, _⟩ := regionGrowingFill_spec gray seed threshold hseed
    have hseg : regionGrowingSegmentation gray seed threshold = some s.segmented := by
      simp [regionGrowingSegmentation, hs]
    refine ⟨s.segmented, ?_, hseg, h1 seed Grown4.start⟩
    rw [regionGrowingUnchecked_inGrid gray seed threshold hseed, hseg]
  · intro hr hc
    exact centreSeed_inGrid gray hr hc
  · intro hb
    exact regionGrowingUnchecked_returns gray seed threshold hb

/-- Witness for the amended C18: the row `grayRow` with the seed `(2, 0)`, and the image
`grayTwoRows` with the seed `(5, 0)`. -/
theorem regionGrowing_succeeds_in_bounds_witness :
    InGrid grayRow.rows grayRow.cols ⟨2, 0⟩ ∧
    (∃ out, regionGrowingUnchecked grayRow ⟨2, 0⟩ 10 = some out ∧
      regionGrowingSegmentation grayRow ⟨2, 0⟩ 10 = some out ∧
      out.px (0 : Int) (2 : Int) = 255) ∧
    (0 < grayRow.rows ∧ 0 < grayRow.cols ∧ InGrid grayRow.rows grayRow.cols (centreSeed grayRow)) ∧
    grayTwoRows.inBuffer (grayTwoRows.offset 0 5) ∧
    (∃ out, regionGrowingUnchecked grayTwoRows ⟨5, 0⟩ 10 = some out ∧
      out.px (grayTwoRows.pixelAt (grayTwoRows.offset 0 5)).y
        (grayTwoRows.pixelAt (grayTwoRows.offset 0 5)).x = 255) :=
  ⟨by decide,
    (regionGrowing_succeeds_in_bounds grayRow ⟨2, 0⟩ 10).1 (by decide),
    ⟨by decide, by decide,
      (regionGrowing_succeeds_in_bounds grayRow ⟨2, 0⟩ 10).2.1 (by decide) (by decide)⟩,
    by decide,
    (regionGrowing_succeeds_in_bounds grayTwoRows ⟨5, 0⟩ 10).2.2 (by decide)⟩

/-! ## Independence of the neighbour order -/

theorem Mat.eq_of_px (a b : Mat) (hr : a.rows = b.rows) (hc : a.cols = b.cols)
    (h : ∀ y x : Int, a.px y x = b.px y x) : a = b := by
  cases a with
  | mk ar ac ad =>
    cases b with
    | mk br bc bd =>
      simp only at hr hc
      subst hr; subst hc
      have : ad = bd := by
        funext y x
        exact h y x
      rw [this]

/-- The loop keeps the size of the output grid. -/
theorem bfsRun_segmented_size (L : BfsLoop) (fuel : Nat) (s s' : BfsState)
    (h : bfsRun L fuel s = some s') :
    s'.segmented.rows = s.segmented.rows ∧ s'.segmented.cols = s.segmented.cols := by
  have := bfsRun_induct L
    (fun t => t.segmented.rows = s.segmented.rows ∧ t.segmented.cols = s.segmented.cols)
    (by
      intro t p rest ht _
      apply bfsStep_induct L p rest t
        (fun u => u.segmented.rows = s.segmented.rows ∧ u.segmented.cols = s.segmented.cols)
      · intro _; exact ht
      · intro _; exact ht
      · intro u k d _ hu _ _ _ _; exact hu) fuel s s' ⟨rfl, rfl⟩ h
  exact this.1

theorem permutedLoop_accept (binary : Mat) (dirs : List (Int × Int)) (p : Point) :
    (permutedLoop binary dirs).accept p = true ↔ Matches binary p := by
  simp [permutedLoop, Matches]

/-- Two 4-directional flood-fill loops over the same binarized grid end with the same output
grid. -/
theorem flood4_same_output (binary : Mat) (L1 L2 : BfsLoop)
    (hr : 0 < binary.rows) (hc : 0 < binary.cols)
    (h1 : L1.rows = binary.rows ∧ L1.cols = binary.cols ∧
      (∀ p, L1.accept p = true ↔ Matches binary p) ∧ L1.newColor = 128 ∧
      (∀ v p k n, L1.gate v p k n = true) ∧ FourDirs L1)
    (h2 : L2.rows = binary.rows ∧ L2.cols = binary.cols ∧
      (∀ p, L2.accept p = true ↔ Matches binary p) ∧ L2.newColor = 128 ∧
      (∀ v p k n, L2.gate v p k n = true) ∧ FourDirs L2) :
    ∃ out,
      (bfsRun L1 (binary.rows * binary.cols + 1) (seedState L1 (centreSeed binary) binary)).map
        (fun s => s.segmented) = some out ∧
      (bfsRun L2 (binary.rows * binary.cols + 1) (seedState L2 (centreSeed binary) binary)).map
        (fun s => s.segmented) = some out := by
  obtain ⟨s1, hs1, _, a1, b1⟩ := flood4_spec binary L1 h1.1 h1.2.1 h1.2.2.1 h1.2.2.2.1
    h1.2.2.2.2.1 h1.2.2.2.2.2 hr hc
  obtain ⟨s2, hs2, _, a2, b2⟩ := flood4_spec binary L2 h2.1 h2.2.1 h2.2.2.1 h2.2.2.2.1
    h2.2.2.2.2.1 h2.2.2.2.2.2 hr hc
  have z1 := bfsRun_segmented_size L1 _ _ _ hs1
  have z2 := bfsRun_segmented_size L2 _ _ _ hs2
  have heq : s2.segmented = s1.segmented := by
    apply Mat.eq_of_px
    · rw [z1.1, z2.1]; rfl
    · rw [z1.2, z2.2]; rfl
    · intro y x
      by_cases hcomp : SeedComponent4 binary ⟨x, y⟩
      · rw [a1 ⟨x, y⟩ hcomp, a2 ⟨x, y⟩ hcomp]
      · rw [b1 ⟨x, y⟩ hcomp, b2 ⟨x, y⟩ hcomp]
  exact ⟨s1.segmented, by rw [hs1]; rfl, by rw [hs2]; simp only [Option.map_some']; rw [heq]⟩

/-- Claim C19.  On every non-empty binarized grid the loop of the basic variant (offsets
`dx = {0, 0, 1, -1}`, `dy = {1, -1, 0, 0}`) and the loop of the improved variant
(`dx = {1, -1, 0, 0}`, `dy = {0, 0, 1, -1}`) produce the same Label Grid, and so does the loop
run with the four offsets in any other order. -/
theorem flood4_order_independent (binary : Mat) (hr : 0 < binary.rows) (hc : 0 < binary.cols)
    (dirs : List (Int × Int)) (hperm : dirs.Perm [(0, 1), (0, -1), (1, 0), (-1, 0)]) :
    ∃ out, backtrackingSegmentation binary = some out ∧
      backtrackingSegmentationImproved binary = some out ∧
      permutedSegmentation binary dirs = some out := by
  have hb : (backtrackingLoop binary).rows = binary.rows ∧
      (backtrackingLoop binary).cols = binary.cols ∧
      (∀ p, (backtrackingLoop binary).accept p = true ↔ Matches binary p) ∧
      (backtrackingLoop binary).newColor = 128 ∧
      (∀ v p k n, (backtrackingLoop binary).gate v p k n = true) ∧
      FourDirs (backtrackingLoop binary) :=
    ⟨rfl, rfl, backtrackingLoop_accept binary, rfl, fun _ _ _ _ => rfl,
      fourDirs_of_perm _ (List.Perm.refl _)⟩
  have hi : (improvedLoop binary).rows = binary.rows ∧
      (improvedLoop binary).cols = binary.cols ∧
      (∀ p, (improvedLoop binary).accept p = true ↔ Matches binary p) ∧
      (improvedLoop binary).newColor = 128 ∧
      (∀ v p k n, (improvedLoop binary).gate v p k n = true) ∧
      FourDirs (improvedLoop binary) :=
    ⟨rfl, rfl, improvedLoop_accept binary, rfl, fun _ _ _ _ => rfl,
      fourDirs_of_perm _ (by simp only [improvedLoop]; decide)⟩
  have hp : (permutedLoop binary dirs).rows = binary.rows ∧
      (permutedLoop binary dirs).cols = binary.cols ∧
      (∀ p, (permutedLoop binary dirs).accept p = true ↔ Matches binary p) ∧
      (permutedLoop binary dirs).newColor = 128 ∧
      (∀ v p k n, (permutedLoop binary dirs).gate v p k n = true) ∧
      FourDirs (permutedLoop binary dirs) :=
    ⟨rfl, rfl, permutedLoop_accept binary dirs, rfl, fun _ _ _ _ => rfl,
      fourDirs_of_perm _ hperm⟩
  obtain ⟨out, h1, h2⟩ := flood4_same_output binary _ _ hr hc hb hi
  obtain ⟨out', h3, h4⟩ := flood4_same_output binary _ _ hr hc hb hp
  have e : out' = out := by
    rw [h1] at h3
    exact (Option.some.inj h3).symm
  rw [e] at h4
  exact ⟨out, h1, h2, h4⟩

/-- Witness for C19: the grid `grid3` and the offsets in the order west, south, east, north. -/
theorem flood4_order_independent_witness :
    0 < grid3.rows ∧ 0 < grid3.cols ∧
    List.Perm [((-1 : Int), (0 : Int)), (0, 1), (1, 0), (0, -1)]
      [(0, 1), (0, -1), (1, 0), (-1, 0)] ∧
    ∃ out, backtrackingSegmentation grid3 = some out ∧
      backtrackingSegmentationImproved grid3 = some out ∧
      permutedSegmentation grid3 [(-1, 0), (0, 1), (1, 0), (0, -1)] = some out :=
  ⟨by decide, by decide, by decide,
    flood4_order_independent grid3 (by decide) (by decide)
      [(-1, 0), (0, 1), (1, 0), (0, -1)] (by decide)⟩

/-! ## The closing step after the fill -/

theorem foldl_max_mem (l : List Nat) : ∀ a : Nat, l.foldl max a = a ∨ l.foldl max a ∈ l := by
  induction l with
  | nil => intro a; left; rfl
  | cons b l ih =>
    intro a
    simp only [List.foldl_cons, List.mem_cons]
    rcases ih (max a b) with h | h
    · rw [h]
      rcases max_choice a b with h2 | h2
      · left; exact h2
      · right; left; exact h2
    · right; right; exact h

theorem foldl_min_mem (l : List Nat) : ∀ a : Nat, l.foldl min a = a ∨ l.foldl min a ∈ l := by
  induction l with
  | nil => intro a; left; rfl
  | cons b l ih =>
    intro a
    simp only [List.foldl_cons, List.mem_cons]
    rcases ih (min a b) with h | h
    · rw [h]
      rcases min_choice a b with h2 | h2
      · left; exact h2
      · right; left; exact h2
    · right; right; exact h

theorem mem_windowValues (kernel : List (Int × Int)) (m : Mat) (y x : Int) (v : Nat)
    (h : v ∈ windowValues kernel m y x) :
    ∃ d ∈ kernel, m.has (y + d.2) (x + d.1) = true ∧ v = m.px (y + d.2) (x + d.1) := by
  unfold windowValues at h
  simp only [List.mem_map, List.mem_filter] at h
  obtain ⟨d, ⟨hd, hhas⟩, hv⟩ := h
  exact ⟨d, hd, hhas, hv.symm⟩

theorem has_iff (m : Mat) (y x : Int) :
    m.has y x = true ↔ InGrid m.rows m.cols ⟨x, y⟩ := by
  simp [Mat.has, InGrid, and_assoc]

/-- The value of a dilation or an erosion at an in-grid pixel is the value of the source at an
in-grid pixel of the window. -/
theorem window_origin (kernel : List (Int × Int)) (r : Int)
    (hk : ∀ d ∈ kernel, |d.1| ≤ r ∧ |d.2| ≤ r) (hr0 : 0 ≤ r) (m : Mat) (p : Point)
    (hp : InGrid m.rows m.cols p) :
    (∃ q : Point, InGrid m.rows m.cols q ∧ |q.x - p.x| ≤ r ∧ |q.y - p.y| ≤ r ∧
      (dilate kernel m).px p.y p.x = m.px q.y q.x) ∧
    (∃ q : Point, InGrid m.rows m.cols q ∧ |q.x - p.x| ≤ r ∧ |q.y - p.y| ≤ r ∧
      (erode kernel m).px p.y p.x = m.px q.y q.x) := by
  have key : ∀ v : Nat, (v = m.px p.y p.x ∨ v ∈ windowValues kernel m p.y p.x) →
      ∃ q : Point, InGrid m.rows m.cols q ∧ |q.x - p.x| ≤ r ∧ |q.y - p.y| ≤ r ∧
        v = m.px q.y q.x := by
    intro v hv
    rcases hv with hv | hv
    · exact ⟨p, hp, by simpa using hr0, by simpa using hr0, hv⟩
    · obtain ⟨d, hd, hhas, hv⟩ := mem_windowValues kernel m p.y p.x v hv
      refine ⟨⟨p.x + d.1, p.y + d.2⟩, (has_iff m _ _).1 hhas, ?_, ?_, hv⟩
      · simpa using (hk d hd).1
      · simpa using (hk d hd).2
  exact ⟨key _ (foldl_max_mem _ _), key _ (foldl_min_mem _ _)⟩

/-- The value of a closing at an in-grid pixel is the value of the source at an in-grid pixel
at most two kernel radii away in each coordinate. -/
theorem morphClose_origin (kernel : List (Int × Int)) (r : Int)
    (hk : ∀ d ∈ kernel, |d.1| ≤ r ∧ |d.2| ≤ r) (hr0 : 0 ≤ r) (m : Mat) (p : Point)
    (hp : InGrid m.rows m.cols p) :
    ∃ q : Point, InGrid m.rows m.cols q ∧ |q.x - p.x| ≤ 2 * r ∧ |q.y - p.y| ≤ 2 * r ∧
      (morphClose kernel m).px p.y p.x = m.px q.y q.x := by
  obtain ⟨q1, hq1, hx1, hy1, e1⟩ := (window_origin kernel r hk hr0 (dilate kernel m) p hp).2
  obtain ⟨q2, hq2, hx2, hy2, e2⟩ := (window_origin kernel r hk hr0 m q1 hq1).1
  refine ⟨q2, hq2, ?_, ?_, ?_⟩
  · rw [abs_le] at hx1 hx2 ⊢
    constructor <;> omega
  · rw [abs_le] at hy1 hy2 ⊢
    constructor <;> omega
  · unfold morphClose
    rw [e1, e2]

theorem eightDir_adj8 (binary : Mat) (a b : Point) (k : Nat) (d : Int × Int)
    (hk : (eightDirLoop binary).dirs.get? k = some d) (hb : b = a.shift d) : Adj8 a b := by
  have hd : d ∈ (eightDirLoop binary).dirs := List.get?_mem hk
  simp only [eightDirLoop, List.mem_cons, List.mem_singleton, List.not_mem_nil, or_false] at hd
  subst hb
  unfold Adj8 Point.shift
  rcases hd with hd | hd | hd | hd | hd | hd | hd | hd <;> subst hd <;>
    simp [Point.ext_iff]

/-- Soundness of the 8-directional fill before closing: on a non-empty binarized grid a pixel
of the grid carrying 128 belongs to the 8-connected component of the seed among the pixels
with its value, and every other pixel holds its binarized value. -/
theorem eightDirFill_sound (binary : Mat) (hr : 0 < binary.rows) (hc : 0 < binary.cols)
    (hbin : IsBinarized binary) :
    ∃ s, eightDirFill binary = some s ∧
      s.segmented.rows = binary.rows ∧ s.segmented.cols = binary.cols ∧
      (∀ p : Point, InGrid binary.rows binary.cols p → s.segmented.px p.y p.x = 128 →
        SeedComponent8 binary p) ∧
      (∀ p : Point, s.segmented.px p.y p.x ≠ 128 →
        s.segmented.px p.y p.x = binary.px p.y p.x) := by
  have hseed : (eightDirLoop binary).inside (centreSeed binary) := centreSeed_inGrid binary hr hc
  obtain ⟨s, hs, _, hseg, hsound, _⟩ := seeded_run (eightDirLoop binary) (centreSeed binary)
    binary hseed (fun _ _ _ => True) (fun _ k _ => k < 4) (fun _ _ _ _ _ => trivial)
    (by
      intro v p k n hk
      have : ¬ k ≥ 4 := by omega
      simp [eightDirLoop, isValid8, this])
  have hsz := bfsRun_segmented_size _ _ _ _ hs
  refine ⟨s, hs, hsz.1, hsz.2, ?_, ?_⟩
  · intro p hp h128
    have hmark : p ∈ s.trace ∧ (eightDirLoop binary).accept p = true := by
      by_contra hc2
      rw [hseg p, if_neg hc2] at h128
      exact binarized_ne_128 binary hbin p hp h128
    have hreach := hsound p hmark.1
    have hm : Matches binary p := (eightDirLoop_accept binary p).1 hmark.2
    clear hmark h128 hp
    unfold SeedComponent8
    induction hreach with
    | start => exact Joined8.start hseed hm
    | step _ ha hk hin _ ih =>
      exact Joined8.step (ih ((eightDirLoop_accept binary _).1 ha))
        (eightDir_adj8 binary _ _ _ _ hk rfl) hin hm
  · intro p hne
    rw [hseg p] at hne ⊢
    split
    · rename_i hc2
      rw [if_pos hc2] at hne
      exact absurd rfl hne
    · rfl

theorem rectKernel3_radius : ∀ d ∈ rectKernel3, |d.1| ≤ (1 : Int) ∧ |d.2| ≤ (1 : Int) := by
  decide

theorem ellipseKernel5_radius : ∀ d ∈ ellipseKernel5, |d.1| ≤ (2 : Int) ∧ |d.2| ≤ (2 : Int) := by
  decide

theorem holeGrid_binarized : IsBinarized holeGrid := by
  intro p hp
  obtain ⟨h1, h2, h3, h4⟩ := hp
  have h3 : p.x < 4 := h3
  have h4 : p.y < 3 := h4
  obtain ⟨x, y⟩ := p
  simp only at h1 h2 h3 h4 ⊢
  interval_cases x <;> interval_cases y <;> decide

/-- Counterexample for claim C20.  On the 3 x 4 binarized grid `holeGrid` the pixel `(1, 1)`
is background while the seed `(2, 1)` is foreground, so it does not carry the match value; both
fills leave it unmarked, yet after the closing step it carries the marker 128 in the grid
returned by the 8-directional variant and in the grid returned by the improved variant. -/
theorem closing_marks_unmatched_pixel :
    IsBinarized holeGrid ∧ centreSeed holeGrid = ⟨2, 1⟩ ∧ ¬ Matches holeGrid ⟨1, 1⟩ ∧
    (backtrackingSegmentation8Dir holeGrid).map (fun m => m.px 1 1) = some 0 ∧
    (backtrackingSegmentationImproved holeGrid).map (fun m => m.px 1 1) = some 0 ∧
    (backtrackingSegmentation8DirClosed holeGrid).map (fun m => m.px 1 1) = some 128 ∧
    (backtrackingSegmentationImprovedClosed holeGrid).map (fun m => m.px 1 1) = some 128 := by
  refine ⟨holeGrid_binarized, by decide, by decide, by decide, by decide, by decide, by decide⟩

/-- Claim C20, amended.  For every non-empty binarized grid, connectivity-soundness holds for
the Label Grid of the two variants before their closing step: every pixel carrying 128 has the
match value and is reachable from the centre seed through match-valued pixels (8-adjacent for
`backtrackingSegmentation8Dir`, 4-adjacent for `backtrackingSegmentationImproved`) and every
other pixel holds its binarized value.  In the grid returned after closing, every pixel carrying
128 lies within 2 pixels per coordinate (3 x 3 rectangle) or 4 pixels per coordinate (5 x 5
ellipse) of such a reachable match-valued pixel; it need not have the match value itself. -/
theorem closing_soundness_nearby (binary : Mat) (hr : 0 < binary.rows) (hc : 0 < binary.cols)
    (hbin : IsBinarized binary) :
    (∃ pre out, backtrackingSegmentation8Dir binary = some pre ∧
      backtrackingSegmentation8DirClosed binary = some out ∧
      (∀ p : Point, InGrid binary.rows binary.cols p → pre.px p.y p.x = 128 →
        SeedComponent8 binary p) ∧
      (∀ p : Point, pre.px p.y p.x ≠ 128 → pre.px p.y p.x = binary.px p.y p.x) ∧
      (∀ p : Point, InGrid binary.rows binary.cols p → out.px p.y p.x = 128 →
        ∃ q : Point, SeedComponent8 binary q ∧ |q.x - p.x| ≤ 2 ∧ |q.y - p.y| ≤ 2)) ∧
    (∃ pre out, backtrackingSegmentationImproved binary = some pre ∧
      backtrackingSegmentationImprovedClosed binary = some out ∧
      (∀ p : Point, InGrid binary.rows binary.cols p → pre.px p.y p.x = 128 →
        SeedComponent4 binary p) ∧
      (∀ p : Point, pre.px p.y p.x ≠ 128 → pre.px p.y p.x = binary.px p.y p.x) ∧
      (∀ p : Point, InGrid binary.rows binary.cols p → out.px p.y p.x = 128 →
        ∃ q : Point, SeedComponent4 binary q ∧ |q.x - p.x| ≤ 4 ∧ |q.y - p.y| ≤ 4)) := by
  constructor
  · obtain ⟨s, hs, hrows, hcols, h1, h2⟩ := eightDirFill_sound binary hr hc hbin
    have hpre : backtrackingSegmentation8Dir binary = some s.segmented := by
      simp [backtrackingSegmentation8Dir, hs]
    refine ⟨s.segmented, morphClose rectKernel3 s.segmented, hpre,
      by simp [backtrackingSegmentation8DirClosed, hpre], h1, h2, ?_⟩
    intro p hp h128
    have hp' : InGrid s.segmented.rows s.segmented.cols p := by rw [hrows, hcols]; exact hp
    obtain ⟨q, hq, hx, hy, e⟩ :=
      morphClose_origin rectKernel3 1 rectKernel3_radius (by decide) s.segmented p hp'
    rw [hrows, hcols] at hq
    rw [e] at h128
    exact ⟨q, h1 q hq h128, by simpa using hx, by simpa using hy⟩
  · obtain ⟨s, hs, _, h1, h2⟩ := improvedFill_spec binary hr hc
    have hsz := bfsRun_segmented_size _ _ _ _ hs
    have hrows : s.segmented.rows = binary.rows := hsz.1
    have hcols : s.segmented.cols = binary.cols := hsz.2
    have hpre : backtrackingSegmentationImproved binary = some s.segmented := by
      simp [backtrackingSegmentationImproved, hs]
    have hmark : ∀ p : Point, InGrid binary.rows binary.cols p → s.segmented.px p.y p.x = 128 →
        SeedComponent4 binary p := by
      intro p hp h128
      by_contra hn
      rw [h2 p hn] at h128
      exact binarized_ne_128 binary hbin p hp h128
    refine ⟨s.segmented, morphClose ellipseKernel5 s.segmented, hpre,
      by simp [backtrackingSegmentationImprovedClosed, hpre], hmark, ?_, ?_⟩
    · intro p hne
      apply h2
      intro hcomp
      exact hne (h1 p hcomp)
    · intro p hp h128
      have hp' : InGrid s.segmented.rows s.segmented.cols p := by rw [hrows, hcols]; exact hp
      obtain ⟨q, hq, hx, hy, e⟩ :=
        morphClose_origin ellipseKernel5 2 ellipseKernel5_radius (by decide) s.segmented p hp'
      rw [hrows, hcols] at hq
      rw [e] at h128
      exact ⟨q, hmark q hq h128, by simpa using hx, by simpa using hy⟩

/-- Witness for the amended C20 on the grid `holeGrid`. -/
theorem closing_soundness_nearby_witness :
    0 < holeGrid.rows ∧ 0 < holeGrid.cols ∧ IsBinarized holeGrid ∧
    ∃ pre out, backtrackingSegmentation8Dir holeGrid = some pre ∧
      backtrackingSegmentation8DirClosed holeGrid = some out ∧
      (∀ p : Point, InGrid holeGrid.rows holeGrid.cols p → pre.px p.y p.x = 128 →
        SeedComponent8 holeGrid p) ∧
      (∀ p : Point, pre.px p.y p.x ≠ 128 → pre.px p.y p.x = holeGrid.px p.y p.x) ∧
      (∀ p : Point, InGrid holeGrid.rows holeGrid.cols p → out.px p.y p.x = 128 →
        ∃ q : Point, SeedComponent8 holeGrid q ∧ |q.x - p.x| ≤ 2 ∧ |q.y - p.y| ≤ 2) :=
  ⟨by decide, by decide, holeGrid_binarized,
    (closing_soundness_nearby holeGrid (by decide) (by decide) holeGrid_binarized).1⟩

/-! ## Monotonicity of the region grower in its tolerance -/

theorem grown4_mono (rows cols : Nat) (ok ok' : Point → Prop) (seed : Point)
    (h : ∀ p, ok p → ok' p) (p : Point) (hp : Grown4 rows cols ok seed p) :
    Grown4 rows cols ok' seed p := by
  induction hp with
  | start => exact Grown4.start
  | step _ hadj hin hok ih => exact Grown4.step ih hadj hin (h _ hok)

/-- Claim C24.  The seeded region grower is monotone in its tolerance: for every grid, every
in-bounds seed and all tolerances `t1 <= t2`, both runs return a mask and every pixel that is
foreground (255) in the result for `t1` is foreground in the result for `t2`. -/
theorem regionGrowing_monotone (gray : Mat) (seed : Point) (t1 t2 : Int)
    (hseed : InGrid gray.rows gray.cols seed) (ht : t1 ≤ t2) :
    ∃ out1 out2, regionGrowingSegmentation gray seed t1 = some out1 ∧
      regionGrowingSegmentation gray seed t2 = some out2 ∧
      ∀ p : Point, out1.px p.y p.x = 255 → out2.px p.y p.x = 255 := by
  obtain ⟨s1, hs1, _, a1, b1⟩ := regionGrowingFill_spec gray seed t1 hseed
  obtain ⟨s2, hs2, _, a2, _⟩ := regionGrowingFill_spec gray seed t2 hseed
  refine ⟨s1.segmented, s2.segmented, by simp [regionGrowingSegmentation, hs1],
    by simp [regionGrowingSegmentation, hs2], ?_⟩
  intro p hp
  apply a2
  by_contra hn
  have hn1 : ¬ Grown4 gray.rows gray.cols (Within gray seed t1) seed p := by
    intro hg
    exact hn (grown4_mono _ _ _ _ seed (fun q hq => lt_of_lt_of_le hq ht) p hg)
  rw [b1 p hn1] at hp
  exact absurd hp (by decide)

/-- Witness for C24: the row `grayRow`, seed `(0, 0)`, tolerances 5 and 10. -/
theorem regionGrowing_monotone_witness :
    InGrid grayRow.rows grayRow.cols ⟨0, 0⟩ ∧ (5 : Int) ≤ 10 ∧
    ∃ out1 out2, regionGrowingSegmentation grayRow ⟨0, 0⟩ 5 = some out1 ∧
      regionGrowingSegmentation grayRow ⟨0, 0⟩ 10 = some out2 ∧
      ∀ p : Point, out1.px p.y p.x = 255 → out2.px p.y p.x = 255 :=
  ⟨by decide, by decide, regionGrowing_monotone grayRow ⟨0, 0⟩ 5 10 (by decide) (by decide)⟩

/-! ## Seeds are valid indices -/

theorem seed_coord_bound (n g k : Nat) (hn : 1 ≤ n) (hk : k ≤ g) :
    0 ≤ ((n : Int) * (k : Int)) / ((g : Int) + 1) ∧
    ((n : Int) * (k : Int)) / ((g : Int) + 1) < (n : Int) := by
  have hg : (0 : Int) < (g : Int) + 1 := by omega
  have hk' : (k : Int) ≤ (g : Int) := by exact_mod_cast hk
  have hn' : (1 : Int) ≤ (n : Int) := by exact_mod_cast hn
  constructor
  · apply Int.ediv_nonneg
    · positivity
    · omega
  · rw [Int.ediv_lt_iff_lt_mul hg]
    nlinarith

/-! ## Seeds and the 32-bit products -/

theorem wrapInt32_of_range (v : Int) (h0 : -2147483648 ≤ v) (h1 : v < 2147483648) :
    wrapInt32 v = v := by
  unfold wrapInt32
  omega

/-- While `cols * gridSize` and `rows * gridSize` are below `2 ^ 31` the 32-bit seed list is
the seed list computed with unbounded integers. -/
theorem seedGridInt32_eq (cols rows g : Nat) (hc : cols * g < 2147483648)
    (hr : rows * g < 2147483648) (hg : g < 2147483647) :
    seedGridInt32 cols rows g = seedGrid cols rows g := by
  unfold seedGridInt32 seedGrid
  apply List.flatMap_congr
  intro i hi
  apply List.map_congr_left
  intro j hj
  simp only [List.mem_range'_1] at hi hj
  have hci : cols * i ≤ cols * g := Nat.mul_le_mul_left _ (by omega)
  have hrj : rows * j ≤ rows * g := Nat.mul_le_mul_left _ (by omega)
  have hci' : ((cols : Int) * (i : Int)) < 2147483648 := by
    have : ((cols * i : Nat) : Int) < 2147483648 := by exact_mod_cast (by omega : cols * i < 2147483648)
    simpa using this
  have hrj' : ((rows : Int) * (j : Int)) < 2147483648 := by
    have : ((rows * j : Nat) : Int) < 2147483648 := by exact_mod_cast (by omega : rows * j < 2147483648)
    simpa using this
  have hci0 : (0 : Int) ≤ (cols : Int) * (i : Int) := by positivity
  have hrj0 : (0 : Int) ≤ (rows : Int) * (j : Int) := by positivity
  rw [wrapInt32_of_range _ (by omega) hci', wrapInt32_of_range _ (by omega) hrj',
    wrapInt32_of_range ((g : Int) + 1) (by omega) (by omega)]
  rw [Int.tdiv_eq_ediv hci0 (by omega), Int.tdiv_eq_ediv hrj0 (by omega)]

/-- Without overflow of the products every seed of the 32-bit seed list lies in the grid. -/
theorem seedGridInt32_inGrid (cols rows g : Nat) (hc : 1 ≤ cols) (hr : 1 ≤ rows)
    (hcg : cols * g < 2147483648) (hrg : rows * g < 2147483648) (hg : g < 2147483647) :
    ∀ p ∈ seedGridInt32 cols rows g, InGrid rows cols p := by
  rw [seedGridInt32_eq cols rows g hcg hrg hg]
  intro p hp
  obtain ⟨i, j, _, hi2, _, hj2, rfl⟩ := (mem_seedGrid cols rows g p).1 hp
  exact ⟨(seed_coord_bound cols g i hc hi2).1, (seed_coord_bound rows g j hr hj2).1,
    (seed_coord_bound cols g i hc hi2).2, (seed_coord_bound rows g j hr hj2).2⟩

/-- In exact rational arithmetic, for every contour area `A >= 0` and every image of
`rows x cols >= 1` pixels (image area `M = rows * cols`), the integer percentage
`trunc(min(A / M * 400, 100))` equals `floor(100 * c)` for the confidence
`c = min(A / M * 4, 1)`, and lies in `0..100`. -/
theorem confidencePercent_exact (A : ℚ) (rows cols : Nat) (hA : 0 ≤ A) (hr : 1 ≤ rows)
    (hc : 1 ≤ cols) :
    confidencePercent A rows cols
      = truncToInt (min (A / (((rows * cols : Nat) : ℚ)) * 400) 100) ∧
    confidencePercent A rows cols = ⌊100 * confidence A rows cols⌋ ∧
    0 ≤ confidencePercent A rows cols ∧ confidencePercent A rows cols ≤ 100 := by
  have hrq : (1 : ℚ) ≤ (rows : ℚ) := by exact_mod_cast hr
  have hcq : (1 : ℚ) ≤ (cols : ℚ) := by exact_mod_cast hc
  have hM : (0 : ℚ) < ((rows * cols : Nat) : ℚ) := by
    push_cast; positivity
  have hnn : 0 ≤ A / ((rows * cols : Nat) : ℚ) * 4 := by positivity
  have hscale : min (A / ((rows * cols : Nat) : ℚ) * 400) 100
      = 100 * min (A / ((rows * cols : Nat) : ℚ) * 4) 1 := by
    rw [mul_min_of_nonneg _ _ (by norm_num : (0 : ℚ) ≤ 100)]
    congr 1
    · ring
    · norm_num
  have hpos : 0 ≤ 100 * min (A / ((rows * cols : Nat) : ℚ) * 4) 1 :=
    mul_nonneg (by norm_num) (le_min hnn zero_le_one)
  have hle : 100 * min (A / ((rows * cols : Nat) : ℚ) * 4) 1 ≤ 100 := by
    have := min_le_right (A / ((rows * cols : Nat) : ℚ) * 4) 1
    linarith
  have hval : confidencePercent A rows cols
      = ⌊100 * min (A / ((rows * cols : Nat) : ℚ) * 4) 1⌋ := by
    unfold confidencePercent truncToInt
    simp only
    rw [hscale, if_pos hpos]
  refine ⟨rfl, ?_, ?_, ?_⟩
  · rw [hval]; rfl
  · rw [hval]; exact Int.floor_nonneg.mpr hpos
  · rw [hval]
    have h1 : ((⌊100 * min (A / ((rows * cols : Nat) : ℚ) * 4) 1⌋ : Int) : ℚ) ≤ 100 :=
      le_trans (Int.floor_le _) hle
    exact_mod_cast h1

/-! ## Binary64 rounding -/

theorem log2Fuel_spec : ∀ (fuel n : Nat), n ≤ fuel → 0 < n →
    2 ^ log2Fuel fuel n ≤ n ∧ n < 2 ^ (log2Fuel fuel n + 1) := by
  intro fuel
  induction fuel with
  | zero => intro n h h0; omega
  | succ f ih =>
    intro n h h0
    unfold log2Fuel
    split
    · rename_i h2
      have hh := ih (n / 2) (by omega) (by omega)
      obtain ⟨h3, h4⟩ := hh
      constructor
      · rw [pow_succ]; omega
      · rw [pow_succ] at h4 ⊢; omega
    · rename_i h2
      have : n = 1 := by omega
      subst this
      simp

theorem bitLog_spec (n : Nat) (h : 0 < n) : 2 ^ bitLog n ≤ n ∧ n < 2 ^ (bitLog n + 1) :=
  log2Fuel_spec n n (le_refl n) h

theorem scaled_ratio (n d : Nat) (e : Int) :
    ((scaledNum n e : Nat) : ℚ) / ((scaledDen d e : Nat) : ℚ)
      = (n : ℚ) / ((d : ℚ) * (2 : ℚ) ^ e) := by
  unfold scaledNum scaledDen
  obtain ⟨k, rfl | rfl⟩ := Int.eq_nat_or_neg e
  · simp only [Int.toNat_ofNat, zpow_natCast]
    have : (-(k : Int)).toNat = 0 := by omega
    rw [this]
    push_cast
    simp
  · simp only [neg_neg, Int.toNat_ofNat, zpow_neg, zpow_natCast]
    have : (-(k : Int)).toNat = 0 := by omega
    rw [this]
    push_cast
    have h2 : ((2 : ℚ) ^ k) ≠ 0 := by positivity
    by_cases hd : (d : ℚ) = 0
    · simp [hd]
    · field_simp

theorem scaledDen_pos (d : Nat) (e : Int) (h : 0 < d) : 0 < scaledDen d e := by
  unfold scaledDen
  positivity

theorem roundNearestEven_error (n d : Nat) (hd : 0 < d) :
    |((roundNearestEven n d : Nat) : ℚ) - (n : ℚ) / (d : ℚ)| ≤ 1 / 2 := by
  have hdq : (0 : ℚ) < (d : ℚ) := by exact_mod_cast hd
  have hdiv : (n : ℚ) / (d : ℚ) = ((n / d : Nat) : ℚ) + ((n % d : Nat) : ℚ) / (d : ℚ) := by
    have h := Nat.div_add_mod n d
    have h' : (n : ℚ) = (d : ℚ) * ((n / d : Nat) : ℚ) + ((n % d : Nat) : ℚ) := by
      exact_mod_cast h.symm
    field_simp
    linarith
  have hr : n % d < d := Nat.mod_lt _ hd
  have hrq : ((n % d : Nat) : ℚ) < (d : ℚ) := by exact_mod_cast hr
  have hr0 : (0 : ℚ) ≤ ((n % d : Nat) : ℚ) := by positivity
  unfold roundNearestEven
  simp only
  rw [hdiv]
  have key1 : 2 * (n % d) < d → |((n / d : Nat) : ℚ)
      - (((n / d : Nat) : ℚ) + ((n % d : Nat) : ℚ) / (d : ℚ))| ≤ 1 / 2 := by
    intro h
    have hq : (2 : ℚ) * ((n % d : Nat) : ℚ) < (d : ℚ) := by exact_mod_cast h
    rw [abs_le]
    constructor
    · have : ((n % d : Nat) : ℚ) / (d : ℚ) ≤ 1 / 2 := by
        rw [div_le_iff₀ hdq]; linarith
      linarith
    · have : 0 ≤ ((n % d : Nat) : ℚ) / (d : ℚ) := by positivity
      linarith
  have key2 : d ≤ 2 * (n % d) → |(((n / d + 1 : Nat) : Nat) : ℚ)
      - (((n / d : Nat) : ℚ) + ((n % d : Nat) : ℚ) / (d : ℚ))| ≤ 1 / 2 := by
    intro h
    have hq : (d : ℚ) ≤ (2 : ℚ) * ((n % d : Nat) : ℚ) := by exact_mod_cast h
    push_cast
    rw [abs_le]
    constructor
    · have : ((n % d : Nat) : ℚ) / (d : ℚ) ≤ 1 := by
        rw [div_le_iff₀ hdq]; linarith
      linarith
    · have : 1 / 2 ≤ ((n % d : Nat) : ℚ) / (d : ℚ) := by
        rw [le_div_iff₀ hdq]; linarith
      linarith
  have key3 : 2 * (n % d) ≤ d → |((n / d : Nat) : ℚ)
      - (((n / d : Nat) : ℚ) + ((n % d : Nat) : ℚ) / (d : ℚ))| ≤ 1 / 2 := by
    intro h
    have hq : (2 : ℚ) * ((n % d : Nat) : ℚ) ≤ (d : ℚ) := by exact_mod_cast h
    rw [abs_le]
    constructor
    · have : ((n % d : Nat) : ℚ) / (d : ℚ) ≤ 1 / 2 := by
        rw [div_le_iff₀ hdq]; linarith
      linarith
    · have : 0 ≤ ((n % d : Nat) : ℚ) / (d : ℚ) := by positivity
      linarith
  split
  · rename_i h; exact key1 h
  · rename_i h
    split
    · rename_i h'; exact key2 (by omega)
    · rename_i h'
      split
      · exact key3 (by omega)
      · exact key2 (by omega)
/-- The exponent chosen for rounding puts the quotient between `2 ^ 52` and `2 ^ 53`. -/
theorem roundExponent_spec (n d : Nat) (hn : 0 < n) (hd : 0 < d) :
    (2 : ℚ) ^ 52 ≤ (n : ℚ) / ((d : ℚ) * (2 : ℚ) ^ roundExponent n d) ∧
    (n : ℚ) / ((d : ℚ) * (2 : ℚ) ^ roundExponent n d) < (2 : ℚ) ^ 53 := by
  obtain ⟨ha1, ha2⟩ := bitLog_spec n hn
  obtain ⟨hb1, hb2⟩ := bitLog_spec d hd
  have hnq : (0 : ℚ) < (n : ℚ) := by exact_mod_cast hn
  have hdq : (0 : ℚ) < (d : ℚ) := by exact_mod_cast hd
  have ha1q : (2 : ℚ) ^ bitLog n ≤ (n : ℚ) := by exact_mod_cast ha1
  have ha2q : (n : ℚ) < (2 : ℚ) ^ (bitLog n + 1) := by exact_mod_cast ha2
  have hb1q : (2 : ℚ) ^ bitLog d ≤ (d : ℚ) := by exact_mod_cast hb1
  have hb2q : (d : ℚ) < (2 : ℚ) ^ (bitLog d + 1) := by exact_mod_cast hb2
  have hpa : (0 : ℚ) < (2 : ℚ) ^ bitLog n := by positivity
  have hpb : (0 : ℚ) < (2 : ℚ) ^ bitLog d := by positivity
  have hk : (2 : ℚ) ^ ((bitLog n : Int) - (bitLog d : Int) - 52)
      = (2 : ℚ) ^ bitLog n / ((2 : ℚ) ^ bitLog d * (2 : ℚ) ^ 52) := by
    rw [zpow_sub₀ (by norm_num), zpow_sub₀ (by norm_num), zpow_natCast, zpow_natCast]
    rw [div_div]
    norm_num
  have hk1 : (2 : ℚ) ^ ((bitLog n : Int) - (bitLog d : Int) - 52 - 1)
      = (2 : ℚ) ^ bitLog n / ((2 : ℚ) ^ bitLog d * (2 : ℚ) ^ 52 * 2) := by
    rw [zpow_sub₀ (by norm_num), hk, zpow_one, div_div]
  unfold roundExponent
  simp only
  split
  · rename_i hc
    have hD := scaledDen_pos d ((bitLog n : Int) - (bitLog d : Int) - 52) hd
    have hc' : 2 ^ 52 * scaledDen d ((bitLog n : Int) - (bitLog d : Int) - 52)
        ≤ scaledNum n ((bitLog n : Int) - (bitLog d : Int) - 52) :=
      (Nat.le_div_iff_mul_le hD).1 hc
    have hcq : (2 : ℚ) ^ 52 * ((scaledDen d ((bitLog n : Int) - (bitLog d : Int) - 52) : Nat) : ℚ)
        ≤ ((scaledNum n ((bitLog n : Int) - (bitLog d : Int) - 52) : Nat) : ℚ) := by
      exact_mod_cast hc'
    have hDq : (0 : ℚ) < ((scaledDen d ((bitLog n : Int) - (bitLog d : Int) - 52) : Nat) : ℚ) := by
      exact_mod_cast hD
    constructor
    · rw [← scaled_ratio, le_div_iff₀ hDq]
      exact hcq
    · rw [hk, div_lt_iff₀ (by positivity)]
      have e1 : (2 : ℚ) ^ 53 * ((d : ℚ) * ((2 : ℚ) ^ bitLog n / ((2 : ℚ) ^ bitLog d * (2 : ℚ) ^ 52)))
          = 2 * (2 : ℚ) ^ bitLog n * ((d : ℚ) / (2 : ℚ) ^ bitLog d) := by
        field_simp
        ring
      rw [e1]
      have e2 : 1 ≤ (d : ℚ) / (2 : ℚ) ^ bitLog d := by
        rw [le_div_iff₀ hpb]; linarith
      have e3 : (n : ℚ) < 2 * (2 : ℚ) ^ bitLog n := by
        rw [pow_succ] at ha2q; linarith
      nlinarith
  · rename_i hc
    have hD := scaledDen_pos d ((bitLog n : Int) - (bitLog d : Int) - 52) hd
    have hc' : scaledNum n ((bitLog n : Int) - (bitLog d : Int) - 52)
        < 2 ^ 52 * scaledDen d ((bitLog n : Int) - (bitLog d : Int) - 52) := by
      have := (Nat.div_lt_iff_lt_mul hD).1 (not_le.mp hc)
      exact this
    have hcq : ((scaledNum n ((bitLog n : Int) - (bitLog d : Int) - 52) : Nat) : ℚ)
        < (2 : ℚ) ^ 52 * ((scaledDen d ((bitLog n : Int) - (bitLog d : Int) - 52) : Nat) : ℚ) := by
      exact_mod_cast hc'
    have hDq : (0 : ℚ) < ((scaledDen d ((bitLog n : Int) - (bitLog d : Int) - 52) : Nat) : ℚ) := by
      exact_mod_cast hD
    have hlt : (n : ℚ) / ((d : ℚ) * (2 : ℚ) ^ ((bitLog n : Int) - (bitLog d : Int) - 52))
        < (2 : ℚ) ^ 52 := by
      rw [← scaled_ratio, div_lt_iff₀ hDq]
      exact hcq
    have hrel : (n : ℚ) / ((d : ℚ) * (2 : ℚ) ^ ((bitLog n : Int) - (bitLog d : Int) - 52 - 1))
        = 2 * ((n : ℚ) / ((d : ℚ) * (2 : ℚ) ^ ((bitLog n : Int) - (bitLog d : Int) - 52))) := by
      rw [hk, hk1]
      field_simp
      ring
    constructor
    · rw [hk1, le_div_iff₀ (by positivity)]
      have e1 : (2 : ℚ) ^ 52 * ((d : ℚ) * ((2 : ℚ) ^ bitLog n
          / ((2 : ℚ) ^ bitLog d * (2 : ℚ) ^ 52 * 2)))
          = (2 : ℚ) ^ bitLog n * ((d : ℚ) / ((2 : ℚ) ^ bitLog d * 2)) := by
        field_simp
        ring
      rw [e1]
      have e2 : (d : ℚ) / ((2 : ℚ) ^ bitLog d * 2) ≤ 1 := by
        rw [div_le_iff₀ (by positivity)]
        rw [pow_succ] at hb2q; linarith
      have e3 : 0 ≤ (d : ℚ) / ((2 : ℚ) ^ bitLog d * 2) := by positivity
      nlinarith
    · rw [hrel]
      have : (2 : ℚ) ^ 53 = 2 * (2 : ℚ) ^ 52 := by norm_num
      rw [this]
      linarith

theorem Dbl.toRat_nonneg (a : Dbl) : 0 ≤ a.toRat := by
  unfold Dbl.toRat
  positivity

/-- Rounding to `double` has a relative error of at most `2 ^ -53`. -/
theorem Dbl.round_error (n d : Nat) (hd : 0 < d) :
    |(Dbl.round n d).toRat - (n : ℚ) / (d : ℚ)| ≤ (n : ℚ) / (d : ℚ) / (2 : ℚ) ^ 53 := by
  by_cases hn : n = 0
  · subst hn
    simp [Dbl.round, Dbl.toRat]
  · have hn0 : 0 < n := Nat.pos_of_ne_zero hn
    obtain ⟨h52, _⟩ := roundExponent_spec n d hn0 hd
    have hD := scaledDen_pos d (roundExponent n d) hd
    have herr := roundNearestEven_error (scaledNum n (roundExponent n d))
      (scaledDen d (roundExponent n d)) hD
    rw [scaled_ratio] at herr
    have hdq : (0 : ℚ) < (d : ℚ) := by exact_mod_cast hd
    have hp : (0 : ℚ) < (2 : ℚ) ^ roundExponent n d := by positivity
    unfold Dbl.round
    rw [if_neg hn]
    unfold Dbl.toRat
    simp only
    generalize roundNearestEven (scaledNum n (roundExponent n d))
      (scaledDen d (roundExponent n d)) = m at herr
    generalize hE : (2 : ℚ) ^ roundExponent n d = E at herr hp h52
    have hx : (n : ℚ) / ((d : ℚ) * E) = (n : ℚ) / (d : ℚ) / E := by
      rw [div_div]
    rw [hx] at herr h52
    generalize (n : ℚ) / (d : ℚ) = x at herr h52
    have h1 : (2 : ℚ) ^ 52 * E ≤ x := by
      rwa [le_div_iff₀ hp] at h52
    have h2 : |(m : ℚ) * E - x| ≤ E / 2 := by
      have : (m : ℚ) * E - x = ((m : ℚ) - x / E) * E := by
        field_simp
      rw [this, abs_mul, abs_of_pos hp]
      have := mul_le_mul_of_nonneg_right herr (le_of_lt hp)
      linarith
    refine le_trans h2 ?_
    rw [le_div_iff₀ (by positivity)]
    have : (2 : ℚ) ^ 53 = 2 * (2 : ℚ) ^ 52 := by norm_num
    rw [this]
    linarith

/-- The mantissa of a rounded value has at most 53 bits: it lies between `2 ^ 52` and
`2 ^ 53`. -/
theorem Dbl.round_mantissa (n d : Nat) (hn : 0 < n) (hd : 0 < d) :
    2 ^ 52 ≤ (Dbl.round n d).m ∧ (Dbl.round n d).m ≤ 2 ^ 53 := by
  obtain ⟨h52, h53⟩ := roundExponent_spec n d hn hd
  have hD := scaledDen_pos d (roundExponent n d) hd
  have herr := roundNearestEven_error (scaledNum n (roundExponent n d))
    (scaledDen d (roundExponent n d)) hD
  rw [scaled_ratio] at herr
  unfold Dbl.round
  rw [if_neg (by omega)]
  simp only
  generalize roundNearestEven (scaledNum n (roundExponent n d))
    (scaledDen d (roundExponent n d)) = m at herr
  rw [abs_le] at herr
  constructor
  · have h : ((2 ^ 52 - 1 : Nat) : ℚ) < (m : ℚ) := by
      push_cast
      linarith
    have : 2 ^ 52 - 1 < m := by exact_mod_cast h
    omega
  · have h : (m : ℚ) < ((2 ^ 53 + 1 : Nat) : ℚ) := by
      push_cast
      linarith
    have : m < 2 ^ 53 + 1 := by exact_mod_cast h
    omega
theorem scaled_common (n d : Nat) (e : Int) :
    ∃ c : ℚ, 0 < c ∧ ((scaledNum n e : Nat) : ℚ) = c * (n : ℚ) ∧
      ((scaledDen d e : Nat) : ℚ) = c * ((d : ℚ) * (2 : ℚ) ^ e) := by
  refine ⟨(2 : ℚ) ^ (-e).toNat, by positivity, ?_, ?_⟩
  · unfold scaledNum
    push_cast
    ring
  · unfold scaledDen
    obtain ⟨k, rfl | rfl⟩ := Int.eq_nat_or_neg e
    · have : (-(k : Int)).toNat = 0 := by omega
      rw [this]
      simp only [Int.toNat_ofNat, zpow_natCast]
      push_cast
      ring
    · have : (-(k : Int)).toNat = 0 := by omega
      rw [this]
      simp only [neg_neg, Int.toNat_ofNat, zpow_neg, zpow_natCast]
      push_cast
      have h2 : ((2 : ℚ) ^ k) ≠ 0 := by positivity
      field_simp

theorem Dbl.div_error (a b : Dbl) (hb : 0 < b.m) :
    |(Dbl.div a b).toRat - a.toRat / b.toRat| ≤ a.toRat / b.toRat / (2 : ℚ) ^ 53 := by
  have h := Dbl.round_error (scaledNum a.m (b.e - a.e)) (scaledDen b.m (b.e - a.e))
    (scaledDen_pos _ _ hb)
  rw [scaled_ratio] at h
  have hv : (a.m : ℚ) / ((b.m : ℚ) * (2 : ℚ) ^ (b.e - a.e)) = a.toRat / b.toRat := by
    unfold Dbl.toRat
    rw [zpow_sub₀ (by norm_num)]
    have h1 : ((2 : ℚ) ^ a.e) ≠ 0 := by positivity
    have h2 : ((2 : ℚ) ^ b.e) ≠ 0 := by positivity
    have h3 : (b.m : ℚ) ≠ 0 := by
      have : (0 : ℚ) < (b.m : ℚ) := by exact_mod_cast hb
      exact ne_of_gt this
    field_simp
  rw [hv] at h
  exact h

theorem Dbl.mul_error (a b : Dbl) :
    |(Dbl.mul a b).toRat - a.toRat * b.toRat| ≤ a.toRat * b.toRat / (2 : ℚ) ^ 53 := by
  have h := Dbl.round_error (scaledNum (a.m * b.m) (-(a.e + b.e))) (scaledDen 1 (-(a.e + b.e)))
    (scaledDen_pos _ _ Nat.one_pos)
  rw [scaled_ratio] at h
  have hv : ((a.m * b.m : Nat) : ℚ) / (((1 : Nat) : ℚ) * (2 : ℚ) ^ (-(a.e + b.e)))
      = a.toRat * b.toRat := by
    unfold Dbl.toRat
    rw [zpow_neg, zpow_add₀ (by norm_num)]
    have h1 : ((2 : ℚ) ^ a.e) ≠ 0 := by positivity
    have h2 : ((2 : ℚ) ^ b.e) ≠ 0 := by positivity
    push_cast
    field_simp
    ring
  rw [hv] at h
  exact h

theorem Dbl.lt_iff (a b : Dbl) : Dbl.lt a b = true ↔ a.toRat < b.toRat := by
  obtain ⟨c, hc, hN, hD⟩ := scaled_common a.m b.m (b.e - a.e)
  unfold Dbl.lt
  rw [decide_eq_true_iff]
  have hcast : scaledNum a.m (b.e - a.e) < scaledDen b.m (b.e - a.e) ↔
      ((scaledNum a.m (b.e - a.e) : Nat) : ℚ) < ((scaledDen b.m (b.e - a.e) : Nat) : ℚ) := by
    exact Nat.cast_lt.symm
  rw [hcast, hN, hD]
  unfold Dbl.toRat
  rw [zpow_sub₀ (by norm_num)]
  have h1 : (0 : ℚ) < (2 : ℚ) ^ a.e := by positivity
  constructor
  · intro h
    have h2 : (a.m : ℚ) < (b.m : ℚ) * ((2 : ℚ) ^ b.e / (2 : ℚ) ^ a.e) :=
      lt_of_mul_lt_mul_left h (le_of_lt hc)
    have h3 := mul_lt_mul_of_pos_right h2 h1
    have h4 : (b.m : ℚ) * ((2 : ℚ) ^ b.e / (2 : ℚ) ^ a.e) * (2 : ℚ) ^ a.e
        = (b.m : ℚ) * (2 : ℚ) ^ b.e := by
      field_simp
    rw [h4] at h3
    exact h3
  · intro h
    apply mul_lt_mul_of_pos_left _ hc
    have h4 : (b.m : ℚ) * ((2 : ℚ) ^ b.e / (2 : ℚ) ^ a.e)
        = (b.m : ℚ) * (2 : ℚ) ^ b.e / (2 : ℚ) ^ a.e := by
      field_simp
    rw [h4, lt_div_iff₀ h1]
    exact h

theorem dbl_toRat_min (a b : Dbl) : (Dbl.min a b).toRat = Min.min a.toRat b.toRat := by
  unfold Dbl.min
  by_cases h : Dbl.lt b a = true
  · rw [if_pos h]
    have := (Dbl.lt_iff b a).1 h
    rw [min_eq_right (le_of_lt this)]
  · rw [if_neg h]
    have : ¬ b.toRat < a.toRat := fun hh => h ((Dbl.lt_iff b a).2 hh)
    rw [min_eq_left (not_lt.mp this)]

theorem Dbl.trunc_eq_floor (a : Dbl) : Dbl.trunc a = ⌊a.toRat⌋ := by
  unfold Dbl.trunc
  have h := scaled_ratio a.m 1 (-a.e)
  have hv : (a.m : ℚ) / (((1 : Nat) : ℚ) * (2 : ℚ) ^ (-a.e)) = a.toRat := by
    unfold Dbl.toRat
    rw [zpow_neg]
    have h1 : ((2 : ℚ) ^ a.e) ≠ 0 := by positivity
    push_cast
    field_simp
  rw [hv] at h
  rw [← h]
  rw [← Int.cast_natCast (scaledNum a.m (-a.e)), Rat.floor_intCast_div_natCast]
  push_cast
  rfl

theorem Dbl.toRat_timesExact (k : Nat) (a : Dbl) :
    (Dbl.timesExact k a).toRat = (k : ℚ) * a.toRat := by
  unfold Dbl.timesExact Dbl.toRat
  push_cast
  ring

theorem floor_near (a b : ℚ) (h : |a - b| < 1) : |⌊a⌋ - ⌊b⌋| ≤ 1 := by
  rw [abs_lt] at h
  rw [abs_le]
  have ha1 := Int.floor_le a
  have ha2 := Int.lt_floor_add_one a
  have hb1 := Int.floor_le b
  have hb2 := Int.lt_floor_add_one b
  constructor
  · have : ((⌊b⌋ : Int) : ℚ) < ((⌊a⌋ + 2 : Int) : ℚ) := by
      push_cast; linarith
    have : ⌊b⌋ < ⌊a⌋ + 2 := by exact_mod_cast this
    omega
  · have : ((⌊a⌋ : Int) : ℚ) < ((⌊b⌋ + 2 : Int) : ℚ) := by
      push_cast; linarith
    have : ⌊a⌋ < ⌊b⌋ + 2 := by exact_mod_cast this
    omega

theorem maxAreaF64_eq (rows cols : Nat) (hr : 1 ≤ rows) (hc : 1 ≤ cols)
    (hM : rows * cols < 2147483648) : maxAreaF64 rows cols = some ⟨rows * cols, 0⟩ := by
  have hpos : 0 < rows * cols := Nat.mul_pos hr hc
  have hcast : ((rows : Int) * (cols : Int)) = ((rows * cols : Nat) : Int) := by push_cast; rfl
  have hw : wrapInt32 ((rows : Int) * (cols : Int)) = ((rows * cols : Nat) : Int) := by
    rw [hcast]
    exact wrapInt32_of_range _ (by omega) (by omega)
  unfold maxAreaF64
  rw [hw, if_pos (by omega), Int.toNat_ofNat]

/-- The two quantities that the program computes in `double`, with `w` the exact quotient
`area / maxArea`: both `x2 = fl(fl(w) * 400)` and `100 * x3` with `x3 = fl(fl(w) * 4)`, once
cut off at 100, are within one half of the exact `min(400 * w, 100)`. -/
theorem percent_error_bound (w x1 x2 x3 : ℚ)
    (h1 : |x1 - w| ≤ w / (2 : ℚ) ^ 53)
    (h2 : |x2 - x1 * 400| ≤ x1 * 400 / (2 : ℚ) ^ 53)
    (h3 : |x3 - x1 * 4| ≤ x1 * 4 / (2 : ℚ) ^ 53) :
    |min x2 100 - min (w * 400) 100| < 1 / 2 ∧
    |min (100 * x3) 100 - min (w * 400) 100| < 1 / 2 := by
  rw [abs_le] at h1 h2 h3
  norm_num at h1 h2 h3
  obtain ⟨h1a, h1b⟩ := h1
  obtain ⟨h2a, h2b⟩ := h2
  obtain ⟨h3a, h3b⟩ := h3
  by_cases hcase : w ≤ 1 / 2
  · have e2 : |x2 - w * 400| < 1 / 2 := by
      rw [abs_lt]; constructor <;> linarith
    have e3 : |100 * x3 - w * 400| < 1 / 2 := by
      rw [abs_lt]; constructor <;> linarith
    constructor
    · refine lt_of_le_of_lt (abs_min_sub_min_le_max _ _ _ _) ?_
      simp only [sub_self, abs_zero]
      exact max_lt e2 (by norm_num)
    · refine lt_of_le_of_lt (abs_min_sub_min_le_max _ _ _ _) ?_
      simp only [sub_self, abs_zero]
      exact max_lt e3 (by norm_num)
  · have hw2 : 1 / 2 < w := not_le.mp hcase
    have a1 : (100 : ℚ) ≤ x2 := by linarith
    have a2 : (100 : ℚ) ≤ 100 * x3 := by linarith
    have a3 : (100 : ℚ) ≤ w * 400 := by linarith
    rw [min_eq_right a1, min_eq_right a2, min_eq_right a3]
    norm_num

/-- Claim C26, amended.  For every contour area `A >= 0` (a finite `double`) and every image
of `M = rows * cols` pixels with `rows, cols >= 1` and `M < 2 ^ 31`: in exact rational
arithmetic `trunc(min(A / M * 400, 100))` equals `floor(100 * min(A / M * 4, 1))`; the program
evaluates both expressions in `double`, where each is defined, the percentage drawn lies in
`0..100`, and it differs by at most 1 from `floor(100 * c)`, for the program's confidence `c`
as well as for the exact one. -/
theorem confidence_percent_within_one (area : Dbl) (rows cols : Nat) (hr : 1 ≤ rows)
    (hc : 1 ≤ cols) (hM : rows * cols < 2147483648) :
    confidencePercent area.toRat rows cols = ⌊100 * confidence area.toRat rows cols⌋ ∧
    ∃ (p : Int) (c : Dbl), confidencePercentF64 area rows cols = some p ∧
      confidenceF64 area rows cols = some c ∧ 0 ≤ p ∧ p ≤ 100 ∧
      |p - ⌊100 * c.toRat⌋| ≤ 1 ∧
      |p - ⌊100 * confidence area.toRat rows cols⌋| ≤ 1 := by
  refine ⟨(confidencePercent_exact area.toRat rows cols (Dbl.toRat_nonneg area) hr hc).2.1, ?_⟩
  have hMd := maxAreaF64_eq rows cols hr hc hM
  have hpos : 0 < rows * cols := Nat.mul_pos hr hc
  have hMq : (0 : ℚ) < ((rows * cols : Nat) : ℚ) := by exact_mod_cast hpos
  have hMrat : (⟨rows * cols, 0⟩ : Dbl).toRat = ((rows * cols : Nat) : ℚ) := by
    simp [Dbl.toRat]
  have h400 : (⟨400, 0⟩ : Dbl).toRat = 400 := by simp [Dbl.toRat]
  have h4 : (⟨4, 0⟩ : Dbl).toRat = 4 := by simp [Dbl.toRat]
  have h100 : (⟨100, 0⟩ : Dbl).toRat = 100 := by simp [Dbl.toRat]
  have hone : (⟨1, 0⟩ : Dbl).toRat = 1 := by simp [Dbl.toRat]
  have e1 := Dbl.div_error area ⟨rows * cols, 0⟩ hpos
  have e2 := Dbl.mul_error (Dbl.div area ⟨rows * cols, 0⟩) ⟨400, 0⟩
  have e3 := Dbl.mul_error (Dbl.div area ⟨rows * cols, 0⟩) ⟨4, 0⟩
  rw [hMrat] at e1
  rw [h400] at e2
  rw [h4] at e3
  obtain ⟨b2, b3⟩ := percent_error_bound _ _ _ _ e1 e2 e3
  have hx2 := Dbl.toRat_nonneg (Dbl.mul (Dbl.div area ⟨rows * cols, 0⟩) ⟨400, 0⟩)
  have hp : Dbl.trunc (Dbl.min (Dbl.mul (Dbl.div area ⟨rows * cols, 0⟩) ⟨400, 0⟩) ⟨100, 0⟩)
      = ⌊min (Dbl.mul (Dbl.div area ⟨rows * cols, 0⟩) ⟨400, 0⟩).toRat 100⌋ := by
    rw [Dbl.trunc_eq_floor, dbl_toRat_min, h100]
  have hcd : 100 * (Dbl.min (Dbl.mul (Dbl.div area ⟨rows * cols, 0⟩) ⟨4, 0⟩) ⟨1, 0⟩).toRat
      = min (100 * (Dbl.mul (Dbl.div area ⟨rows * cols, 0⟩) ⟨4, 0⟩).toRat) 100 := by
    rw [dbl_toRat_min, hone, mul_min_of_nonneg _ _ (by norm_num : (0 : ℚ) ≤ 100)]
    norm_num
  have hce : 100 * confidence area.toRat rows cols
      = min (area.toRat / ((rows * cols : Nat) : ℚ) * 400) 100 := by
    unfold confidence
    simp only
    rw [mul_min_of_nonneg _ _ (by norm_num : (0 : ℚ) ≤ 100), mul_one]
    have hring : ∀ x y : ℚ, 100 * (x / y * 4) = x / y * 400 := by
      intro x y; ring
    rw [hring]
  refine ⟨Dbl.trunc (Dbl.min (Dbl.mul (Dbl.div area ⟨rows * cols, 0⟩) ⟨400, 0⟩) ⟨100, 0⟩),
    Dbl.min (Dbl.mul (Dbl.div area ⟨rows * cols, 0⟩) ⟨4, 0⟩) ⟨1, 0⟩,
    by simp [confidencePercentF64, hMd], by simp [confidenceF64, hMd], ?_, ?_, ?_, ?_⟩
  · rw [hp]
    exact Int.floor_nonneg.mpr (le_min hx2 (by norm_num))
  · rw [hp]
    have : ((⌊min (Dbl.mul (Dbl.div area ⟨rows * cols, 0⟩) ⟨400, 0⟩).toRat 100⌋ : Int) : ℚ)
        ≤ 100 := le_trans (Int.floor_le _) (min_le_right _ _)
    exact_mod_cast this
  · rw [hp, hcd]
    apply floor_near
    have := abs_sub_le (min (Dbl.mul (Dbl.div area ⟨rows * cols, 0⟩) ⟨400, 0⟩).toRat 100)
      (min (area.toRat / ((rows * cols : Nat) : ℚ) * 400) 100)
      (min (100 * (Dbl.mul (Dbl.div area ⟨rows * cols, 0⟩) ⟨4, 0⟩).toRat) 100)
    rw [abs_sub_comm (min (area.toRat / ((rows * cols : Nat) : ℚ) * 400) 100)] at this
    linarith
  · rw [hp, hce]
    apply floor_near
    linarith

/-- Counterexample for claim C26.  On an image of 100 x 100 pixels the program draws 41 for a
contour of area 1025, while `floor(100 * c)` is 40 for the confidence `c` that it computes
for the colour (the `double` nearest to 0.41 lies below 0.41); and for a contour of area 1450
it draws 57, where the value of `trunc(min(A / M * 400, 100))` in exact arithmetic is 58. -/
theorem percent_differs_in_double :
    confidencePercentF64 ⟨1025, 0⟩ 100 100 = some 41 ∧
    (confidenceF64 ⟨1025, 0⟩ 100 100).map (fun c => ⌊100 * c.toRat⌋) = some 40 ∧
    (⟨1025, 0⟩ : Dbl).toRat = 1025 ∧
    confidencePercentF64 ⟨1450, 0⟩ 100 100 = some 57 ∧
    (⟨1450, 0⟩ : Dbl).toRat = 1450 ∧
    confidencePercent 1450 100 100 = 58 := by
  have key : ∀ c : Dbl, ⌊100 * c.toRat⌋ = Dbl.trunc (Dbl.timesExact 100 c) := by
    intro c
    rw [Dbl.trunc_eq_floor, Dbl.toRat_timesExact]
    norm_num
  refine ⟨by decide, ?_, by simp [Dbl.toRat], by decide, by simp [Dbl.toRat], ?_⟩
  · simp only [key]
    decide
  · rw [(confidencePercent_exact 1450 100 100 (by norm_num) (by decide) (by decide)).2.1]
    unfold confidence
    rw [Int.floor_eq_iff]
    norm_num

/-- Witness for the amended C26: a contour of area 1500 on an image of 80 rows and 100
columns. -/
theorem confidence_percent_within_one_witness :
    1 ≤ 80 ∧ 1 ≤ 100 ∧ 80 * 100 < 2147483648 ∧
    ∃ (p : Int) (c : Dbl), confidencePercentF64 ⟨1500, 0⟩ 80 100 = some p ∧
      confidenceF64 ⟨1500, 0⟩ 80 100 = some c ∧ 0 ≤ p ∧ p ≤ 100 ∧
      |p - ⌊100 * c.toRat⌋| ≤ 1 ∧
      |p - ⌊100 * confidence (⟨1500, 0⟩ : Dbl).toRat 80 100⌋| ≤ 1 :=
  ⟨by decide, by decide, by decide,
    (confidence_percent_within_one ⟨1500, 0⟩ 80 100 (by decide) (by decide) (by decide)).2⟩

/-! ## Marking on enqueue and the number of dequeues -/

theorem bfsStep_trace (L : BfsLoop) (p : Point) (rest : List Point) (s : BfsState) :
    (bfsStep L p rest s).trace = s.trace ++ [p] := by
  apply bfsStep_induct L p rest s (fun t => t.trace = s.trace ++ [p])
  · intro _; rfl
  · intro _; rfl
  · intro t k d _ ht _ _ _ _; exact ht

theorem bfsStep_mono (L : BfsLoop) (p : Point) (rest : List Point) (s : BfsState) (r : Point)
    (h : s.visited.px r.y r.x ≠ 0) : (bfsStep L p rest s).visited.px r.y r.x ≠ 0 := by
  apply bfsStep_induct L p rest s (fun t => t.visited.px r.y r.x ≠ 0)
  · intro _; exact h
  · intro _; exact h
  · intro t k d _ ht _ _ _ _; exact set_one_ne_zero _ _ _ ht

/-- An examination either leaves the state unchanged or pushes a neighbour that was not
visited, and then the number of unvisited pixels drops by one. -/
theorem examine_cases (L : BfsLoop) (p : Point) (i : Nat) (d : Int × Int) (s : BfsState) :
    examine L p i d s = s ∨
    (s.visited.px (p.shift d).y (p.shift d).x = 0 ∧ L.inside (p.shift d) ∧
      examine L p i d s = s.push (p.shift d) ∧
      unvisited L (examine L p i d s).visited + 1 = unvisited L s.visited) := by
  rw [examine_eq]
  split
  · rename_i hc
    right
    exact ⟨hc.2.1, hc.1, rfl,
      unvisited_set L s.visited _ _ hc.1.1 hc.1.2.1 hc.1.2.2.1 hc.1.2.2.2 hc.2.1⟩
  · left; rfl

/-- One iteration keeps the marking-on-enqueue invariant. -/
theorem bfsStep_markInv (L : BfsLoop) (p : Point) (rest : List Point) (s : BfsState)
    (hq : s.q = p :: rest) (h : MarkInv s) : MarkInv (bfsStep L p rest s) := by
  have hbase : MarkInv { s with q := rest, trace := s.trace ++ [p] } := by
    refine ⟨?_, ?_, ?_⟩
    · intro r hr
      exact h.queued_visited r (by rw [hq]; exact List.mem_cons_of_mem _ hr)
    · intro r hr
      rcases List.mem_append.mp hr with hr | hr
      · exact h.dequeued_visited r hr
      · simp only [List.mem_singleton] at hr
        rw [hr]
        exact h.queued_visited p (by rw [hq]; exact List.mem_cons_self _ _)
    · have := h.once
      rw [hq] at this
      simpa [List.append_assoc] using this
  have hbase2 : MarkInv { s with q := rest, trace := s.trace ++ [p],
                                  segmented := s.segmented.set p.y p.x L.newColor } :=
    ⟨hbase.queued_visited, hbase.dequeued_visited, hbase.once⟩
  apply bfsStep_induct L p rest s MarkInv
  · intro _; exact hbase
  · intro _; exact hbase2
  · intro t k d _ ht _ _ hv _
    refine ⟨?_, ?_, ?_⟩
    · intro r hr
      simp only [BfsState.push_q, List.mem_append, List.mem_singleton] at hr
      rcases hr with hr | hr
      · exact set_one_ne_zero _ _ _ (ht.queued_visited r hr)
      · rw [hr]; simp
    · intro r hr
      exact set_one_ne_zero _ _ _ (ht.dequeued_visited r hr)
    · have hnot : p.shift d ∉ t.trace ++ t.q := by
        intro hm
        rcases List.mem_append.mp hm with hm | hm
        · exact ht.dequeued_visited _ hm hv
        · exact ht.queued_visited _ hm hv
      have hnd : (t.trace ++ t.q ++ [p.shift d]).Nodup := by
        rw [List.nodup_append]
        refine ⟨ht.once, List.nodup_singleton _, ?_⟩
        intro a ha hb
        simp only [List.mem_singleton] at hb
        rw [hb] at ha
        exact hnot ha
      simpa [List.append_assoc] using hnd

/-- Pushing a seed that is not visited on an empty queue establishes the invariant. -/
theorem markInv_start (s : BfsState) (seed : Point) (h : MarkInv s) (hq : s.q = [])
    (hV : s.visited.px seed.y seed.x = 0) :
    MarkInv { s with q := [seed], visited := s.visited.set seed.y seed.x 1 } := by
  refine ⟨?_, ?_, ?_⟩
  · intro r hr
    simp only [List.mem_singleton] at hr
    rw [hr]; simp
  · intro r hr
    exact set_one_ne_zero _ _ _ (h.dequeued_visited r hr)
  · have hnot : seed ∉ s.trace := fun hm => h.dequeued_visited _ hm hV
    have hnd : s.trace.Nodup := by
      have := h.once
      rw [hq, List.append_nil] at this
      exact this
    show (s.trace ++ [seed]).Nodup
    rw [List.nodup_append]
    refine ⟨hnd, List.nodup_singleton _, ?_⟩
    intro a ha hb
    simp only [List.mem_singleton] at hb
    rw [hb] at ha
    exact hnot ha

/-- Every iteration dequeues one pixel and lowers the measure by one, so the number of
dequeues plus the measure is constant along a run. -/
theorem bfsRun_dequeues (L : BfsLoop) (fuel : Nat) (s s' : BfsState)
    (h : bfsRun L fuel s = some s') :
    s'.trace.length + unvisited L s'.visited = s.trace.length + bfsMeasure L s ∧ s'.q = [] := by
  have := bfsRun_induct L
    (fun t => t.trace.length + bfsMeasure L t = s.trace.length + bfsMeasure L s)
    (by
      intro t p rest ht hq
      have h1 := measure_bfsStep L p rest t hq
      have h2 := bfsStep_trace L p rest t
      rw [h2, List.length_append, List.length_singleton]
      omega) fuel s s' rfl h
  refine ⟨?_, this.2⟩
  have h1 := this.1
  simp only [bfsMeasure, this.2, List.length_nil, Nat.add_zero] at h1
  simpa [bfsMeasure] using h1

/-- A loop started from one in-bounds seed on a fresh visited grid: it stops with an empty
queue after at most `rows * cols` dequeues, the marking-on-enqueue invariant holds at the end,
and every pixel whose output differs from the initial grid was dequeued, exactly once. -/
theorem seeded_marking (L : BfsLoop) (seed : Point) (seg0 : Mat) (hseed : L.inside seed) :
    ∃ s', bfsRun L (L.rows * L.cols + 1) (seedState L seed seg0) = some s' ∧ s'.q = [] ∧
      MarkInv s' ∧ s'.trace.length ≤ L.rows * L.cols ∧
      (∀ r : Point, s'.segmented.px r.y r.x ≠ seg0.px r.y r.x →
        r ∈ s'.trace ∧ s'.trace.count r = 1) := by
  have hm : bfsMeasure L (seedState L seed seg0) = L.rows * L.cols := by
    have := bfsMeasure_startState L (Mat.zeros L.rows L.cols) seg0 seed hseed rfl
    rw [unvisited_zeros] at this
    exact this
  obtain ⟨s', hs'⟩ := bfsRun_terminates L (L.rows * L.cols + 1) (seedState L seed seg0)
    (by rw [hm]; omega)
  have h1 := bfsRun_induct L MarkInv
    (fun s p rest h hq => bfsStep_markInv L p rest s hq h) _ _ s'
    (by
      refine ⟨?_, ?_, ?_⟩
      · intro r hr
        simp only [seedState, List.mem_singleton] at hr
        rw [hr]; simp [seedState]
      · intro r hr; simp [seedState] at hr
      · simp [seedState]) hs'
  have h2 := bfsRun_induct L (fun t => ∀ r : Point, t.segmented.px r.y r.x =
      if r ∈ t.trace ∧ L.accept r = true then L.newColor else seg0.px r.y r.x)
    (fun s p rest h _ => bfsStep_label L seg0 s p rest h) _ _ s'
    (by intro r; simp [seedState]) hs'
  have h3 := bfsRun_dequeues L _ _ _ hs'
  have hnd : s'.trace.Nodup := by
    have := h1.1.once
    rw [h1.2, List.append_nil] at this
    exact this
  refine ⟨s', hs', h1.2, h1.1, ?_, ?_⟩
  · have := h3.1
    rw [hm] at this
    simp only [seedState, List.length_nil, Nat.zero_add] at this
    omega
  · intro r hr
    have hin : r ∈ s'.trace := by
      by_contra hn
      rw [h2.1 r, if_neg (fun hh => hn hh.1)] at hr
      exact hr rfl
    exact ⟨hin, List.count_eq_one_of_mem hnd hin⟩

/-- The seed loop of the multi-criteria grower from the zero state, for in-bounds seeds: it
returns with an empty queue after at most `rows * cols` dequeues in total, the
marking-on-enqueue invariant holds at the end, and every labelled pixel was dequeued, exactly
once. -/
theorem edge_marking (enhanced gradMag binary : Mat) (T : Int) (seeds : List Point)
    (hin : ∀ x ∈ seeds, InGrid enhanced.rows enhanced.cols x) :
    ∃ s', edgeGrow enhanced gradMag binary T seeds = some s' ∧ s'.q = [] ∧ MarkInv s' ∧
      s'.trace.length ≤ enhanced.rows * enhanced.cols ∧
      (∀ r : Point, s'.segmented.px r.y r.x ≠ 0 → r ∈ s'.trace ∧ s'.trace.count r = 1) := by
  have main : ∃ s', edgeGrow enhanced gradMag binary T seeds = some s' ∧
      (s'.q = [] ∧ MarkInv s' ∧
        (∀ r : Point, s'.segmented.px r.y r.x =
          if r ∈ s'.trace ∧ (edgeLoop enhanced gradMag binary T ⟨0, 0⟩).accept r = true
          then (edgeLoop enhanced gradMag binary T ⟨0, 0⟩).newColor
          else (Mat.zeros enhanced.rows enhanced.cols).px r.y r.x) ∧
        s'.trace.length + unvisited (edgeLoop enhanced gradMag binary T ⟨0, 0⟩) s'.visited
          = enhanced.rows * enhanced.cols) := by
    unfold edgeGrow
    apply growSeeds_induct (edgeLoop enhanced gradMag binary T) _
      (fun t => t.q = [] ∧ MarkInv t ∧
        (∀ r : Point, t.segmented.px r.y r.x =
          if r ∈ t.trace ∧ (edgeLoop enhanced gradMag binary T ⟨0, 0⟩).accept r = true
          then (edgeLoop enhanced gradMag binary T ⟨0, 0⟩).newColor
          else (Mat.zeros enhanced.rows enhanced.cols).px r.y r.x) ∧
        t.trace.length + unvisited (edgeLoop enhanced gradMag binary T ⟨0, 0⟩) t.visited
          = enhanced.rows * enhanced.cols)
      (fun x => InGrid enhanced.rows enhanced.cols x)
    · intro seed t hQ hP
      obtain ⟨hq, hmark, hlab, hcount⟩ := hP
      by_cases hv : t.visited.px seed.y seed.x ≠ 0
      · exact ⟨t, processSeed_skip _ _ _ _ hv, hq, hmark, hlab, hcount⟩
      · have hV : t.visited.px seed.y seed.x = 0 := by simpa using hv
        have hun := unvisited_set (edgeLoop enhanced gradMag binary T seed) t.visited
          seed.x seed.y hQ.1 hQ.2.1 hQ.2.2.1 hQ.2.2.2 hV
        have hun0 : unvisited (edgeLoop enhanced gradMag binary T seed) t.visited
            = unvisited (edgeLoop enhanced gradMag binary T ⟨0, 0⟩) t.visited := rfl
        have hmeas : bfsMeasure (edgeLoop enhanced gradMag binary T seed)
            { t with q := [seed], visited := t.visited.set seed.y seed.x 1 }
            = unvisited (edgeLoop enhanced gradMag binary T seed) t.visited := by
          simp only [bfsMeasure, List.length_singleton]
          exact hun
        obtain ⟨s', hs'⟩ := bfsRun_terminates (edgeLoop enhanced gradMag binary T seed)
          (enhanced.rows * enhanced.cols + 1)
          { t with q := [seed], visited := t.visited.set seed.y seed.x 1 }
          (by rw [hmeas, hun0]; omega)
        have h1 := bfsRun_induct _ MarkInv
          (fun s p rest h hq => bfsStep_markInv _ p rest s hq h) _ _ s'
          (markInv_start t seed hmark hq hV) hs'
        have h2 := bfsRun_induct (edgeLoop enhanced gradMag binary T seed)
          (fun t => ∀ r : Point, t.segmented.px r.y r.x =
            if r ∈ t.trace ∧ (edgeLoop enhanced gradMag binary T seed).accept r = true
            then (edgeLoop enhanced gradMag binary T seed).newColor
            else (Mat.zeros enhanced.rows enhanced.cols).px r.y r.x)
          (fun s p rest h _ => bfsStep_label _ _ s p rest h) _
          { t with q := [seed], visited := t.visited.set seed.y seed.x 1 } s' hlab hs'
        have h3 := bfsRun_dequeues _ _ _ _ hs'
        refine ⟨s', ?_, h1.2, h1.1, h2.1, ?_⟩
        · unfold processSeed
          rw [if_neg (by simpa using hV)]
          exact hs'
        · have h4 := h3.1
          rw [hmeas] at h4
          have hun1 : unvisited (edgeLoop enhanced gradMag binary T seed) s'.visited
              = unvisited (edgeLoop enhanced gradMag binary T ⟨0, 0⟩) s'.visited := rfl
          rw [hun1, hun0] at h4
          simp only at h4
          omega
    · exact hin
    · refine ⟨rfl, ⟨by simp, by simp, by simp⟩, fun r => by simp, ?_⟩
      have := unvisited_zeros (edgeLoop enhanced gradMag binary T ⟨0, 0⟩)
      simpa using this
  obtain ⟨s', hs', hq, hmark, hlab, hcount⟩ := main
  have hnd : s'.trace.Nodup := by
    have := hmark.once
    rw [hq, List.append_nil] at this
    exact this
  refine ⟨s', hs', hq, hmark, by omega, ?_⟩
  intro r hr
  have hmem : r ∈ s'.trace := by
    by_contra hn
    rw [hlab r, if_neg (fun hh => hn hh.1)] at hr
    exact hr rfl
  exact ⟨hmem, List.count_eq_one_of_mem hnd hmem⟩

/-- Claim C21.  The marking-on-enqueue invariant is kept by every breadth-first loop.  For any
loop: one iteration keeps it and never clears a visited mark; an examination pushes only a
coordinate that is not marked visited; and pushing an unvisited seed on an empty queue keeps
it.  Hence at the end of both 4-directional fills, the 8-directional fill, the seeded grower
and the multi-seed grower (across all of its seeds) every dequeued coordinate is marked visited
and occurs once, so each coordinate entered the queue at most once, and every pixel written by
the loop was dequeued exactly once. -/
theorem marking_on_enqueue (binary gray enhanced gradMag mask : Mat) (seed : Point)
    (threshold T : Int) (seeds : List Point)
    (hr : 0 < binary.rows) (hc : 0 < binary.cols)
    (hseed : InGrid gray.rows gray.cols seed)
    (hin : ∀ x ∈ seeds, InGrid enhanced.rows enhanced.cols x) :
    (∀ (L : BfsLoop) (p : Point) (rest : List Point) (s : BfsState), s.q = p :: rest →
      MarkInv s → MarkInv (bfsStep L p rest s) ∧
        ∀ r : Point, s.visited.px r.y r.x ≠ 0 → (bfsStep L p rest s).visited.px r.y r.x ≠ 0) ∧
    (∀ (L : BfsLoop) (p : Point) (i : Nat) (d : Int × Int) (s : BfsState),
      examine L p i d s = s ∨
      (s.visited.px (p.shift d).y (p.shift d).x = 0 ∧
        examine L p i d s = s.push (p.shift d))) ∧
    (∀ (s : BfsState) (sd : Point), MarkInv s → s.q = [] → s.visited.px sd.y sd.x = 0 →
      MarkInv { s with q := [sd], visited := s.visited.set sd.y sd.x 1 }) ∧
    (∃ s, backtrackingFill binary = some s ∧ s.q = [] ∧ MarkInv s ∧
      ∀ r : Point, s.segmented.px r.y r.x ≠ binary.px r.y r.x →
        r ∈ s.trace ∧ s.trace.count r = 1) ∧
    (∃ s, improvedFill binary = some s ∧ s.q = [] ∧ MarkInv s ∧
      ∀ r : Point, s.segmented.px r.y r.x ≠ binary.px r.y r.x →
        r ∈ s.trace ∧ s.trace.count r = 1) ∧
    (∃ s, eightDirFill binary = some s ∧ s.q = [] ∧ MarkInv s ∧
      ∀ r : Point, s.segmented.px r.y r.x ≠ binary.px r.y r.x →
        r ∈ s.trace ∧ s.trace.count r = 1) ∧
    (∃ s, regionGrowingFill gray seed threshold = some s ∧ s.q = [] ∧ MarkInv s ∧
      ∀ r : Point, s.segmented.px r.y r.x ≠ 0 → r ∈ s.trace ∧ s.trace.count r = 1) ∧
    (∃ s, edgeGrow enhanced gradMag mask T seeds = some s ∧ s.q = [] ∧ MarkInv s ∧
      ∀ r : Point, s.segmented.px r.y r.x ≠ 0 → r ∈ s.trace ∧ s.trace.count r = 1) := by
  have hcs := centreSeed_inGrid binary hr hc
  refine ⟨?_, ?_, ?_, ?_, ?_, ?_, ?_, ?_⟩
  · intro L p rest s hq h
    exact ⟨bfsStep_markInv L p rest s hq h, fun r hr => bfsStep_mono L p rest s r hr⟩
  · intro L p i d s
    rcases examine_cases L p i d s with h | h
    · left; exact h
    · right; exact ⟨h.1, h.2.2.1⟩
  · intro s sd h hq hV
    exact markInv_start s sd h hq hV
  · obtain ⟨s, hs, hq, hm, _, hl⟩ := seeded_marking (backtrackingLoop binary)
      (centreSeed binary) binary hcs
    exact ⟨s, hs, hq, hm, hl⟩
  · obtain ⟨s, hs, hq, hm, _, hl⟩ := seeded_marking (improvedLoop binary)
      (centreSeed binary) binary hcs
    exact ⟨s, hs, hq, hm, hl⟩
  · obtain ⟨s, hs, hq, hm, _, hl⟩ := seeded_marking (eightDirLoop binary)
      (centreSeed binary) binary hcs
    exact ⟨s, hs, hq, hm, hl⟩
  · obtain ⟨s, hs, hq, hm, _, hl⟩ := seeded_marking (regionGrowingLoop gray seed threshold)
      seed (Mat.zeros gray.rows gray.cols) hseed
    exact ⟨s, hs, hq, hm, hl⟩
  · obtain ⟨s, hs, hq, hm, _, hl⟩ := edge_marking enhanced gradMag mask T seeds hin
    exact ⟨s, hs, hq, hm, hl⟩

/-- Witness for C21: the grid `grid3`, the row `grayRow` with seed `(0, 0)` and tolerance 10,
and the 1 x 3 image with the seeds `(0, 0), (1, 0)` and threshold 15. -/
theorem marking_on_enqueue_witness :
    0 < grid3.rows ∧ 0 < grid3.cols ∧ InGrid grayRow.rows grayRow.cols ⟨0, 0⟩ ∧
    (∀ x ∈ [(⟨0, 0⟩ : Point), ⟨1, 0⟩], InGrid rowEnhanced.rows rowEnhanced.cols x) ∧
    (∃ s, eightDirFill grid3 = some s ∧ s.q = [] ∧ MarkInv s ∧
      ∀ r : Point, s.segmented.px r.y r.x ≠ grid3.px r.y r.x →
        r ∈ s.trace ∧ s.trace.count r = 1) ∧
    (∃ s, edgeGrow rowEnhanced rowGradient rowMask 15 [⟨0, 0⟩, ⟨1, 0⟩] = some s ∧ s.q = [] ∧
      MarkInv s ∧
      ∀ r : Point, s.segmented.px r.y r.x ≠ 0 → r ∈ s.trace ∧ s.trace.count r = 1) :=
  ⟨by decide, by decide, by decide, by decide,
    (marking_on_enqueue grid3 grayRow rowEnhanced rowGradient rowMask ⟨0, 0⟩ 10 15
      [⟨0, 0⟩, ⟨1, 0⟩] (by decide) (by decide) (by decide) (by decide)).2.2.2.2.2.1,
    (marking_on_enqueue grid3 grayRow rowEnhanced rowGradient rowMask ⟨0, 0⟩ 10 15
      [⟨0, 0⟩, ⟨1, 0⟩] (by decide) (by decide) (by decide) (by decide)).2.2.2.2.2.2.2⟩

/-- Claim C22.  Every breadth-first loop terminates on every finite grid.  Each push lowers
the number of unvisited pixels by one; a run with more fuel than unvisited pixels plus queue
length returns with an empty queue, and the number of its dequeues plus the unvisited pixels
left equals the initial measure.  Hence both 4-directional fills, the 8-directional fill, the
seeded grower and the whole multi-seed run (whose visited grid is shared by all seeds) return,
after at most `rows * cols` dequeues. -/
theorem bfs_loops_terminate (binary gray enhanced gradMag mask : Mat) (seed : Point)
    (threshold T : Int) (seeds : List Point)
    (hr : 0 < binary.rows) (hc : 0 < binary.cols)
    (hseed : InGrid gray.rows gray.cols seed)
    (hin : ∀ x ∈ seeds, InGrid enhanced.rows enhanced.cols x) :
    (∀ (L : BfsLoop) (p : Point) (i : Nat) (d : Int × Int) (s : BfsState),
      examine L p i d s = s ∨
      (examine L p i d s = s.push (p.shift d) ∧
        unvisited L (examine L p i d s).visited + 1 = unvisited L s.visited)) ∧
    (∀ (L : BfsLoop) (fuel : Nat) (s : BfsState), bfsMeasure L s < fuel →
      ∃ s', bfsRun L fuel s = some s' ∧ s'.q = [] ∧
        s'.trace.length + unvisited L s'.visited = s.trace.length + bfsMeasure L s) ∧
    (∃ s, backtrackingFill binary = some s ∧ s.q = [] ∧
      s.trace.length ≤ binary.rows * binary.cols) ∧
    (∃ s, improvedFill binary = some s ∧ s.q = [] ∧
      s.trace.length ≤ binary.rows * binary.cols) ∧
    (∃ s, eightDirFill binary = some s ∧ s.q = [] ∧
      s.trace.length ≤ binary.rows * binary.cols) ∧
    (∃ s, regionGrowingFill gray seed threshold = some s ∧ s.q = [] ∧
      s.trace.length ≤ gray.rows * gray.cols) ∧
    (∃ s, edgeGrow enhanced gradMag mask T seeds = some s ∧ s.q = [] ∧
      s.trace.length ≤ enhanced.rows * enhanced.cols) := by
  have hcs := centreSeed_inGrid binary hr hc
  refine ⟨?_, ?_, ?_, ?_, ?_, ?_, ?_⟩
  · intro L p i d s
    rcases examine_cases L p i d s with h | h
    · left; exact h
    · right; exact ⟨h.2.2.1, h.2.2.2⟩
  · intro L fuel s hlt
    obtain ⟨s', hs'⟩ := bfsRun_terminates L fuel s hlt
    have h := bfsRun_dequeues L fuel s s' hs'
    exact ⟨s', hs', h.2, h.1⟩
  · obtain ⟨s, hs, hq, _, hn, _⟩ := seeded_marking (backtrackingLoop binary)
      (centreSeed binary) binary hcs
    exact ⟨s, hs, hq, hn⟩
  · obtain ⟨s, hs, hq, _, hn, _⟩ := seeded_marking (improvedLoop binary)
      (centreSeed binary) binary hcs
    exact ⟨s, hs, hq, hn⟩
  · obtain ⟨s, hs, hq, _, hn, _⟩ := seeded_marking (eightDirLoop binary)
      (centreSeed binary) binary hcs
    exact ⟨s, hs, hq, hn⟩
  · obtain ⟨s, hs, hq, _, hn, _⟩ := seeded_marking (regionGrowingLoop gray seed threshold)
      seed (Mat.zeros gray.rows gray.cols) hseed
    exact ⟨s, hs, hq, hn⟩
  · obtain ⟨s, hs, hq, _, hn, _⟩ := edge_marking enhanced gradMag mask T seeds hin
    exact ⟨s, hs, hq, hn⟩

/-- Witness for C22 on the same inputs as for C21. -/
theorem bfs_loops_terminate_witness :
    0 < grid3.rows ∧ 0 < grid3.cols ∧ InGrid grayRow.rows grayRow.cols ⟨0, 0⟩ ∧
    (∀ x ∈ [(⟨0, 0⟩ : Point), ⟨1, 0⟩], InGrid rowEnhanced.rows rowEnhanced.cols x) ∧
    (∃ s, backtrackingFill grid3 = some s ∧ s.q = [] ∧
      s.trace.length ≤ grid3.rows * grid3.cols) ∧
    (∃ s, edgeGrow rowEnhanced rowGradient rowMask 15 [⟨0, 0⟩, ⟨1, 0⟩] = some s ∧ s.q = [] ∧
      s.trace.length ≤ rowEnhanced.rows * rowEnhanced.cols) :=
  ⟨by decide, by decide, by decide, by decide,
    (bfs_loops_terminate grid3 grayRow rowEnhanced rowGradient rowMask ⟨0, 0⟩ 10 15
      [⟨0, 0⟩, ⟨1, 0⟩] (by decide) (by decide) (by decide) (by decide)).2.2.1,
    (bfs_loops_terminate grid3 grayRow rowEnhanced rowGradient rowMask ⟨0, 0⟩ 10 15
      [⟨0, 0⟩, ⟨1, 0⟩] (by decide) (by decide) (by decide) (by decide)).2.2.2.2.2.2⟩

/-! ## The diagonal check of the 8-directional fill -/

theorem visitNeighbours_append (L : BfsLoop) (p : Point) (l1 l2 : List (Int × Int)) :
    ∀ (i : Nat) (s : BfsState), visitNeighbours L p i (l1 ++ l2) s =
      visitNeighbours L p (i + l1.length) l2 (visitNeighbours L p i l1 s) := by
  induction l1 with
  | nil => intro i s; rfl
  | cons d ds ih =>
    intro i s
    rw [List.cons_append]
    simp only [visitNeighbours, List.length_cons]
    rw [ih]
    congr 1
    omega

/-- The flag `isValid` is true when both bridge pixels are marked visited. -/
theorem isValid8_of_bridges (binary visited : Mat) (p : Point) (i : Nat) (n : Point)
    (h1 : visited.px p.y n.x ≠ 0) (h2 : visited.px n.y p.x ≠ 0) :
    isValid8 binary visited p i n = true := by
  simp [isValid8, h1, h2]

/-- An examination whose flag `isValid` is true for an in-bounds neighbour acts as in the
plain 8-directional fill. -/
theorem examine_eight_eq (binary : Mat) (p : Point) (i : Nat) (d : Int × Int) (s : BfsState)
    (h : (eightDirLoop binary).inside (p.shift d) →
      isValid8 binary s.visited p i (p.shift d) = true) :
    examine (eightDirLoop binary) p i d s = examine (plainEightLoop binary) p i d s := by
  rw [examine_eq, examine_eq]
  by_cases hin : (eightDirLoop binary).inside (p.shift d)
  · have hE : (eightDirLoop binary).gate s.visited p i (p.shift d) = true := h hin
    have hP : (plainEightLoop binary).gate s.visited p i (p.shift d) = true := rfl
    have hin2 : (plainEightLoop binary).inside (p.shift d) := hin
    simp only [hE, hP, hin, hin2]
  · have hin2 : ¬ (plainEightLoop binary).inside (p.shift d) := hin
    rw [if_neg (fun h => hin h.1), if_neg (fun h => hin2 h.1)]

/-- After the four orthogonal offsets have been examined, every in-bounds orthogonal
neighbour of the current pixel is marked visited. -/
theorem orthogonal_visited (binary : Mat) (p : Point) (s : BfsState) (d : Int × Int)
    (hd : d ∈ [((1 : Int), (0 : Int)), (-1, 0), (0, 1), (0, -1)])
    (hin : (plainEightLoop binary).inside (p.shift d)) :
    (visitNeighbours (plainEightLoop binary) p 0 [(1, 0), (-1, 0), (0, 1), (0, -1)] s).visited.px
      (p.shift d).y (p.shift d).x ≠ 0 := by
  obtain ⟨k, hk⟩ := List.get?_of_mem hd
  exact visitNeighbours_covers (plainEightLoop binary) p (fun _ _ _ => True)
    (fun _ _ _ _ _ => rfl) _ 0 s k d hk hin trivial

/-- With every in-bounds orthogonal neighbour of the in-bounds pixel `p` marked visited, the
flag `isValid` is true for every in-bounds diagonal neighbour of `p`. -/
theorem isValid8_after_orthogonal (binary visited : Mat) (p : Point) (i : Nat) (d : Int × Int)
    (hp : (eightDirLoop binary).inside p)
    (hv : ∀ e ∈ [((1 : Int), (0 : Int)), (-1, 0), (0, 1), (0, -1)],
      (plainEightLoop binary).inside (p.shift e) → visited.px (p.shift e).y (p.shift e).x ≠ 0)
    (hd : (d.1 = 1 ∨ d.1 = -1) ∧ (d.2 = 1 ∨ d.2 = -1))
    (hin : (eightDirLoop binary).inside (p.shift d)) :
    isValid8 binary visited p i (p.shift d) = true := by
  obtain ⟨hp1, hp2, hp3, hp4⟩ := hp
  obtain ⟨hn1, hn2, hn3, hn4⟩ := hin
  simp only [Point.shift] at hn1 hn2 hn3 hn4
  apply isValid8_of_bridges
  · have h := hv (d.1, 0) (by rcases hd.1 with h | h <;> rw [h] <;> simp)
      ⟨by simpa [Point.shift] using hn1, by simpa [Point.shift] using hp2,
        by simpa [Point.shift] using hn3, by simpa [Point.shift] using hp4⟩
    simpa [Point.shift] using h
  · have h := hv (0, d.2) (by rcases hd.2 with h | h <;> rw [h] <;> simp)
      ⟨by simpa [Point.shift] using hp1, by simpa [Point.shift] using hn2,
        by simpa [Point.shift] using hp3, by simpa [Point.shift] using hn4⟩
    simpa [Point.shift] using h

theorem visitNeighbours_orthogonal_eq (binary : Mat) (p : Point) (ds : List (Int × Int)) :
    ∀ (i : Nat) (s : BfsState), i + ds.length ≤ 4 →
      visitNeighbours (eightDirLoop binary) p i ds s =
        visitNeighbours (plainEightLoop binary) p i ds s := by
  induction ds with
  | nil => intro i s _; rfl
  | cons d ds ih =>
    intro i s hlen
    simp only [List.length_cons] at hlen
    simp only [visitNeighbours]
    rw [examine_eight_eq binary p i d s (fun _ => by
      have : ¬ i ≥ 4 := by omega
      simp [isValid8, this])]
    exact ih _ _ (by omega)

theorem visitNeighbours_diagonal_eq (binary : Mat) (p : Point)
    (hp : (eightDirLoop binary).inside p) (ds : List (Int × Int)) :
    ∀ (i : Nat) (s : BfsState),
      (∀ d ∈ ds, (d.1 = 1 ∨ d.1 = -1) ∧ (d.2 = 1 ∨ d.2 = -1)) →
      (∀ e ∈ [((1 : Int), (0 : Int)), (-1, 0), (0, 1), (0, -1)],
        (plainEightLoop binary).inside (p.shift e) →
        s.visited.px (p.shift e).y (p.shift e).x ≠ 0) →
      visitNeighbours (eightDirLoop binary) p i ds s =
        visitNeighbours (plainEightLoop binary) p i ds s := by
  induction ds with
  | nil => intro i s _ _; rfl
  | cons d ds ih =>
    intro i s hds hv
    simp only [visitNeighbours]
    rw [examine_eight_eq binary p i d s (fun hin =>
      isValid8_after_orthogonal binary s.visited p i d hp hv
        (hds d (List.mem_cons_self _ _)) hin)]
    apply ih
    · intro e he
      exact hds e (List.mem_cons_of_mem _ he)
    · intro e he hin
      exact examine_mono _ p i d s _ (hv e he hin)

/-- The neighbour loop of the 8-directional fill at an in-bounds pixel acts as the one of the
plain 8-directional fill. -/
theorem visitNeighbours_eight_eq (binary : Mat) (p : Point) (s : BfsState)
    (hp : (eightDirLoop binary).inside p) :
    visitNeighbours (eightDirLoop binary) p 0 (eightDirLoop binary).dirs s =
      visitNeighbours (plainEightLoop binary) p 0 (plainEightLoop binary).dirs s := by
  have hE : (eightDirLoop binary).dirs =
      [(1, 0), (-1, 0), (0, 1), (0, -1)] ++ [(1, 1), (-1, -1), (1, -1), (-1, 1)] := rfl
  have hP : (plainEightLoop binary).dirs =
      [(1, 0), (-1, 0), (0, 1), (0, -1)] ++ [(1, 1), (-1, -1), (1, -1), (-1, 1)] := rfl
  rw [hE, hP, visitNeighbours_append, visitNeighbours_append,
    visitNeighbours_orthogonal_eq binary p _ 0 s (by simp)]
  apply visitNeighbours_diagonal_eq binary p hp
  · intro d hd
    simp only [List.mem_cons, List.mem_singleton, List.not_mem_nil, or_false] at hd
    rcases hd with h | h | h | h <;> rw [h] <;> simp
  · intro e he hin
    exact orthogonal_visited binary p s e he hin

theorem bfsStep_eight_eq (binary : Mat) (p : Point) (rest : List Point) (s : BfsState)
    (hp : (eightDirLoop binary).inside p) :
    bfsStep (eightDirLoop binary) p rest s = bfsStep (plainEightLoop binary) p rest s := by
  unfold bfsStep
  simp only
  rw [visitNeighbours_eight_eq binary p _ hp]
  rfl

/-- Every coordinate pushed by an iteration lies in the grid. -/
theorem bfsStep_queue_inside (L : BfsLoop) (p : Point) (rest : List Point) (s : BfsState)
    (h : ∀ r ∈ rest, L.inside r) : ∀ r ∈ (bfsStep L p rest s).q, L.inside r := by
  apply bfsStep_induct L p rest s (fun t => ∀ r ∈ t.q, L.inside r)
  · intro _; exact h
  · intro _; exact h
  · intro t k d _ ht _ hin _ _ r hr
    rw [BfsState.push_q, List.mem_append, List.mem_singleton] at hr
    rcases hr with hr | hr
    · exact ht r hr
    · rw [hr]; exact hin

theorem bfsRun_eight_eq (binary : Mat) :
    ∀ (fuel : Nat) (s : BfsState), (∀ r ∈ s.q, (eightDirLoop binary).inside r) →
      bfsRun (eightDirLoop binary) fuel s = bfsRun (plainEightLoop binary) fuel s := by
  intro fuel
  induction fuel with
  | zero => intro s _; rfl
  | succ n ih =>
    intro s hq
    unfold bfsRun
    split
    · rfl
    · rename_i p rest hs
      rw [hs] at hq
      rw [bfsStep_eight_eq binary p rest s (hq p (List.mem_cons_self _ _))]
      apply ih
      intro r hr
      exact bfsStep_queue_inside (plainEightLoop binary) p rest s
        (fun x hx => hq x (List.mem_cons_of_mem _ hx)) r hr

theorem plainEight_adj8 (binary : Mat) (a b : Point) :
    Adj8 a b ↔ ∃ (k : Nat) (d : Int × Int),
      (plainEightLoop binary).dirs.get? k = some d ∧ b = a.shift d :=
  edge_adj8 binary binary binary 0 ⟨0, 0⟩ a b

/-- The complete specification of the 8-directional fill before closing: on a non-empty grid
it runs as the plain 8-directional fill, the dequeued matching pixels are the 8-connected
component of the seed, and the output is the binarized grid overwritten with 128 on it. -/
theorem eightDirFill_complete (binary : Mat) (hr : 0 < binary.rows) (hc : 0 < binary.cols) :
    ∃ s, eightDirFill binary = some s ∧
      bfsRun (plainEightLoop binary) (binary.rows * binary.cols + 1)
        (seedState (plainEightLoop binary) (centreSeed binary) binary) = some s ∧
      (∀ p : Point, (p ∈ s.trace ∧ Matches binary p) ↔ SeedComponent8 binary p) ∧
      (∀ p : Point, SeedComponent8 binary p → s.segmented.px p.y p.x = 128) ∧
      (∀ p : Point, ¬ SeedComponent8 binary p → s.segmented.px p.y p.x = binary.px p.y p.x) := by
  have hseed : (plainEightLoop binary).inside (centreSeed binary) :=
    centreSeed_inGrid binary hr hc
  obtain ⟨s, hs, _, hseg, hsound, hcompl⟩ := seeded_run (plainEightLoop binary)
    (centreSeed binary) binary hseed (fun _ _ _ => True) (fun _ _ _ => True)
    (fun _ _ _ _ _ => trivial) (fun _ _ _ _ _ => rfl)
  have hacc : ∀ p, (plainEightLoop binary).accept p = true ↔ Matches binary p := by
    intro p; simp [plainEightLoop, Matches]
  have hchar : ∀ p : Point, (p ∈ s.trace ∧ Matches binary p) ↔ SeedComponent8 binary p := by
    intro p
    unfold SeedComponent8
    constructor
    · rintro ⟨h1, h2⟩
      have hreach := hsound p h1
      induction hreach with
      | start => exact Joined8.start hseed h2
      | step hprev ha hk hin _ ih =>
        have hq := hcompl _ hprev
        exact Joined8.step (ih hq ((hacc _).1 ha))
          ((plainEight_adj8 binary _ _).2 ⟨_, _, hk, rfl⟩) hin h2
    · intro hj
      have key : Reach (plainEightLoop binary) (fun _ _ _ => True) (centreSeed binary) p ∧
          Matches binary p := by
        induction hj with
        | start _ hok => exact ⟨Reach.start, hok⟩
        | step _ hadj hin hok ih =>
          obtain ⟨k, d, hk, hb⟩ := (plainEight_adj8 binary _ _).1 hadj
          subst hb
          exact ⟨Reach.step ih.1 ((hacc _).2 ih.2) hk hin trivial, hok⟩
      exact ⟨hcompl p key.1, key.2⟩
  refine ⟨s, ?_, hs, hchar, ?_, ?_⟩
  · unfold eightDirFill
    rw [bfsRun_eight_eq binary _ _ (by
      intro r hr
      simp only [seedState, List.mem_singleton] at hr
      rw [hr]; exact hseed)]
    exact hs
  · intro p hp
    have h := (hchar p).2 hp
    rw [hseg p, if_pos ⟨h.1, (hacc p).2 h.2⟩]
    rfl
  · intro p hp
    rw [hseg p, if_neg (fun hh => hp ((hchar p).1 ⟨hh.1, (hacc p).1 hh.2⟩))]

/-- Claim C23.  In `backtrackingSegmentation8Dir` the diagonal bridge check never rejects a
neighbour.  For an in-bounds dequeued pixel `p`: once the four orthogonal offsets have been
examined, in every later state of the neighbour loop (one whose visited grid contains the
one reached then) the flag `isValid` is true for every direction index and in-bounds
neighbour, and the whole neighbour loop acts as the one without the check.  Consequently, on
every non-empty binarized grid the fill returns the result of the plain 8-directional fill,
and the pixels of the grid marked 128 are exactly the 8-connected component of the centre
seed among the match-valued pixels. -/
theorem bridge_check_never_rejects (binary : Mat) (hr : 0 < binary.rows)
    (hc : 0 < binary.cols) (hbin : IsBinarized binary) :
    (∀ (p : Point) (s t : BfsState) (i : Nat) (d : Int × Int),
      (eightDirLoop binary).inside p →
      (∀ r : Point, (visitNeighbours (eightDirLoop binary) p 0
          [(1, 0), (-1, 0), (0, 1), (0, -1)] s).visited.px r.y r.x ≠ 0 →
        t.visited.px r.y r.x ≠ 0) →
      (eightDirLoop binary).dirs.get? i = some d → (eightDirLoop binary).inside (p.shift d) →
      isValid8 binary t.visited p i (p.shift d) = true) ∧
    (∀ (p : Point) (s : BfsState), (eightDirLoop binary).inside p →
      visitNeighbours (eightDirLoop binary) p 0 (eightDirLoop binary).dirs s =
        visitNeighbours (plainEightLoop binary) p 0 (plainEightLoop binary).dirs s) ∧
    eightDirFill binary = bfsRun (plainEightLoop binary) (binary.rows * binary.cols + 1)
      (seedState (plainEightLoop binary) (centreSeed binary) binary) ∧
    ∃ out, backtrackingSegmentation8Dir binary = some out ∧
      ∀ p : Point, InGrid binary.rows binary.cols p →
        (out.px p.y p.x = 128 ↔ SeedComponent8 binary p) := by
  refine ⟨?_, ?_, ?_, ?_⟩
  · intro p s t i d hp ht hk hin
    by_cases hi : i < 4
    · have : ¬ i ≥ 4 := by omega
      simp [isValid8, this]
    · have hd : d ∈ [((1 : Int), (1 : Int)), (-1, -1), (1, -1), (-1, 1)] := by
        have hlen : i < 8 := by
          by_contra hge
          have : (eightDirLoop binary).dirs.get? i = none := by
            apply List.get?_eq_none.2
            simp only [eightDirLoop, List.length_cons, List.length_nil]
            omega
          rw [this] at hk
          exact absurd hk (by simp)
        have hi4 : i = 4 ∨ i = 5 ∨ i = 6 ∨ i = 7 := by omega
        rcases hi4 with h | h | h | h <;> subst h <;>
          simp only [eightDirLoop, List.get?_cons_succ, List.get?_cons_zero,
            Option.some.injEq] at hk <;> rw [← hk] <;> simp
      apply isValid8_after_orthogonal binary t.visited p i d hp _ _ hin
      · intro e he hine
        apply ht
        rw [visitNeighbours_orthogonal_eq binary p _ 0 s (by simp)]
        exact orthogonal_visited binary p s e he hine
      · simp only [List.mem_cons, List.mem_singleton, List.not_mem_nil, or_false] at hd
        rcases hd with h | h | h | h <;> rw [h] <;> simp
  · intro p s hp
    exact visitNeighbours_eight_eq binary p s hp
  · obtain ⟨s, h1, h2, _⟩ := eightDirFill_complete binary hr hc
    rw [h1, h2]
  · obtain ⟨s, h1, _, hchar, hin, hout⟩ := eightDirFill_complete binary hr hc
    refine ⟨s.segmented, by simp [backtrackingSegmentation8Dir, h1], ?_⟩
    intro p hp
    constructor
    · intro h128
      by_contra hn
      rw [hout p hn] at h128
      exact binarized_ne_128 binary hbin p hp h128
    · exact hin p

/-- Witness for C23 on the grid `grid3`. -/
theorem bridge_check_never_rejects_witness :
    0 < grid3.rows ∧ 0 < grid3.cols ∧ IsBinarized grid3 ∧
    ∃ out, backtrackingSegmentation8Dir grid3 = some out ∧
      ∀ p : Point, InGrid grid3.rows grid3.cols p →
        (out.px p.y p.x = 128 ↔ SeedComponent8 grid3 p) :=
  ⟨by decide, by decide, grid3_binarized,
    (bridge_check_never_rejects grid3 (by decide) (by decide) grid3_binarized).2.2.2⟩

end ImageSegmentation
